import Mathlib

/-!
Verification of the htmlfy protection / ignore round-trip pipeline and its
configuration model, shallowly embedded from `src/node_modules/htmlfy/src/utils.js`
and `src/node_modules/htmlfy/src/constants.js`.

Strings are modelled as `List Char` (JS UTF-16 code units; all characters used
here are in the BMP).  Each JS regular-expression `replace` call is embedded as
an executable scanner that is faithful to the deterministic backtracking
semantics of the concrete pattern it uses.
-/

namespace Htmlfy

/-! ## Character classes of the JS regexes -/

/-- JS `\w` together with the extra characters `:` and `-` of the character
class `[\w:\-]` used by the attribute-protection regex. -/
def isTagChar (c : Char) : Bool :=
  (('A' ≤ c && c ≤ 'Z') || ('a' ≤ c && c ≤ 'z') || ('0' ≤ c && c ≤ '9')
    || c = '_' || c = ':' || c = '-')

/-- JS `\s`: the full ECMAScript WhiteSpace ∪ LineTerminator set. -/
def isWsJS (c : Char) : Bool :=
  (c = ' ' || c = '\t' || c = '\n' || c = '\r'
    || c.val = 11 || c.val = 12 || c.val = 160 || c.val = 0x1680
    || (0x2000 ≤ c.val && c.val ≤ 0x200a)
    || c.val = 0x2028 || c.val = 0x2029 || c.val = 0x202f
    || c.val = 0x205f || c.val = 0x3000 || c.val = 0xfeff)

/-- Characters matched by the JS alternative `(.|\n)`: everything except the
line terminators `\r`, U+2028 and U+2029 (`.` excludes all four terminators,
and the alternative adds `\n` back). -/
def isDotNl (c : Char) : Bool :=
  (c ≠ '\r' && c.val ≠ 0x2028 && c.val ≠ 0x2029)

/-! ## Generic list-of-char utilities (JS string primitives) -/

/-- JS `String.prototype.replace` with a plain-string pattern: replace the
first occurrence of `pat` (leftmost), leave the rest unchanged. -/
def replaceFirst (pat repl : List Char) : List Char → List Char
  | [] => []
  | c :: cs =>
    if pat.isPrefixOf (c :: cs) then repl ++ (c :: cs).drop pat.length
    else c :: replaceFirst pat repl cs

/-- JS `String.prototype.replace` with a `new RegExp(pat, "g")` whose pattern
text contains no metacharacters: replace every (leftmost, non-overlapping)
occurrence of `pat`.  Fuelled so that it reduces definitionally. -/
def replaceAllF (pat repl : List Char) : Nat → List Char → List Char
  | 0, s => s
  | _ + 1, [] => []
  | n + 1, c :: cs =>
    if pat.isPrefixOf (c :: cs) then
      repl ++ replaceAllF pat repl n ((c :: cs).drop pat.length)
    else c :: replaceAllF pat repl n cs

/-- Entry point of `replaceAllF` with enough fuel. -/
def replaceAll (pat repl s : List Char) : List Char :=
  replaceAllF pat repl s.length s

/-- JS `String.prototype.replace` with a global single-character-class pattern
(such as `/\n/g` or `/\s/g`) and a plain replacement string. -/
def charReplace (p : Char → Bool) (repl : List Char) : List Char → List Char
  | [] => []
  | c :: cs => (if p c then repl else [c]) ++ charReplace p repl cs

/-- Whether `pat` occurs as a contiguous substring of `s`. -/
def containsSub (pat : List Char) : List Char → Bool
  | [] => pat.isPrefixOf ([] : List Char)
  | c :: cs => pat.isPrefixOf (c :: cs) || containsSub pat (c :: cs).tail

/-! ## Sentinel constants (`constants.js`) -/

/-- `ATTRIBUTE_IGNORE_STRING` from `constants.js`. -/
def ATTRIBUTE_IGNORE_STRING : List Char := "!i-£___£%_".data

/-- Attribute token for a newline: `ATTRIBUTE_IGNORE_STRING + 'nl!'`. -/
def tokNl : List Char := ATTRIBUTE_IGNORE_STRING ++ "nl!".data

/-- Attribute token for a carriage return: `ATTRIBUTE_IGNORE_STRING + 'cr!'`. -/
def tokCr : List Char := ATTRIBUTE_IGNORE_STRING ++ "cr!".data

/-- Attribute token for generic whitespace: `ATTRIBUTE_IGNORE_STRING + 'ws!'`. -/
def tokWs : List Char := ATTRIBUTE_IGNORE_STRING ++ "ws!".data

/-! ## The attribute-region matcher

The regex `/<[\w:\-]+([^>]*[^\/])>/g` of `protectAttributes` and
`unprotectAttributes`.  Deterministic backtracking semantics at one start
position: `[\w:\-]+` greedily tries the longest run of tag characters first,
and inside it `[^>]*` greedily tries the longest run of non-`>` characters
first; the first combination for which the trailing `[^\/]` and literal `>`
succeed wins. -/

/-- Length of the maximal leading run of `[\w:\-]` characters. -/
def wordRun : List Char → Nat
  | [] => 0
  | c :: cs => if isTagChar c then wordRun cs + 1 else 0

/-- Index of the first `'>'`, if any. -/
def gtIdx : List Char → Option Nat
  | [] => none
  | c :: cs => if c = '>' then some 0 else (gtIdx cs).map (· + 1)

/-- Can the single character matched by `[^\/]` sit at index `i` of `u`
(i.e. `u.get? i ≠ '/'`) with the literal `>` at index `i + 1`? -/
def capOk (u : List Char) (i : Nat) : Bool :=
  match u.get? i, u.get? (i + 1) with
  | some c, some d => c ≠ '/' && d = '>'
  | _, _ => false

/-- Backtracking over the position `i` of the `[^\/]` character, from the
first-`>` index downwards.  On success returns the capture `u.take (i+1)`
(the `[^>]*[^\/]` text) and the remainder after the final `>`. -/
def tryCapAux (u : List Char) : Nat → Option (List Char × List Char)
  | 0 => if capOk u 0 then some (u.take 1, u.drop 2) else none
  | i + 1 =>
    if capOk u (i + 1) then some (u.take (i + 2), u.drop (i + 3))
    else tryCapAux u i

/-- Match `([^>]*[^\/])>` at the start of `u`. -/
def tryCap (u : List Char) : Option (List Char × List Char) :=
  match gtIdx u with
  | none => none
  | some m => tryCapAux u m

/-- Backtracking over the length `k` of the `[\w:\-]+` run, from the maximal
run length downwards (`s` starts with `'<'`).  On success returns the match
head `'<'` + tag-name text, the capture, and the remainder after `>`. -/
def tryTagAux (s : List Char) : Nat → Option (List Char × List Char × List Char)
  | 0 => none
  | k + 1 =>
    match tryCap (s.drop (k + 2)) with
    | some (cap, rest) => some (s.take (k + 2), cap, rest)
    | none => tryTagAux s k

/-- Attempt to match `<[\w:\-]+([^>]*[^\/])>` at the start of `s`. -/
def tryMatchAttr (s : List Char) : Option (List Char × List Char × List Char) :=
  match s with
  | '<' :: cs => tryTagAux ('<' :: cs) (wordRun cs)
  | _ => none

/-- The global `replace` scan of the attribute regex: at each position, if the
regex matches, the whole match is rewritten by the JS callback
`match.replace(capture, f)` — i.e. the first occurrence of the capture string
inside the match is replaced by `f capture` — and scanning resumes after the
match; otherwise the character is copied.  Fuelled. -/
def attrScanF (f : List Char → List Char) : Nat → List Char → List Char
  | 0, s => s
  | _ + 1, [] => []
  | n + 1, c :: cs =>
    match tryMatchAttr (c :: cs) with
    | some (h, cap, rest) =>
      replaceFirst cap (f cap) (h ++ cap ++ ['>']) ++ attrScanF f n rest
    | none => c :: attrScanF f n cs

/-- Entry point of `attrScanF` with enough fuel. -/
def attrScan (f : List Char → List Char) (s : List Char) : List Char :=
  attrScanF f s.length s

/-- The protect callback of `protectAttributes`: three sequential global
replaces `\n → SENT+'nl!'`, `\r → SENT+'cr!'`, `\s → SENT+'ws!'`. -/
def encAttr (s : List Char) : List Char :=
  charReplace isWsJS tokWs
    (charReplace (· = '\r') tokCr
      (charReplace (· = '\n') tokNl s))

/-- The unprotect callback of `unprotectAttributes`: three sequential global
replaces `SENT+'nl!' → '\n'`, `SENT+'cr!' → '\r'`, `SENT+'ws!' → ' '`. -/
def decAttr (s : List Char) : List Char :=
  replaceAll tokWs [' ']
    (replaceAll tokCr ['\r']
      (replaceAll tokNl ['\n'] s))

/-- `protectAttributes` from `utils.js`. -/
def protectAttributes (html : String) : String :=
  ⟨attrScan encAttr html.data⟩

/-- `unprotectAttributes` from `utils.js`. -/
def unprotectAttributes (html : String) : String :=
  ⟨attrScan decAttr html.data⟩

/-! ## The element-ignore matcher

The per-tag regex `` new RegExp(`<${tag}[^>]*>((.|\n)*?)<\/${tag}>`, "g") `` of
`setIgnoreElement` and `unsetIgnoreElement`, for a tag name whose text contains
no regex metacharacters (every tag name used by the specification's examples is
alphanumeric).  After the literal `<` + tag, `[^>]*` must reach the first `>`
exactly (no shorter length can be followed by the literal `>`); the lazy group
`((.|\n)*?)` then grows one `(.|\n)` character at a time until the literal
closing tag follows. -/

/-- Match `[^>]*>`: the (forced) maximal run of non-`>` characters, and the
remainder after the `>`.  Fails if no `>` occurs. -/
def ngtRun : List Char → Option (List Char × List Char)
  | [] => none
  | c :: cs => if c = '>' then some ([], cs) else (ngtRun cs).map (fun p => (c :: p.1, p.2))

/-- The literal closing tag `</tag>`. -/
def closeTag (t : List Char) : List Char :=
  '<' :: '/' :: (t ++ ['>'])

/-- Lazy `((.|\n)*?)` followed by the literal `cl`: the shortest prefix of
`(.|\n)` characters after which `cl` occurs.  Returns the capture and the
remainder after `cl`. -/
def lazyCap (cl : List Char) : List Char → Option (List Char × List Char)
  | [] => none
  | c :: cs =>
    if cl.isPrefixOf (c :: cs) then some ([], (c :: cs).drop cl.length)
    else if isDotNl c then (lazyCap cl cs).map (fun p => (c :: p.1, p.2))
    else none

/-- Attempt to match `<tag[^>]*>((.|\n)*?)</tag>` at the start of `s`.
On success returns the opening-tag text `<tag[^>]*>`, the capture, and the
remainder after the closing tag. -/
def tryMatchElem (t : List Char) (s : List Char) : Option (List Char × List Char × List Char) :=
  if ('<' :: t).isPrefixOf s then
    match ngtRun (s.drop (t.length + 1)) with
    | none => none
    | some (attrs, afterGt) =>
      match lazyCap (closeTag t) afterGt with
      | none => none
      | some (cap, rest) => some ('<' :: (t ++ attrs ++ ['>']), cap, rest)
  else none

/-- The global `replace` scan of the element regex for one tag name: a match is
rewritten by `match.replace(capture, f)` (first occurrence of the capture
string inside the match replaced by `f capture`), scanning resumes after the
match.  Fuelled. -/
def elemScanF (t : List Char) (f : List Char → List Char) : Nat → List Char → List Char
  | 0, s => s
  | _ + 1, [] => []
  | n + 1, c :: cs =>
    match tryMatchElem t (c :: cs) with
    | some (h, cap, rest) =>
      replaceFirst cap (f cap) (h ++ cap ++ closeTag t) ++ elemScanF t f n rest
    | none => c :: elemScanF t f n cs

/-- Entry point of `elemScanF` with enough fuel. -/
def elemScan (t : List Char) (f : List Char → List Char) (s : List Char) : List Char :=
  elemScanF t f s.length s

/-- The element-ignore token `'-' + ignore_string + cls + '-'` for a character
class suffix `cls` ∈ `lt`, `gt`, `nl`, `cr`, `ws`. -/
def tokIg (x : List Char) (cls : List Char) : List Char :=
  '-' :: (x ++ cls ++ ['-'])

/-- The encode callback of `setIgnoreElement`: five sequential global replaces
`< → -x·lt-`, `> → -x·gt-`, `\n → -x·nl-`, `\r → -x·cr-`, `\s → -x·ws-`. -/
def encIgn (x : List Char) (s : List Char) : List Char :=
  charReplace isWsJS (tokIg x "ws".data)
    (charReplace (· = '\r') (tokIg x "cr".data)
      (charReplace (· = '\n') (tokIg x "nl".data)
        (charReplace (· = '>') (tokIg x "gt".data)
          (charReplace (· = '<') (tokIg x "lt".data) s))))

/-- The decode callback of `unsetIgnoreElement`: five sequential global
replaces of the tokens back to `<`, `>`, `\n`, `\r`, and `' '`. -/
def decIgn (x : List Char) (s : List Char) : List Char :=
  replaceAll (tokIg x "ws".data) [' ']
    (replaceAll (tokIg x "cr".data) ['\r']
      (replaceAll (tokIg x "nl".data) ['\n']
        (replaceAll (tokIg x "gt".data) ['>']
          (replaceAll (tokIg x "lt".data) ['<'] s))))

/-- The validated-configuration record (the `Config` shape of `htmlfy`). -/
structure Config where
  ignore : List String
  ignore_with : String
  strict : Bool
  tab_size : Int
  tag_wrap : Bool
  tag_wrap_width : Int
  trim : List String
deriving DecidableEq, Repr

/-- `setIgnoreElement` from `utils.js`: for each ignore tag in order, run the
global encode replace. -/
def setIgnoreElement (html : String) (config : Config) : String :=
  ⟨config.ignore.foldl (fun s t => elemScan t.data (encIgn config.ignore_with.data) s) html.data⟩

/-- `unsetIgnoreElement` from `utils.js`: for each ignore tag in order, run the
global decode replace. -/
def unsetIgnoreElement (html : String) (config : Config) : String :=
  ⟨config.ignore.foldl (fun s t => elemScan t.data (decIgn config.ignore_with.data) s) html.data⟩

/-! ## `trimify` -/

/-- Split off the maximal leading run of `\s` characters. -/
def wsRun : List Char → List Char × List Char
  | [] => ([], [])
  | c :: cs => if isWsJS c then (c :: (wsRun cs).1, (wsRun cs).2) else ([], c :: cs)

/-- Attempt to match `` (<tag[^>]*>)\s+ `` at the start of `s`: the group to
keep and the remainder after the whitespace run (which must be nonempty). -/
def tryLead (t : List Char) (s : List Char) : Option (List Char × List Char) :=
  if ('<' :: t).isPrefixOf s then
    match ngtRun (s.drop (t.length + 1)) with
    | none => none
    | some (attrs, afterGt) =>
      match wsRun afterGt with
      | ([], _) => none
      | (_ :: _, rest) => some ('<' :: (t ++ attrs ++ ['>']), rest)
  else none

/-- Attempt to match `` \s+(</tag>) `` at the start of `s`: the whitespace run
must be nonempty and followed by the literal closing tag (the `\s+` cannot end
early because `<` is not a whitespace character).  Returns the remainder after
the closing tag. -/
def tryTrail (t : List Char) (s : List Char) : Option (List Char) :=
  match wsRun s with
  | ([], _) => none
  | (_ :: _, rest) =>
    if (closeTag t).isPrefixOf rest then some (rest.drop (closeTag t).length) else none

/-- Global replace of `` (<tag[^>]*>)\s+ `` by `'$1'`.  Fuelled. -/
def leadScanF (t : List Char) : Nat → List Char → List Char
  | 0, s => s
  | _ + 1, [] => []
  | n + 1, c :: cs =>
    match tryLead t (c :: cs) with
    | some (tag, rest) => tag ++ leadScanF t n rest
    | none => c :: leadScanF t n cs

/-- Global replace of `` \s+(</tag>) `` by `'$1'`.  Fuelled. -/
def trailScanF (t : List Char) : Nat → List Char → List Char
  | 0, s => s
  | _ + 1, [] => []
  | n + 1, c :: cs =>
    match tryTrail t (c :: cs) with
    | some rest => closeTag t ++ trailScanF t n rest
    | none => c :: trailScanF t n cs

/-- `trimify` from `utils.js`: for each trim tag in order, remove the
whitespace run after each opening tag, then the whitespace run before each
closing tag. -/
def trimify (html : String) (trim : List String) : String :=
  ⟨trim.foldl
    (fun s t =>
      let s1 := leadScanF t.data s.length s
      trailScanF t.data s1.length s1) html.data⟩

/-! ## The dynamic JS value model for the configuration validator

`validateConfig` and `mergeObjects` work on dynamically typed JS values;
numbers are modelled as rationals (exact for every value the claims mention),
objects as insertion-ordered association lists. -/

inductive JSVal where
  | undef : JSVal
  | null : JSVal
  | bool : Bool → JSVal
  | num : Rat → JSVal
  | str : String → JSVal
  | arr : List JSVal → JSVal
  | obj : List (String × JSVal) → JSVal
deriving Repr

/-- JS `typeof`. -/
def typeOf : JSVal → String
  | .undef => "undefined"
  | .null => "object"
  | .bool _ => "boolean"
  | .num _ => "number"
  | .str _ => "string"
  | .arr _ => "object"
  | .obj _ => "object"

/-- JS truthiness (`NaN` is not representable in this model). -/
def truthy : JSVal → Bool
  | .undef => false
  | .null => false
  | .bool b => b
  | .num q => q ≠ 0
  | .str s => s ≠ ""
  | .arr _ => true
  | .obj _ => true

/-- JS `Array.isArray`. -/
def isArray : JSVal → Bool
  | .arr _ => true
  | _ => false

/-- Decimal index strings, for the own keys of a JS array. -/
def idxKeys (n : Nat) : List String :=
  (List.range n).map toString

/-- JS `Object.keys` (insertion order for objects, index strings for arrays). -/
def keysOf : JSVal → List String
  | .obj fs => fs.map (·.1)
  | .arr xs => idxKeys xs.length
  | _ => []

/-- Association-list lookup. -/
def alistGet (k : String) : List (String × JSVal) → JSVal
  | [] => .undef
  | (k', v) :: fs => if k' = k then v else alistGet k fs

/-- JS property read `v[k]` (`undefined` when missing; primitive wrappers not
modelled). -/
def getProp (v : JSVal) (k : String) : JSVal :=
  match v with
  | .obj fs => alistGet k fs
  | .arr xs =>
    match (xs.zip (idxKeys xs.length)).find? (fun p => p.2 = k) with
    | some p => p.1
    | none => .undef
  | _ => (.undef)

/-- Association-list update-or-append (JS property write keeps insertion
order for an existing key and appends a new one). -/
def alistSet (k : String) (v : JSVal) : List (String × JSVal) → List (String × JSVal)
  | [] => [(k, v)]
  | (k', w) :: fs => if k' = k then (k', v) :: fs else (k', w) :: alistSet k v fs

/-- JS property write `o[k] = v` on an object (the only shape written to by
the embedded code). -/
def setProp (o : JSVal) (k : String) (v : JSVal) : JSVal :=
  match o with
  | .obj fs => .obj (alistSet k v fs)
  | v' => v'

/-- JS `Object.hasOwn` for the shapes that reach it. -/
def hasOwn (v : JSVal) (k : String) : Bool :=
  match v with
  | .obj fs => fs.any (fun p => p.1 = k)
  | .arr xs => (idxKeys xs.length).any (fun i => i = k)
  | _ => false

/-- JS `structuredClone`: a deep copy.  In this value model a deep copy is the
identity on values — its whole point in the source is heap non-aliasing (the
copy can be written to without altering the original), which the value model
renders implicit because no operation here writes through a reference. -/
def structuredCloneJs (v : JSVal) : JSVal := v

/-- JS `Array.prototype.concat` with one argument: array arguments are
spread, non-array arguments appended as a single element. -/
def concatArg (xs : List JSVal) (updates : JSVal) : List JSVal :=
  match updates with
  | .arr ys => xs ++ ys
  | v => xs ++ [v]

/-- The errors thrown by `utils.js`, one constructor per `throw` site (plus
the unreachable fuel marker of the embedding). -/
inductive JsError where
  | mergeArgs : JsError
  | configMustBeObject : JsError
  | hasOwnOfNull : JsError
  | tabSizeNotNumber : String → JsError
  | tabSizeNotSafe : Rat → JsError
  | tabSizeRange : JsError
  | ignoreNotStrArray : JsError
  | ignoreWithNotString : String → JsError
  | strictNotBool : String → JsError
  | tagWrapNotBool : String → JsError
  | tagWrapWidthNotNumber : String → JsError
  | trimNotStrArray : JsError
  | outOfFuel : JsError
deriving DecidableEq, Repr

mutual

/-- Structural depth of a JS value, used only to provide sufficient fuel to
`mergeObjectsF`. -/
def jsDepth : JSVal → Nat
  | .arr xs => jsDepthL xs + 1
  | .obj fs => jsDepthF fs + 1
  | _ => 0

/-- Depth of the elements of an array value. -/
def jsDepthL : List JSVal → Nat
  | [] => 0
  | x :: xs => max (jsDepth x) (jsDepthL xs)

/-- Depth of the values of an object value. -/
def jsDepthF : List (String × JSVal) → Nat
  | [] => 0
  | (_, v) :: fs => max (jsDepth v) (jsDepthF fs)

end

/-- The `for key of Object.keys(updates)` loop body of `mergeObjects`,
parameterized by the recursive merge (`mrg`). -/
def mergeLoop (mrg : JSVal → JSVal → Except JsError JSVal) (updates : JSVal) :
    List String → JSVal → Except JsError JSVal
  | [], merged => .ok merged
  | k :: ks, merged =>
    let uv := getProp updates k
    if typeOf uv ≠ "object" then mergeLoop mrg updates ks (setProp merged k uv)
    else
      /- key is an object, run mergeObjects again (on `merged[key] || {}`). -/
      match mrg (if truthy (getProp merged k) then getProp merged k else .obj []) uv with
      | .ok v => mergeLoop mrg updates ks (setProp merged k v)
      | .error e => .error e

/-- `mergeObjects` from `utils.js`, fuelled (the fuel only bounds the depth of
the recursion through object-typed values of `updates`; the entry point always
supplies enough, see `mergeObjectsF_fuel`).  The `{ ...current }` shallow copy
is the value itself here, for the same reason as `structuredCloneJs`. -/
def mergeObjectsF : Nat → JSVal → JSVal → Except JsError JSVal
  | 0, _, _ => .error .outOfFuel
  | n + 1, current, updates =>
    if !truthy current || !truthy updates then .error .mergeArgs
    else if isArray current then
      match structuredCloneJs current with
      | .arr xs => .ok (.arr (concatArg xs updates))
      | _ => .error .outOfFuel
    else if typeOf current = "object" then
      mergeLoop (mergeObjectsF n) updates (keysOf updates) current
    else .ok (.undef)

/-- `mergeObjects` entry point. -/
def mergeObjects (current updates : JSVal) : Except JsError JSVal :=
  mergeObjectsF (jsDepth updates + 1) current updates

/-- `CONFIG` from `constants.js`, as a JS object value. -/
def CONFIGj : JSVal :=
  .obj [("ignore", .arr []), ("ignore_with", .str "_!i-£___£%_"),
        ("strict", .bool false), ("tab_size", .num 2), ("tag_wrap", .bool false),
        ("tag_wrap_width", .num 80), ("trim", .arr [])]

/-- `mergeConfig` from `utils.js`: deep-copy the default first, precisely so
that the original `CONFIG` is never altered through the reference. -/
def mergeConfig (dconfig config : JSVal) : Except JsError JSVal :=
  mergeObjects (structuredCloneJs dconfig) config

/-- JS `Number.isSafeInteger`. -/
def isSafeInteger (q : Rat) : Bool :=
  q.den = 1 && q.num.natAbs ≤ 2 ^ 53 - 1

/-- Is every element of a JS array value a string? (`Array.isArray(v) &&
v.every(e => typeof e === 'string')`). -/
def isStrArray : JSVal → Bool
  | .arr xs => xs.all (fun e => typeOf e = "string")
  | _ => false

/-- The `if (tab_size) { ... }` block of `validateConfig`: returns the floored
value to write back to `config.tab_size`, `none` when the falsy guard skips
the block, or the thrown error. -/
def tabSizeStep (ts : JSVal) : Except JsError (Option Rat) :=
  if !truthy ts then .ok none
  else
    match ts with
    | .num q =>
      if !isSafeInteger q then .error (.tabSizeNotSafe q)
      else
        let f : Rat := (q.floor : Int)
        if f < 1 ∨ f > 16 then .error .tabSizeRange
        else .ok (some f)
    | v => .error (.tabSizeNotNumber (typeOf v))

/-- The `config_empty` test of `validateConfig`: none of the seven recognized
keys is an own property. -/
def configEmptyB (config : JSVal) : Bool :=
  !(hasOwn config "ignore" || hasOwn config "ignore_with"
    || hasOwn config "strict" || hasOwn config "tab_size" || hasOwn config "tag_wrap"
    || hasOwn config "tag_wrap_width" || hasOwn config "trim")

/-- The six per-field checks of `validateConfig` (after the `tab_size` block)
followed by the final `mergeConfig` call, on the possibly-updated `config`. -/
def fieldChecksAndMerge (config1 : JSVal) : Except JsError JSVal :=
  if hasOwn config1 "ignore" && !isStrArray (getProp config1 "ignore") then
    .error .ignoreNotStrArray
  else if hasOwn config1 "ignore_with" && !(typeOf (getProp config1 "ignore_with") = "string") then
    .error (.ignoreWithNotString (typeOf (getProp config1 "ignore_with")))
  else if hasOwn config1 "strict" && !(typeOf (getProp config1 "strict") = "boolean") then
    .error (.strictNotBool (typeOf (getProp config1 "strict")))
  else if hasOwn config1 "tag_wrap" && !(typeOf (getProp config1 "tag_wrap") = "boolean") then
    .error (.tagWrapNotBool (typeOf (getProp config1 "tag_wrap")))
  else if hasOwn config1 "tag_wrap_width" && !(typeOf (getProp config1 "tag_wrap_width") = "number") then
    .error (.tagWrapWidthNotNumber (typeOf (getProp config1 "tag_wrap_width")))
  else if hasOwn config1 "trim" && !isStrArray (getProp config1 "trim") then
    .error .trimNotStrArray
  else mergeConfig CONFIGj config1

/-- `validateConfig` from `utils.js`.  The first component is the returned
configuration or the thrown error; the second component is the state of the
caller's `config` object after the call (the block writes
`config.tab_size = tab_size` before merging). -/
def validateConfig (config : JSVal) : Except JsError JSVal × JSVal :=
  if typeOf config ≠ "object" then (.error .configMustBeObject, config)
  else if config matches .null then (.error .hasOwnOfNull, config)
  else
    if configEmptyB config then (.ok CONFIGj, config)
    else
      match tabSizeStep (getProp config "tab_size") with
      | .error e => (.error e, config)
      | .ok newTs =>
        let config1 := match newTs with
          | none => config
          | some q => setProp config "tab_size" (.num q)
        (fieldChecksAndMerge config1, config1)


/-! ## Block decomposition of the encode callbacks -/

/-- Concatenation of per-character blocks: the image of a pipeline of global
single-character-class replaces. -/
def blockMap (g : Char → List Char) : List Char → List Char
  | [] => []
  | c :: cs => g c ++ blockMap g cs

/-- The tail of `ATTRIBUTE_IGNORE_STRING` after its leading `!`: the marker
every attribute token carries right after its head character. -/
def sentTail : List Char := "i-£___£%_".data

/-- Per-character effect of the encode callback of `protectAttributes`. -/
def encChar (c : Char) : List Char :=
  if c = '\n' then tokNl else if c = '\r' then tokCr else if isWsJS c then tokWs else [c]

/-- `encChar` after the newline token has been decoded back. -/
def attrStage1 (c : Char) : List Char :=
  if c = '\n' then ['\n'] else if c = '\r' then tokCr else if isWsJS c then tokWs else [c]

/-- `attrStage1` after the carriage-return token has been decoded back. -/
def attrStage2 (c : Char) : List Char :=
  if c = '\n' then ['\n'] else if c = '\r' then ['\r'] else if isWsJS c then tokWs else [c]

/-- `attrStage2` after the whitespace token has been decoded back. -/
def attrStage3 (c : Char) : List Char :=
  if c = '\n' then ['\n'] else if c = '\r' then ['\r'] else if isWsJS c then [' '] else [c]

/-- Some position below both lengths distinguishes `P` from `D`. -/
def mismatchB (P D : List Char) : Bool :=
  (List.range (min P.length D.length)).any (fun i => P.get? i != D.get? i)

/-- `B` is safe against the decode pattern `P`: at every start offset inside
`B`, either a mismatch refutes `P` within `B` itself, or the tail of `B` is a
prefix of `P` whose continuation starts with the marker `key`. -/
def safeTokB (P key B : List Char) : Bool :=
  (List.range B.length).all (fun j =>
    mismatchB P (B.drop j) || ((B.drop j).isPrefixOf P && key.isPrefixOf (P.drop (B.length - j))))

/-- Every suffix of `key` mismatches the token `B` within `B`. -/
def keyMisB (key B : List Char) : Bool :=
  (List.range key.length).all (fun m => mismatchB (key.drop m) B)


/-- The default `ignore_with` sentinel of `CONFIG`. -/
def XKEY : List Char := "_!i-£___£%_".data

/-- The five element-ignore tokens for the default sentinel. -/
def igTokLt : List Char := tokIg XKEY "lt".data

/-- Token for `>`. -/
def igTokGt : List Char := tokIg XKEY "gt".data

/-- Token for a newline. -/
def igTokNl : List Char := tokIg XKEY "nl".data

/-- Token for a carriage return. -/
def igTokCr : List Char := tokIg XKEY "cr".data

/-- Token for generic whitespace. -/
def igTokWs : List Char := tokIg XKEY "ws".data

/-- Per-character effect of the element-ignore encode callback (default
sentinel). -/
def igChar (c : Char) : List Char :=
  if c = '<' then igTokLt else if c = '>' then igTokGt else if c = '\n' then igTokNl
  else if c = '\r' then igTokCr else if isWsJS c then igTokWs else [c]

/-- `igChar` after the `<` token has been decoded back. -/
def igStage1 (c : Char) : List Char :=
  if c = '<' then ['<'] else if c = '>' then igTokGt else if c = '\n' then igTokNl
  else if c = '\r' then igTokCr else if isWsJS c then igTokWs else [c]

/-- `igStage1` after the `>` token has been decoded back. -/
def igStage2 (c : Char) : List Char :=
  if c = '<' then ['<'] else if c = '>' then ['>'] else if c = '\n' then igTokNl
  else if c = '\r' then igTokCr else if isWsJS c then igTokWs else [c]

/-- `igStage2` after the newline token has been decoded back. -/
def igStage3 (c : Char) : List Char :=
  if c = '<' then ['<'] else if c = '>' then ['>'] else if c = '\n' then ['\n']
  else if c = '\r' then igTokCr else if isWsJS c then igTokWs else [c]

/-- `igStage3` after the carriage-return token has been decoded back. -/
def igStage4 (c : Char) : List Char :=
  if c = '<' then ['<'] else if c = '>' then ['>'] else if c = '\n' then ['\n']
  else if c = '\r' then ['\r'] else if isWsJS c then igTokWs else [c]

/-- `igStage4` after the whitespace token has been decoded back. -/
def igStage5 (c : Char) : List Char :=
  if c = '<' then ['<'] else if c = '>' then ['>'] else if c = '\n' then ['\n']
  else if c = '\r' then ['\r'] else if isWsJS c then [' '] else [c]

/-! ## Supporting lemmas for the configuration claims -/

/-- Writing back the value a key already holds is the identity on the
association list. -/
theorem alistSet_self (k : String) (fs : List (String × JSVal))
    (h : truthy (alistGet k fs) = true) :
    alistSet k (alistGet k fs) fs = fs := by
  induction fs with
  | nil => simp [alistGet, truthy] at h
  | cons p fs ih =>
    obtain ⟨k', w⟩ := p
    by_cases hk : k' = k
    · subst hk
      simp [alistGet, alistSet]
    · simp only [alistGet, if_neg hk] at h
      simp [alistGet, alistSet, hk, ih h]

/-- Writing back the value a key already holds is the identity on a JS value
(provided the stored value is truthy, which rules out `undefined`). -/
theorem setProp_self (u : JSVal) (k : String)
    (h : truthy (getProp u k) = true) :
    setProp u k (getProp u k) = u := by
  cases u with
  | obj fs => simp [getProp, setProp, alistSet_self k fs (by simpa [getProp] using h)]
  | arr xs => simp [setProp]
  | undef => simp [setProp]
  | null => simp [setProp]
  | bool b => simp [setProp]
  | num q => simp [setProp]
  | str s => simp [setProp]

/-- A safe integer has denominator one, so `Math.floor` then is the
identity as a rational value. -/
theorem floor_self_of_safe {q : Rat} (hs : isSafeInteger q = true) :
    ((q.floor : Int) : Rat) = q := by
  have hden : q.den = 1 := by
    unfold isSafeInteger at hs
    have := (Bool.and_eq_true _ _).mp hs |>.1
    exact decide_eq_true_eq.mp this
  have h1 : q.floor = q.num := by
    unfold Rat.floor
    simp [hden]
  rw [h1]
  exact Rat.coe_int_num_of_den_eq_one hden

/-- A successful, non-skipped `tab_size` step returns exactly the value read:
the safe-integer check forces an integer, so the flooring writes the same
value back. -/
theorem tabSizeStep_some {ts : JSVal} {q : Rat} (h : tabSizeStep ts = .ok (some q)) :
    ts = .num q := by
  unfold tabSizeStep at h
  by_cases ht : truthy ts = true
  · rw [ht] at h
    simp only [Bool.not_true, Bool.false_eq_true, if_false] at h
    cases ts with
    | num q0 =>
      dsimp only at h
      by_cases hs : isSafeInteger q0 = true
      · rw [hs] at h
        simp only [Bool.not_true, Bool.false_eq_true, if_false] at h
        split at h
        · exact absurd h (by simp)
        · simp only [Except.ok.injEq, Option.some.injEq] at h
          rw [← h, floor_self_of_safe hs]
      · simp only [Bool.not_eq_true] at hs
        rw [hs] at h
        simp at h
    | undef => simp at h
    | null => simp at h
    | bool b => simp at h
    | str s => simp at h
    | arr xs => simp at h
    | obj fs => simp at h
  · simp only [Bool.not_eq_true] at ht
    rw [ht] at h
    simp at h

/-- A non-skipped `tab_size` step only happens on a truthy read. -/
theorem tabSizeStep_some_truthy {ts : JSVal} {q : Rat}
    (h : tabSizeStep ts = .ok (some q)) : truthy (JSVal.num q) = true := by
  have := tabSizeStep_some h
  subst this
  unfold tabSizeStep at h
  by_cases ht : truthy (JSVal.num q) = true
  · exact ht
  · simp only [Bool.not_eq_true] at ht
    rw [ht] at h
    simp at h

/-! ## Claim C5 -/

/-- C5: for every object-like input (an object other than `null`, so that
`Object.hasOwn` does not throw) that has none of the seven recognized keys —
in particular the empty object — `validateConfig` returns a configuration
equal to the exact process-wide default `CONFIG`. -/
theorem validateConfig_default (u : JSVal) (hobj : typeOf u = "object")
    (hnull : ¬ u = JSVal.null) (hempty : configEmptyB u = true) :
    (validateConfig u).1 = .ok CONFIGj := by
  unfold validateConfig
  rw [hobj]
  cases u with
  | null => exact absurd rfl hnull
  | arr xs => simp [hempty]
  | obj fs => simp [hempty]
  | undef => simp [typeOf] at hobj
  | bool b => simp [typeOf] at hobj
  | num q => simp [typeOf] at hobj
  | str s => simp [typeOf] at hobj

/-- C5 witness: the empty object validates to the default configuration. -/
theorem validateConfig_default_witness :
    (validateConfig (JSVal.obj [])).1 = .ok CONFIGj :=
  validateConfig_default (JSVal.obj []) rfl (by intro h; exact JSVal.noConfusion h) rfl

/-! ## Claim C3 -/

/-- C3: `validateConfig` has no observable effect on the caller's input
object: the post-call state of the input equals its pre-call state for every
input, including the `tab_size` key — the only write the function performs,
`config.tab_size = Math.floor(tab_size)`, stores back exactly the value that
was read, because the preceding safe-integer check forces an integer and
flooring an integer is the identity.  (The shared default `CONFIG` is merged
only through a deep copy (`structuredClone`) in `mergeConfig`, which the value
model renders as value identity, so no call can write through to it.) -/
theorem validateConfig_input_unchanged (u : JSVal) : (validateConfig u).2 = u := by
  unfold validateConfig
  split
  · rfl
  · split
    · rfl
    · split
      · rfl
      · dsimp only
        split
        · rfl
        · rename_i newTs heq
          cases newTs with
          | none => rfl
          | some q =>
            have hts := tabSizeStep_some heq
            have htr := tabSizeStep_some_truthy heq
            have : setProp u "tab_size" (JSVal.num q) = u := by
              have := setProp_self u "tab_size" (by rw [hts]; exact htr)
              rwa [hts] at this
            dsimp only
            rw [this]

/-! ## Claim C4 -/

/-- C4 counterexample: the claim says `tab_size = 4.9` is accepted and floored
to `4` and that `tab_size = 0` is rejected with a RangeKind error.  The code
does the opposite on both inputs: `Number.isSafeInteger(4.9)` is `false` (the
safe-integer check runs before the flooring), so `4.9` is rejected with the
"not safe" error; and `0` is falsy, so `if (tab_size)` skips the whole
validation block and `0` is merged into the returned configuration. -/
theorem validateConfig_tabSize_cex :
    (validateConfig (.obj [("tab_size", .num (Rat.mk' 49 10))])).1
        = .error (.tabSizeNotSafe (Rat.mk' 49 10))
    ∧ (validateConfig (.obj [("tab_size", .num 0)])).1
        = .ok (setProp CONFIGj "tab_size" (.num 0)) :=
  ⟨rfl, rfl⟩

/-- C4 (amended): `validateConfig` enforces the `tab_size` range as follows:
`tab_size = 4.9` is rejected with a RangeKind ("not safe") error, because the
safe-integer check precedes the flooring and `4.9` is not an integer;
`tab_size = 0` is falsy, skips the validation block entirely, and is accepted
into the merged configuration unvalidated; `tab_size = 17` is rejected with a
RangeKind (out of range) error; and any truthy numeric `tab_size` that is not
a safely representable integer (for example `2^53`) is rejected with a
RangeKind ("not safe") error. -/
theorem validateConfig_tabSize_amended :
    (validateConfig (.obj [("tab_size", .num (Rat.mk' 49 10))])).1
        = .error (.tabSizeNotSafe (Rat.mk' 49 10))
    ∧ (validateConfig (.obj [("tab_size", .num 0)])).1
        = .ok (setProp CONFIGj "tab_size" (.num 0))
    ∧ (validateConfig (.obj [("tab_size", .num 17)])).1 = .error .tabSizeRange
    ∧ (validateConfig (.obj [("tab_size", .num 9007199254740992)])).1
        = .error (.tabSizeNotSafe 9007199254740992)
    ∧ ∀ q : Rat, q ≠ 0 → isSafeInteger q = false →
        (validateConfig (.obj [("tab_size", .num q)])).1 = .error (.tabSizeNotSafe q) := by
  refine ⟨rfl, rfl, rfl, rfl, ?_⟩
  intro q hq hsafe
  have h2 : getProp (JSVal.obj [("tab_size", JSVal.num q)]) "tab_size"
      = JSVal.num q := rfl
  unfold validateConfig
  rw [h2]
  have h3 : tabSizeStep (JSVal.num q) = .error (.tabSizeNotSafe q) := by
    unfold tabSizeStep
    simp [truthy, hq, hsafe]
  rw [h3]
  rfl

/-- C4 witness: the general "not a safe integer" clause applied to the
concrete truthy non-integer `5/2`. -/
theorem validateConfig_tabSize_amended_witness :
    (validateConfig (.obj [("tab_size", .num (Rat.mk' 5 2))])).1
        = .error (.tabSizeNotSafe (Rat.mk' 5 2)) :=
  validateConfig_tabSize_amended.2.2.2.2 (Rat.mk' 5 2) (by decide) rfl

/-! ## Merge-loop lemmas (for claims C6 and C9) -/

/-- Reading a key other than the one written is unaffected. -/
theorem alistGet_alistSet_ne (k k' : String) (v : JSVal) (fs : List (String × JSVal))
    (h : k' ≠ k) : alistGet k (alistSet k' v fs) = alistGet k fs := by
  induction fs with
  | nil => simp [alistSet, alistGet, h]
  | cons p fs ih =>
    obtain ⟨k0, w⟩ := p
    by_cases hk : k0 = k'
    · subst hk
      simp [alistSet, alistGet, h]
    · simp [alistSet, alistGet, hk, ih]

/-- Reading the key just written returns the written value. -/
theorem alistGet_alistSet_self (k : String) (v : JSVal) (fs : List (String × JSVal)) :
    alistGet k (alistSet k v fs) = v := by
  induction fs with
  | nil => simp [alistSet, alistGet]
  | cons p fs ih =>
    obtain ⟨k0, w⟩ := p
    by_cases hk : k0 = k
    · subst hk
      simp [alistSet, alistGet]
    · simp [alistSet, alistGet, hk, ih]

/-- `getProp` after `setProp` at a different key. -/
theorem getProp_setProp_ne (m : JSVal) (k k' : String) (v : JSVal) (h : k' ≠ k) :
    getProp (setProp m k' v) k = getProp m k := by
  cases m with
  | obj fs => simp [setProp, getProp, alistGet_alistSet_ne k k' v fs h]
  | arr xs => rfl
  | undef => rfl
  | null => rfl
  | bool b => rfl
  | num q => rfl
  | str s => rfl

/-- `getProp` after `setProp` at the same key, on an object. -/
theorem getProp_setProp_self (fs : List (String × JSVal)) (k : String) (v : JSVal) :
    getProp (setProp (.obj fs) k v) k = v := by
  simp [setProp, getProp, alistGet_alistSet_self]

/-- The merge loop over an appended key list runs the two halves in
sequence. -/
theorem mergeLoop_append (mrg : JSVal → JSVal → Except JsError JSVal) (u : JSVal)
    (ks1 ks2 : List String) (merged : JSVal) :
    mergeLoop mrg u (ks1 ++ ks2) merged =
      match mergeLoop mrg u ks1 merged with
      | .ok m1 => mergeLoop mrg u ks2 m1
      | .error e => .error e := by
  induction ks1 generalizing merged with
  | nil => simp [mergeLoop]
  | cons k ks ih =>
    simp only [List.cons_append, mergeLoop]
    split
    · exact ih _
    · split
      · exact ih _
      · rfl

/-- A key not in the processed list keeps its value through the merge loop. -/
theorem mergeLoop_preserve (mrg : JSVal → JSVal → Except JsError JSVal) (u : JSVal)
    (ks : List String) (merged : JSVal) (k : String) (w : JSVal)
    (hk : k ∉ ks) (hw : mergeLoop mrg u ks merged = .ok w) :
    getProp w k = getProp merged k := by
  induction ks generalizing merged with
  | nil =>
    simp only [mergeLoop, Except.ok.injEq] at hw
    rw [hw]
  | cons k' ks ih =>
    have hk' : k' ≠ k := fun h => hk (h ▸ List.mem_cons_self k' ks)
    have hks : k ∉ ks := fun h => hk (List.mem_cons_of_mem _ h)
    simp only [mergeLoop] at hw
    split at hw
    · rw [ih _ hks hw, getProp_setProp_ne _ _ _ _ hk']
    · split at hw
      · rw [ih _ hks hw, getProp_setProp_ne _ _ _ _ hk']
      · exact absurd hw (by simp)

/-- The merge loop keeps an object an object. -/
theorem mergeLoop_obj (mrg : JSVal → JSVal → Except JsError JSVal) (u : JSVal)
    (ks : List String) (fs : List (String × JSVal)) (w : JSVal)
    (hw : mergeLoop mrg u ks (.obj fs) = .ok w) :
    ∃ gs, w = .obj gs := by
  induction ks generalizing fs with
  | nil =>
    simp only [mergeLoop, Except.ok.injEq] at hw
    exact ⟨fs, hw.symm⟩
  | cons k' ks ih =>
    simp only [mergeLoop] at hw
    split at hw
    · exact ih _ hw
    · split at hw
      · exact ih _ hw
      · exact absurd hw (by simp)

/-- A member of a duplicate-free list splits it with the member in neither
side. -/
theorem nodup_split {α : Type} [DecidableEq α] {l : List α} {a : α}
    (hnd : l.Nodup) (ha : a ∈ l) :
    ∃ s t, l = s ++ a :: t ∧ a ∉ s ∧ a ∉ t := by
  obtain ⟨s, t, rfl⟩ := List.append_of_mem ha
  refine ⟨s, t, rfl, ?_, ?_⟩
  · have hd := List.disjoint_of_nodup_append hnd
    intro hs
    exact hd hs (List.mem_cons_self a t)
  · have := (List.nodup_cons.mp (hnd.of_append_right)).1
    exact this

/-- Merging is value concatenation on the array branch. -/
theorem mergeObjectsF_arr (n : Nat) (xs : List JSVal) (u : JSVal)
    (hu : truthy u = true) :
    mergeObjectsF (n + 1) (.arr xs) u = .ok (.arr (concatArg xs u)) := by
  simp only [mergeObjectsF]
  rw [hu]
  rfl

/-- On the merge path, an array-valued key of the update object is
concatenated after the elements the (object-typed) current value holds at
that key — not replaced. -/
theorem mergeObjects_array_concat (cur : JSVal) (ufs : List (String × JSVal))
    (k : String) (xs ys : List JSVal) (w : JSVal)
    (hnd : (ufs.map Prod.fst).Nodup)
    (hobj : typeOf cur = "object") (htr : truthy cur = true)
    (hnarr : isArray cur = false)
    (hcur : getProp cur k = .arr xs)
    (hu : alistGet k ufs = .arr ys) (hk : k ∈ ufs.map Prod.fst)
    (hw : mergeObjects cur (.obj ufs) = .ok w) :
    getProp w k = .arr (xs ++ ys) := by
  obtain ⟨cfs, rfl⟩ : ∃ cfs, cur = .obj cfs := by
    cases cur with
    | obj cfs => exact ⟨cfs, rfl⟩
    | null => simp [truthy] at htr
    | arr _ => simp [isArray] at hnarr
    | undef => simp [typeOf] at hobj
    | bool b => simp [typeOf] at hobj
    | num q => simp [typeOf] at hobj
    | str s => simp [typeOf] at hobj
  obtain ⟨ks1, ks2, hsplit, hk1, hk2⟩ := nodup_split hnd hk
  unfold mergeObjects at hw
  have hfuel : jsDepth (.obj ufs) + 1 = (jsDepthF ufs + 1) + 1 := by rw [jsDepth]
  rw [hfuel] at hw
  have hred : mergeObjectsF ((jsDepthF ufs + 1) + 1) (JSVal.obj cfs) (JSVal.obj ufs)
      = mergeLoop (mergeObjectsF (jsDepthF ufs + 1)) (JSVal.obj ufs)
          (ufs.map Prod.fst) (JSVal.obj cfs) := rfl
  rw [hred, hsplit, mergeLoop_append] at hw
  split at hw
  · rename_i m1 hloop1
    have hm1k : getProp m1 k = .arr xs := by
      rw [mergeLoop_preserve _ _ ks1 _ k m1 hk1 hloop1]
      exact hcur
    obtain ⟨m1fs, rfl⟩ := mergeLoop_obj _ _ _ _ _ hloop1
    simp only [mergeLoop] at hw
    have huv : getProp (JSVal.obj ufs) k = .arr ys := hu
    rw [huv, hm1k] at hw
    rw [if_neg (by simp [typeOf])] at hw
    rw [if_pos (by rfl)] at hw
    rw [mergeObjectsF_arr (jsDepthF ufs) xs (.arr ys) rfl] at hw
    simp only [concatArg] at hw
    rw [mergeLoop_preserve _ _ ks2 _ k w hk2 hw, getProp_setProp_self]
  · exact absurd hw (by simp)

/-- On the merge path, a scalar-valued (non-object-typed) key of the update
object replaces whatever the current value holds at that key. -/
theorem mergeObjects_scalar_replace (cur : JSVal) (ufs : List (String × JSVal))
    (k : String) (v w : JSVal)
    (hnd : (ufs.map Prod.fst).Nodup)
    (hobj : typeOf cur = "object") (htr : truthy cur = true)
    (hnarr : isArray cur = false)
    (hu : alistGet k ufs = v) (hv : typeOf v ≠ "object") (hk : k ∈ ufs.map Prod.fst)
    (hw : mergeObjects cur (.obj ufs) = .ok w) :
    getProp w k = v := by
  obtain ⟨cfs, rfl⟩ : ∃ cfs, cur = .obj cfs := by
    cases cur with
    | obj cfs => exact ⟨cfs, rfl⟩
    | null => simp [truthy] at htr
    | arr _ => simp [isArray] at hnarr
    | undef => simp [typeOf] at hobj
    | bool b => simp [typeOf] at hobj
    | num q => simp [typeOf] at hobj
    | str s => simp [typeOf] at hobj
  obtain ⟨ks1, ks2, hsplit, hk1, hk2⟩ := nodup_split hnd hk
  unfold mergeObjects at hw
  have hfuel : jsDepth (.obj ufs) + 1 = (jsDepthF ufs + 1) + 1 := by rw [jsDepth]
  rw [hfuel] at hw
  have hred : mergeObjectsF ((jsDepthF ufs + 1) + 1) (JSVal.obj cfs) (JSVal.obj ufs)
      = mergeLoop (mergeObjectsF (jsDepthF ufs + 1)) (JSVal.obj ufs)
          (ufs.map Prod.fst) (JSVal.obj cfs) := rfl
  rw [hred, hsplit, mergeLoop_append] at hw
  split at hw
  · rename_i m1 hloop1
    obtain ⟨m1fs, rfl⟩ := mergeLoop_obj _ _ _ _ _ hloop1
    simp only [mergeLoop] at hw
    have huv : getProp (JSVal.obj ufs) k = v := hu
    rw [huv] at hw
    rw [if_pos hv] at hw
    rw [mergeLoop_preserve _ _ ks2 _ k w hk2 hw, getProp_setProp_self]
  · exact absurd hw (by simp)
/-! ## Claim C6 -/

/-- C6: the merge performed by `validateConfig` (through `mergeConfig` /
`mergeObjects`) concatenates array-valued fields of the override after the
default's elements rather than replacing them, and replaces scalar
(non-object-typed) fields; in particular merging `{ ignore: ["foo"] }` onto
the default (whose `ignore` is `[]`) yields `ignore = ["foo"]`, and onto a
default whose `ignore` is `["bar"]` yields `ignore = ["bar", "foo"]`. -/
theorem validateConfig_merge_semantics :
    (∀ (cur : JSVal) (ufs : List (String × JSVal)) (k : String)
        (xs ys : List JSVal) (w : JSVal),
        (ufs.map Prod.fst).Nodup →
        typeOf cur = "object" → truthy cur = true → isArray cur = false →
        getProp cur k = .arr xs →
        alistGet k ufs = .arr ys → k ∈ ufs.map Prod.fst →
        mergeObjects cur (.obj ufs) = .ok w →
        getProp w k = .arr (xs ++ ys))
    ∧ (∀ (cur : JSVal) (ufs : List (String × JSVal)) (k : String) (v w : JSVal),
        (ufs.map Prod.fst).Nodup →
        typeOf cur = "object" → truthy cur = true → isArray cur = false →
        alistGet k ufs = v → typeOf v ≠ "object" → k ∈ ufs.map Prod.fst →
        mergeObjects cur (.obj ufs) = .ok w →
        getProp w k = v)
    ∧ (validateConfig (.obj [("ignore", .arr [.str "foo"])])).1
        = .ok (setProp CONFIGj "ignore" (.arr [.str "foo"]))
    ∧ mergeConfig (setProp CONFIGj "ignore" (.arr [.str "bar"]))
        (.obj [("ignore", .arr [.str "foo"])])
        = .ok (setProp CONFIGj "ignore" (.arr [.str "bar", .str "foo"])) :=
  ⟨mergeObjects_array_concat, mergeObjects_scalar_replace, rfl, rfl⟩

/-- C6 witness: the array-concatenation clause at a concrete merge — defaults
with `ignore = ["bar"]` merged with `{ ignore: ["foo"] }` hold
`ignore = ["bar", "foo"]`. -/
theorem validateConfig_merge_semantics_witness :
    getProp (JSVal.obj [("ignore", JSVal.arr [.str "bar", .str "foo"])]) "ignore"
      = JSVal.arr ([.str "bar"] ++ [.str "foo"]) :=
  validateConfig_merge_semantics.1 (JSVal.obj [("ignore", JSVal.arr [.str "bar"])])
    [("ignore", JSVal.arr [.str "foo"])] "ignore" [.str "bar"] [.str "foo"]
    (JSVal.obj [("ignore", JSVal.arr [.str "bar", .str "foo"])])
    (by decide) rfl rfl rfl rfl rfl (by simp) rfl

/-! ## Fuel irrelevance and further loop lemmas (for claim C9) -/

/-- A key absent from the association list reads as `undefined`. -/
theorem alistGet_not_mem (k : String) (fs : List (String × JSVal))
    (h : k ∉ fs.map Prod.fst) : alistGet k fs = .undef := by
  induction fs with
  | cons p fs ih =>
    obtain ⟨k0, w⟩ := p
    simp only [List.map_cons, List.mem_cons] at h
    push_neg at h
    have hk0 : ¬ k0 = k := fun hh => h.1 hh.symm
    simp only [alistGet, if_neg hk0, ih h.2]
  | nil => rfl

/-- Lookup in an appended association list falls through to the left part
when the key is not in the right part. -/
theorem alistGet_append_left (k : String) (fs gs : List (String × JSVal))
    (h : k ∉ gs.map Prod.fst) : alistGet k (fs ++ gs) = alistGet k fs := by
  induction fs with
  | nil => simpa [alistGet] using alistGet_not_mem k gs h
  | cons p fs ih =>
    obtain ⟨k0, w⟩ := p
    by_cases hk : k0 = k
    · simp [alistGet, hk]
    · simp [alistGet, hk, ih]

/-- `hasOwn` over an appended association list when the key is not in the
right part. -/
theorem hasOwn_append_left (k : String) (fs gs : List (String × JSVal))
    (h : k ∉ gs.map Prod.fst) :
    hasOwn (.obj (fs ++ gs)) k = hasOwn (.obj fs) k := by
  simp only [hasOwn, List.any_append]
  have : gs.any (fun p => p.1 = k) = false := by
    rw [List.any_eq_false]
    intro p hp
    simp only [decide_eq_true_eq]
    intro hpk
    exact h (hpk ▸ List.mem_map_of_mem Prod.fst hp)
  rw [this, Bool.or_false]

/-- Updating a key present in the left part of an appended association list
stays in the left part. -/
theorem alistSet_append_left (k : String) (v : JSVal) (fs gs : List (String × JSVal))
    (h : k ∈ fs.map Prod.fst) :
    alistSet k v (fs ++ gs) = alistSet k v fs ++ gs := by
  induction fs with
  | nil => simp at h
  | cons p fs ih =>
    obtain ⟨k0, w⟩ := p
    by_cases hk : k0 = k
    · simp [alistSet, hk]
    · simp only [List.map_cons, List.mem_cons] at h
      rcases h with h | h
      · exact absurd h.symm hk
      · simp [alistSet, hk, ih h]

/-- Updating an existing key does not change the key list. -/
theorem alistSet_keys (k : String) (v : JSVal) (fs : List (String × JSVal))
    (h : k ∈ fs.map Prod.fst) :
    (alistSet k v fs).map Prod.fst = fs.map Prod.fst := by
  induction fs with
  | nil => simp at h
  | cons p fs ih =>
    obtain ⟨k0, w⟩ := p
    by_cases hk : k0 = k
    · simp [alistSet, hk]
    · simp only [List.map_cons, List.mem_cons] at h
      rcases h with h | h
      · exact absurd h.symm hk
      · simp [alistSet, hk, ih h]

/-- The values of an object bound its structural depth. -/
theorem jsDepth_alistGet (k : String) (fs : List (String × JSVal)) :
    jsDepth (alistGet k fs) ≤ jsDepthF fs := by
  induction fs with
  | nil => simp [alistGet, jsDepth]
  | cons p fs ih =>
    obtain ⟨k0, w⟩ := p
    by_cases hk : k0 = k
    · simp only [alistGet, if_pos hk, jsDepthF]
      exact le_max_left _ _
    · simp only [alistGet, if_neg hk, jsDepthF]
      exact le_trans ih (le_max_right _ _)

/-- The elements of an array bound its structural depth. -/
theorem jsDepth_elem {x : JSVal} (xs : List JSVal) (hx : x ∈ xs) :
    jsDepth x ≤ jsDepthL xs := by
  induction xs with
  | nil => simp at hx
  | cons y ys ih =>
    rcases List.mem_cons.mp hx with h | h
    · subst h
      simp only [jsDepthL]
      exact le_max_left _ _
    · simp only [jsDepthL]
      exact le_trans (ih h) (le_max_right _ _)

/-- Any property read of a JS value is structurally shallower than the value
itself, unless the value is a primitive (whose reads are `undefined`). -/
theorem jsDepth_getProp (u : JSVal) (k : String) : jsDepth (getProp u k) ≤ jsDepth u := by
  cases u with
  | obj fs =>
    simp only [getProp, jsDepth]
    exact le_trans (jsDepth_alistGet k fs) (Nat.le_succ_of_le le_rfl)
  | arr xs =>
    simp only [getProp, jsDepth]
    split
    · rename_i p hp
      have hx : p.1 ∈ xs := by
        have := List.find?_some hp
        have hmem := List.mem_of_find?_eq_some hp
        exact (List.of_mem_zip hmem).1
      exact le_trans (jsDepth_elem xs hx) (Nat.le_succ_of_le le_rfl)
    · simp [jsDepth]
  | undef => simp [getProp, jsDepth]
  | null => simp [getProp, jsDepth]
  | bool b => simp [getProp, jsDepth]
  | num q => simp [getProp, jsDepth]
  | str s => simp [getProp, jsDepth]

/-- Sharper form: reads of objects and arrays strictly decrease the depth. -/
theorem jsDepth_getProp_lt (u : JSVal) (k : String)
    (h : typeOf u = "object") (hn : ¬ u = JSVal.null) :
    jsDepth (getProp u k) < jsDepth u := by
  cases u with
  | obj fs =>
    simp only [getProp, jsDepth]
    exact Nat.lt_succ_of_le (jsDepth_alistGet k fs)
  | arr xs =>
    simp only [getProp, jsDepth]
    split
    · rename_i p hp
      have hx : p.1 ∈ xs := (List.of_mem_zip (List.mem_of_find?_eq_some hp)).1
      exact Nat.lt_succ_of_le (jsDepth_elem xs hx)
    · simp [jsDepth]
  | null => exact absurd rfl hn
  | undef => simp [typeOf] at h
  | bool b => simp [typeOf] at h
  | num q => simp [typeOf] at h
  | str s => simp [typeOf] at h

/-- The merge loop only observes `mrg` on the values it reads from
`updates`. -/
theorem mergeLoop_congr (mrg1 mrg2 : JSVal → JSVal → Except JsError JSVal)
    (u : JSVal) (ks : List String) (merged : JSVal)
    (h : ∀ k ∈ ks, ∀ x, mrg1 x (getProp u k) = mrg2 x (getProp u k)) :
    mergeLoop mrg1 u ks merged = mergeLoop mrg2 u ks merged := by
  induction ks generalizing merged with
  | nil => rfl
  | cons k ks ih =>
    have hk := h k (List.mem_cons_self k ks)
    have hks : ∀ k' ∈ ks, ∀ x, mrg1 x (getProp u k') = mrg2 x (getProp u k') :=
      fun k' hk' => h k' (List.mem_cons_of_mem _ hk')
    simp only [mergeLoop]
    split
    · exact ih _ hks
    · rw [hk]
      split
      · exact ih _ hks
      · rfl

/-- The merge loop reads `updates` only at the processed keys. -/
theorem mergeLoop_congr_updates (mrg : JSVal → JSVal → Except JsError JSVal)
    (u1 u2 : JSVal) (ks : List String) (merged : JSVal)
    (h : ∀ k ∈ ks, getProp u1 k = getProp u2 k) :
    mergeLoop mrg u1 ks merged = mergeLoop mrg u2 ks merged := by
  induction ks generalizing merged with
  | nil => rfl
  | cons k ks ih =>
    have hk := h k (List.mem_cons_self k ks)
    have hks : ∀ k' ∈ ks, getProp u1 k' = getProp u2 k' :=
      fun k' hk' => h k' (List.mem_cons_of_mem _ hk')
    simp only [mergeLoop, hk]
    split
    · exact ih _ hks
    · split
      · exact ih _ hks
      · rfl

/-- Any fuel beyond the depth of `updates` computes `mergeObjects`. -/
theorem mergeObjectsF_fuel (n : Nat) (cur u : JSVal) (h : jsDepth u < n) :
    mergeObjectsF n cur u = mergeObjects cur u := by
  induction n using Nat.strong_induction_on generalizing cur u with
  | _ n ih =>
    match n, h with
    | n + 1, h =>
      show mergeObjectsF (n + 1) cur u = mergeObjectsF (jsDepth u + 1) cur u
      simp only [mergeObjectsF]
      split
      · rfl
      · split
        · rfl
        · split
          · refine mergeLoop_congr _ _ u (keysOf u) cur ?_
            intro k hk x
            have hobj : typeOf u = "object" ∧ ¬ u = JSVal.null := by
              cases u with
              | obj fs => exact ⟨rfl, fun hh => JSVal.noConfusion hh⟩
              | arr xs => exact ⟨rfl, fun hh => JSVal.noConfusion hh⟩
              | null => simp [keysOf] at hk
              | undef => simp [keysOf] at hk
              | bool b => simp [keysOf] at hk
              | num q => simp [keysOf] at hk
              | str s => simp [keysOf] at hk
            have hlt := jsDepth_getProp_lt u k hobj.1 hobj.2
            rw [ih n (Nat.lt_succ_self n) x (getProp u k) (lt_of_lt_of_le hlt (Nat.lt_succ_iff.mp h)),
                ih (jsDepth u) (Nat.lt_succ_of_le (Nat.lt_succ_iff.mp h)) x (getProp u k) hlt]
          · rfl


/-- Lookup in an appended association list reads the right part when the key
is absent from the left. -/
theorem alistGet_append_right (k : String) (fs gs : List (String × JSVal))
    (h : k ∉ fs.map Prod.fst) : alistGet k (fs ++ gs) = alistGet k gs := by
  induction fs with
  | nil => rfl
  | cons p fs ih =>
    obtain ⟨k0, w⟩ := p
    simp only [List.map_cons, List.mem_cons] at h
    push_neg at h
    have hk0 : ¬ k0 = k := fun hh => h.1 hh.symm
    simp only [List.cons_append, alistGet, if_neg hk0]
    exact ih h.2

/-- If no value of the association list is object-typed, then neither is any
lookup (missing keys read as `undefined`). -/
theorem alistGet_scalar (k : String) (gs : List (String × JSVal))
    (h : ∀ p ∈ gs, typeOf p.2 ≠ "object") : typeOf (alistGet k gs) ≠ "object" := by
  induction gs with
  | nil => simp [alistGet, typeOf]
  | cons p gs ih =>
    obtain ⟨k0, w⟩ := p
    by_cases hk : k0 = k
    · simpa [alistGet, hk] using h (k0, w) (List.mem_cons_self _ _)
    · simp only [alistGet, if_neg hk]
      exact ih (fun p hp => h p (List.mem_cons_of_mem _ hp))

/-- A run of the merge loop over keys whose update values are all
non-object-typed always succeeds (it only performs property writes). -/
theorem mergeLoop_scalar_ok (mrg : JSVal → JSVal → Except JsError JSVal)
    (u : JSVal) (ks : List String) (m : JSVal)
    (h : ∀ k ∈ ks, typeOf (getProp u k) ≠ "object") :
    ∃ w, mergeLoop mrg u ks m = .ok w := by
  induction ks generalizing m with
  | nil => exact ⟨m, rfl⟩
  | cons k ks ih =>
    have hk := h k (List.mem_cons_self k ks)
    simp only [mergeLoop, if_pos hk]
    exact ih _ (fun k' hk' => h k' (List.mem_cons_of_mem _ hk'))

/-- Appending scalar-valued unrecognized keys to the update object does not
change whether the final `mergeConfig` call of the validator succeeds. -/
theorem mergeConfig_extras_isOk (fs1 gs : List (String × JSVal))
    (hg1 : ∀ p ∈ gs, typeOf p.2 ≠ "object")
    (hnd : ((fs1 ++ gs).map Prod.fst).Nodup) :
    (mergeConfig CONFIGj (.obj (fs1 ++ gs))).isOk
      = (mergeConfig CONFIGj (.obj fs1)).isOk := by
  unfold mergeConfig mergeObjects structuredCloneJs
  have hfL : jsDepth (JSVal.obj (fs1 ++ gs)) + 1 = (jsDepthF (fs1 ++ gs) + 1) + 1 := by
    rw [jsDepth]
  have hfR : jsDepth (JSVal.obj fs1) + 1 = (jsDepthF fs1 + 1) + 1 := by rw [jsDepth]
  rw [hfL, hfR]
  have hredL : mergeObjectsF ((jsDepthF (fs1 ++ gs) + 1) + 1) CONFIGj (JSVal.obj (fs1 ++ gs))
      = mergeLoop (mergeObjectsF (jsDepthF (fs1 ++ gs) + 1)) (JSVal.obj (fs1 ++ gs))
          ((fs1 ++ gs).map Prod.fst) CONFIGj := rfl
  have hredR : mergeObjectsF ((jsDepthF fs1 + 1) + 1) CONFIGj (JSVal.obj fs1)
      = mergeLoop (mergeObjectsF (jsDepthF fs1 + 1)) (JSVal.obj fs1)
          (fs1.map Prod.fst) CONFIGj := rfl
  rw [hredL, hredR]
  have hmrgL : mergeLoop (mergeObjectsF (jsDepthF (fs1 ++ gs) + 1)) (JSVal.obj (fs1 ++ gs))
      ((fs1 ++ gs).map Prod.fst) CONFIGj
      = mergeLoop mergeObjects (JSVal.obj (fs1 ++ gs)) ((fs1 ++ gs).map Prod.fst) CONFIGj := by
    refine mergeLoop_congr _ _ _ _ _ ?_
    intro k hk x
    have hlt : jsDepth (getProp (JSVal.obj (fs1 ++ gs)) k) < jsDepthF (fs1 ++ gs) + 1 := by
      have := jsDepth_getProp_lt (JSVal.obj (fs1 ++ gs)) k rfl (fun hh => JSVal.noConfusion hh)
      simpa [jsDepth] using this
    exact mergeObjectsF_fuel _ _ _ hlt
  have hmrgR : mergeLoop (mergeObjectsF (jsDepthF fs1 + 1)) (JSVal.obj fs1)
      (fs1.map Prod.fst) CONFIGj
      = mergeLoop mergeObjects (JSVal.obj fs1) (fs1.map Prod.fst) CONFIGj := by
    refine mergeLoop_congr _ _ _ _ _ ?_
    intro k hk x
    have hlt : jsDepth (getProp (JSVal.obj fs1) k) < jsDepthF fs1 + 1 := by
      have := jsDepth_getProp_lt (JSVal.obj fs1) k rfl (fun hh => JSVal.noConfusion hh)
      simpa [jsDepth] using this
    exact mergeObjectsF_fuel _ _ _ hlt
  rw [hmrgL, hmrgR]
  have hdisj : ∀ k ∈ fs1.map Prod.fst, k ∉ gs.map Prod.fst := by
    have hd := List.disjoint_of_nodup_append (by simpa using hnd)
    intro k hk1 hk2
    exact hd hk1 hk2
  have hdisj2 : ∀ k ∈ gs.map Prod.fst, k ∉ fs1.map Prod.fst := by
    intro k hk2 hk1
    exact hdisj k hk1 hk2
  rw [List.map_append, mergeLoop_append]
  have hphase1 : mergeLoop mergeObjects (JSVal.obj (fs1 ++ gs)) (fs1.map Prod.fst) CONFIGj
      = mergeLoop mergeObjects (JSVal.obj fs1) (fs1.map Prod.fst) CONFIGj := by
    refine mergeLoop_congr_updates _ _ _ _ _ ?_
    intro k hk
    show alistGet k (fs1 ++ gs) = alistGet k fs1
    exact alistGet_append_left k fs1 gs (hdisj k hk)
  rw [hphase1]
  split
  · rename_i m1 hm1
    have hscal : ∀ k ∈ gs.map Prod.fst,
        typeOf (getProp (JSVal.obj (fs1 ++ gs)) k) ≠ "object" := by
      intro k hk
      show typeOf (alistGet k (fs1 ++ gs)) ≠ "object"
      rw [alistGet_append_right k fs1 gs (hdisj2 k hk)]
      exact alistGet_scalar k gs hg1
    obtain ⟨w2, hw2⟩ := mergeLoop_scalar_ok mergeObjects (JSVal.obj (fs1 ++ gs))
      (gs.map Prod.fst) m1 hscal
    rw [hw2, hm1]
    rfl
  · rename_i e he
    rw [he]


/-- The seven recognized configuration keys. -/
def sevenKeys : List String :=
  ["ignore", "ignore_with", "strict", "tab_size", "tag_wrap", "tag_wrap_width", "trim"]

/-- Appending scalar-valued unrecognized keys does not change whether the
field checks and the final merge succeed. -/
theorem fieldChecksAndMerge_extras (fs1 gs : List (String × JSVal))
    (hg1 : ∀ p ∈ gs, typeOf p.2 ≠ "object")
    (hgs7 : ∀ n ∈ sevenKeys, n ∉ gs.map Prod.fst)
    (hnd : ((fs1 ++ gs).map Prod.fst).Nodup) :
    (fieldChecksAndMerge (.obj (fs1 ++ gs))).isOk
      = (fieldChecksAndMerge (.obj fs1)).isOk := by
  have e1 := hasOwn_append_left "ignore" fs1 gs (hgs7 _ (by simp [sevenKeys]))
  have g1 : getProp (JSVal.obj (fs1 ++ gs)) "ignore" = getProp (JSVal.obj fs1) "ignore" :=
    alistGet_append_left "ignore" fs1 gs (hgs7 _ (by simp [sevenKeys]))
  have e2 := hasOwn_append_left "ignore_with" fs1 gs (hgs7 _ (by simp [sevenKeys]))
  have g2 : getProp (JSVal.obj (fs1 ++ gs)) "ignore_with" = getProp (JSVal.obj fs1) "ignore_with" :=
    alistGet_append_left "ignore_with" fs1 gs (hgs7 _ (by simp [sevenKeys]))
  have e3 := hasOwn_append_left "strict" fs1 gs (hgs7 _ (by simp [sevenKeys]))
  have g3 : getProp (JSVal.obj (fs1 ++ gs)) "strict" = getProp (JSVal.obj fs1) "strict" :=
    alistGet_append_left "strict" fs1 gs (hgs7 _ (by simp [sevenKeys]))
  have e4 := hasOwn_append_left "tag_wrap" fs1 gs (hgs7 _ (by simp [sevenKeys]))
  have g4 : getProp (JSVal.obj (fs1 ++ gs)) "tag_wrap" = getProp (JSVal.obj fs1) "tag_wrap" :=
    alistGet_append_left "tag_wrap" fs1 gs (hgs7 _ (by simp [sevenKeys]))
  have e5 := hasOwn_append_left "tag_wrap_width" fs1 gs (hgs7 _ (by simp [sevenKeys]))
  have g5 : getProp (JSVal.obj (fs1 ++ gs)) "tag_wrap_width"
      = getProp (JSVal.obj fs1) "tag_wrap_width" :=
    alistGet_append_left "tag_wrap_width" fs1 gs (hgs7 _ (by simp [sevenKeys]))
  have e6 := hasOwn_append_left "trim" fs1 gs (hgs7 _ (by simp [sevenKeys]))
  have g6 : getProp (JSVal.obj (fs1 ++ gs)) "trim" = getProp (JSVal.obj fs1) "trim" :=
    alistGet_append_left "trim" fs1 gs (hgs7 _ (by simp [sevenKeys]))
  unfold fieldChecksAndMerge
  rw [e1, g1, e2, g2, e3, g3, e4, g4, e5, g5, e6, g6]
  split
  · rfl
  · split
    · rfl
    · split
      · rfl
      · split
        · rfl
        · split
          · rfl
          · split
            · rfl
            · exact mergeConfig_extras_isOk fs1 gs hg1 hnd

/-- A truthy lookup means the key is present. -/
theorem mem_of_truthy_alistGet (k : String) (fs : List (String × JSVal))
    (h : truthy (alistGet k fs) = true) : k ∈ fs.map Prod.fst := by
  by_contra hmem
  rw [alistGet_not_mem k fs hmem] at h
  simp [truthy] at h

/-- Appending scalar-valued unrecognized keys to the input does not change
whether `validateConfig` succeeds. -/
theorem validateConfig_extras_isOk (fs gs : List (String × JSVal))
    (hg1 : ∀ p ∈ gs, typeOf p.2 ≠ "object")
    (hg2 : ∀ p ∈ gs, p.1 ∉ sevenKeys)
    (hnd : ((fs ++ gs).map Prod.fst).Nodup) :
    (validateConfig (.obj (fs ++ gs))).1.isOk = (validateConfig (.obj fs)).1.isOk := by
  have hgs7 : ∀ n ∈ sevenKeys, n ∉ gs.map Prod.fst := by
    intro n hn hmem
    obtain ⟨p, hp, rfl⟩ := List.mem_map.mp hmem
    exact hg2 p hp hn
  have hHas : ∀ n ∈ sevenKeys, hasOwn (.obj (fs ++ gs)) n = hasOwn (.obj fs) n :=
    fun n hn => hasOwn_append_left n fs gs (hgs7 n hn)
  have hGet : ∀ n ∈ sevenKeys, getProp (JSVal.obj (fs ++ gs)) n = getProp (JSVal.obj fs) n :=
    fun n hn => alistGet_append_left n fs gs (hgs7 n hn)
  have hEmpty : configEmptyB (.obj (fs ++ gs)) = configEmptyB (.obj fs) := by
    unfold configEmptyB
    rw [hHas "ignore" (by simp [sevenKeys]), hHas "ignore_with" (by simp [sevenKeys]),
      hHas "strict" (by simp [sevenKeys]), hHas "tab_size" (by simp [sevenKeys]),
      hHas "tag_wrap" (by simp [sevenKeys]), hHas "tag_wrap_width" (by simp [sevenKeys]),
      hHas "trim" (by simp [sevenKeys])]
  unfold validateConfig
  rw [if_neg (show ¬ typeOf (JSVal.obj (fs ++ gs)) ≠ "object" by simp [typeOf]),
      if_neg (show ¬ typeOf (JSVal.obj fs) ≠ "object" by simp [typeOf])]
  dsimp only
  rw [hEmpty]
  by_cases hce : configEmptyB (JSVal.obj fs) = true
  · rw [if_pos hce, if_pos hce]
    rfl
  · rw [if_neg hce, if_neg hce]
    rw [hGet "tab_size" (by simp [sevenKeys])]
    cases htss : tabSizeStep (getProp (JSVal.obj fs) "tab_size") with
    | error e => rfl
    | ok newTs =>
      cases newTs with
      | none =>
        dsimp only
        exact fieldChecksAndMerge_extras fs gs hg1 hgs7 hnd
      | some q =>
        dsimp only
        have hread : getProp (JSVal.obj fs) "tab_size" = JSVal.num q := tabSizeStep_some htss
        have htruthy : truthy (alistGet "tab_size" fs) = true := by
          have := tabSizeStep_some_truthy htss
          rw [← hread] at this
          exact this
        have hmem : "tab_size" ∈ fs.map Prod.fst := mem_of_truthy_alistGet _ _ htruthy
        have hset : setProp (JSVal.obj (fs ++ gs)) "tab_size" (JSVal.num q)
            = JSVal.obj (alistSet "tab_size" (JSVal.num q) fs ++ gs) := by
          simp only [setProp]
          rw [alistSet_append_left _ _ _ _ hmem]
        rw [hset]
        have hkeys : (alistSet "tab_size" (JSVal.num q) fs).map Prod.fst = fs.map Prod.fst :=
          alistSet_keys _ _ _ hmem
        refine fieldChecksAndMerge_extras _ gs hg1 hgs7 ?_
        rw [List.map_append, hkeys, ← List.map_append]
        exact hnd


/-! ## Claim C9 -/

/-- C9 counterexample: the claim says the returned configuration holds exactly
the seven recognized fields, with unrecognized keys never appearing.  But on
the merge path `mergeObjects` iterates over all keys of the input, so
validating `{ tab_size: 4, foo: "bar" }` returns a configuration carrying the
unrecognized key `foo`. -/
theorem validateConfig_unrecognized_cex :
    (validateConfig (.obj [("tab_size", .num 4), ("foo", .str "bar")])).1
      = .ok (.obj [("ignore", .arr []), ("ignore_with", .str "_!i-£___£%_"),
          ("strict", .bool false), ("tab_size", .num 4), ("tag_wrap", .bool false),
          ("tag_wrap_width", .num 80), ("trim", .arr []), ("foo", .str "bar")]) := rfl

/-- C9 (amended): `validateConfig` never inspects keys outside the seven
recognized names, so scalar-valued unrecognized keys never cause a validation
error (an object-typed or `null`-valued unrecognized key can still make the
final merge throw); when none of the seven keys is present, the returned
default does not contain them; but on the merge path every key of the input —
unrecognized ones included — is copied into the returned configuration. -/
theorem validateConfig_unrecognized_amended :
    (∀ (fs gs : List (String × JSVal)),
        (∀ p ∈ gs, typeOf p.2 ≠ "object") →
        (∀ p ∈ gs, p.1 ∉ sevenKeys) →
        ((fs ++ gs).map Prod.fst).Nodup →
        (validateConfig (.obj (fs ++ gs))).1.isOk = (validateConfig (.obj fs)).1.isOk)
    ∧ (validateConfig (.obj [("tab_size", .num 4), ("foo", .str "bar")])).1
        = .ok (.obj [("ignore", .arr []), ("ignore_with", .str "_!i-£___£%_"),
            ("strict", .bool false), ("tab_size", .num 4), ("tag_wrap", .bool false),
            ("tag_wrap_width", .num 80), ("trim", .arr []), ("foo", .str "bar")])
    ∧ (validateConfig (.obj [("foo", .str "bar")])).1 = .ok CONFIGj
    ∧ (validateConfig (.obj [("tab_size", .num 4), ("foo", .null)])).1
        = .error .mergeArgs :=
  ⟨validateConfig_extras_isOk, rfl, rfl, rfl⟩

/-- C9 witness: the scalar-extras clause at the concrete input
`{ tab_size: 4 }` extended with `{ foo: "bar" }`. -/
theorem validateConfig_unrecognized_amended_witness :
    (validateConfig (.obj ([("tab_size", JSVal.num 4)] ++ [("foo", JSVal.str "bar")]))).1.isOk
      = (validateConfig (.obj [("tab_size", JSVal.num 4)])).1.isOk :=
  validateConfig_unrecognized_amended.1 [("tab_size", JSVal.num 4)] [("foo", JSVal.str "bar")]
    (by intro p hp; simp at hp; rw [hp]; simp [typeOf])
    (by intro p hp; simp at hp; rw [hp]; simp [sevenKeys])
    (by simp)

/-! ## Equations for the attribute scanner

The fuelled scanners are given fuel-free stepping equations, via the
decomposition of a successful match. -/

/-- Splitting a list at an index holding a known character. -/
theorem split_at_get {u : List Char} {n : Nat} {c : Char} (h : u.get? n = some c) :
    u = u.take n ++ c :: u.drop (n + 1) := by
  have hlt : n < u.length := by
    rw [List.get?_eq_getElem?] at h
    exact (List.getElem?_eq_some_iff.mp h).1
  have hc : u[n] = c := by
    rw [List.get?_eq_getElem?] at h
    exact (List.getElem?_eq_some_iff.mp h).2
  calc u = u.take n ++ u.drop n := (List.take_append_drop n u).symm
    _ = u.take n ++ c :: u.drop (n + 1) := by rw [List.drop_eq_getElem_cons hlt, hc]

/-- `capOk u i` forces a `>` at index `i + 1`. -/
theorem capOk_gt {u : List Char} {i : Nat} (h : capOk u i = true) :
    u.get? (i + 1) = some '>' := by
  unfold capOk at h
  split at h
  · rename_i c d hc hd
    simp only [Bool.and_eq_true, decide_eq_true_eq] at h
    rw [hd, h.2]
  · exact absurd h (by simp)

/-- A successful `tryCapAux` splits its input at the final `>`. -/
theorem tryCapAux_decomp {u : List Char} {i : Nat} {cap rest : List Char}
    (h : tryCapAux u i = some (cap, rest)) :
    u = cap ++ '>' :: rest := by
  induction i with
  | zero =>
    unfold tryCapAux at h
    split at h
    · rename_i hok
      simp only [Option.some.injEq, Prod.mk.injEq] at h
      obtain ⟨hcap, hrest⟩ := h
      subst hcap
      subst hrest
      exact split_at_get (capOk_gt hok)
    · exact absurd h (by simp)
  | succ i ih =>
    unfold tryCapAux at h
    split at h
    · rename_i hok
      simp only [Option.some.injEq, Prod.mk.injEq] at h
      obtain ⟨hcap, hrest⟩ := h
      subst hcap
      subst hrest
      exact split_at_get (capOk_gt hok)
    · exact ih h

/-- A successful `tryCap` splits its input at the final `>`. -/
theorem tryCap_decomp {u : List Char} {cap rest : List Char}
    (h : tryCap u = some (cap, rest)) : u = cap ++ '>' :: rest := by
  unfold tryCap at h
  split at h
  · exact absurd h (by simp)
  · exact tryCapAux_decomp h

/-- A successful `tryTagAux` splits its input as head, capture, `>`,
remainder. -/
theorem tryTagAux_decomp {s : List Char} {n : Nat} {h cap rest : List Char}
    (hm : tryTagAux s n = some (h, cap, rest)) :
    s = h ++ cap ++ '>' :: rest := by
  induction n with
  | zero => exact absurd hm (by simp [tryTagAux])
  | succ k ih =>
    unfold tryTagAux at hm
    cases hp : tryCap (s.drop (k + 2)) with
    | none =>
      rw [hp] at hm
      exact ih hm
    | some p =>
      obtain ⟨cap0, rest0⟩ := p
      rw [hp] at hm
      dsimp only at hm
      simp only [Option.some.injEq, Prod.mk.injEq] at hm
      obtain ⟨hh, hc, hr⟩ := hm
      subst hh
      subst hc
      subst hr
      have hsplit := tryCap_decomp hp
      calc s = s.take (k + 2) ++ s.drop (k + 2) := (List.take_append_drop _ s).symm
        _ = s.take (k + 2) ++ (cap0 ++ '>' :: rest0) := by rw [← hsplit]
        _ = s.take (k + 2) ++ cap0 ++ '>' :: rest0 := by rw [List.append_assoc]

/-- A successful attribute match splits its input as head, capture, `>`,
remainder. -/
theorem tryMatchAttr_decomp {s : List Char} {h cap rest : List Char}
    (hm : tryMatchAttr s = some (h, cap, rest)) :
    s = h ++ cap ++ '>' :: rest := by
  unfold tryMatchAttr at hm
  split at hm
  · exact tryTagAux_decomp hm
  · exact absurd hm (by simp)

/-- The remainder of a successful match is strictly shorter than the input. -/
theorem tryMatchAttr_rest_lt {s : List Char} {h cap rest : List Char}
    (hm : tryMatchAttr s = some (h, cap, rest)) :
    rest.length < s.length := by
  have := tryMatchAttr_decomp hm
  rw [this]
  simp only [List.length_append, List.length_cons]
  omega

/-- Fuel irrelevance for the attribute scanner. -/
theorem attrScanF_fuel (f : List Char → List Char) :
    ∀ (n : Nat) (s : List Char), s.length ≤ n → attrScanF f n s = attrScan f s := by
  intro n
  induction n using Nat.strong_induction_on with
  | _ n ih =>
    intro s hs
    match n, s, hs with
    | n, [], _ =>
      cases n with
      | zero => rfl
      | succ n => rfl
    | n + 1, c :: cs, hs =>
      show attrScanF f (n + 1) (c :: cs) = attrScanF f (c :: cs).length (c :: cs)
      have hlen : (c :: cs).length = cs.length + 1 := rfl
      rw [hlen]
      simp only [attrScanF]
      cases hp : tryMatchAttr (c :: cs) with
      | some p =>
        obtain ⟨h0, cap0, rest0⟩ := p
        have hlt := tryMatchAttr_rest_lt hp
        rw [hlen] at hlt
        have h1 : attrScanF f n rest0 = attrScan f rest0 :=
          ih n (Nat.lt_succ_self n) rest0 (by
            simp only [List.length_cons] at hs
            omega)
        have h2 : attrScanF f cs.length rest0 = attrScan f rest0 :=
          ih cs.length (by omega) rest0 (by omega)
        dsimp only
        rw [h1, h2]
      | none =>
        have h1 : attrScanF f n cs = attrScan f cs :=
          ih n (Nat.lt_succ_self n) cs (by
            simp only [List.length_cons] at hs
            omega)
        have h2 : attrScanF f cs.length cs = attrScan f cs :=
          ih cs.length (by omega) cs le_rfl
        dsimp only
        rw [h1, h2]

/-- Scanner equation: no match at the head copies one character. -/
theorem attrScan_nomatch (f : List Char → List Char) (c : Char) (cs : List Char)
    (h : tryMatchAttr (c :: cs) = none) :
    attrScan f (c :: cs) = c :: attrScan f cs := by
  show attrScanF f (c :: cs).length (c :: cs) = _
  simp only [List.length_cons, attrScanF, h]
  rw [attrScanF_fuel f cs.length cs le_rfl]

/-- Scanner equation: a match at the head is rewritten and scanning resumes
after it. -/
theorem attrScan_match (f : List Char → List Char) {s hd cap rest : List Char}
    (hm : tryMatchAttr s = some (hd, cap, rest)) :
    attrScan f s = replaceFirst cap (f cap) (hd ++ cap ++ ['>']) ++ attrScan f rest := by
  cases s with
  | nil => exact absurd hm (by simp [tryMatchAttr])
  | cons c cs =>
    show attrScanF f (c :: cs).length (c :: cs) = _
    simp only [List.length_cons, attrScanF, hm]
    have hlt := tryMatchAttr_rest_lt hm
    simp only [List.length_cons] at hlt
    rw [attrScanF_fuel f cs.length rest (by omega)]


/-! ## Evaluating the attribute matcher on decomposed inputs -/

/-- `gtIdx` of a `>`-free part followed by `>`. -/
theorem gtIdx_split (B v : List Char) (hB : ∀ c ∈ B, ¬ c = '>') :
    gtIdx (B ++ '>' :: v) = some B.length := by
  induction B with
  | nil => simp [gtIdx]
  | cons b B ih =>
    have hb : ¬ b = '>' := hB b (List.mem_cons_self _ _)
    have ih' := ih (fun c hc => hB c (List.mem_cons_of_mem _ hc))
    show gtIdx (b :: (B ++ '>' :: v)) = some (B.length + 1)
    unfold gtIdx
    rw [if_neg hb, ih']
    rfl

/-- Indexing the split list below the `>`. -/
theorem split_get_lt (B v : List Char) (j : Nat) (hj : j < B.length) :
    (B ++ '>' :: v).get? j = B.get? j := by
  rw [List.get?_eq_getElem?, List.get?_eq_getElem?, List.getElem?_append_left hj]

/-- Indexing the split list at the `>`. -/
theorem split_get_eq (B v : List Char) :
    (B ++ '>' :: v).get? B.length = some '>' := by
  rw [List.get?_eq_getElem?]
  rw [List.getElem?_append_right le_rfl]
  simp

/-- Indexing the split list above the `>`. -/
theorem split_get_gt (B v : List Char) (j : Nat) :
    (B ++ '>' :: v).get? (B.length + 1 + j) = v.get? j := by
  rw [List.get?_eq_getElem?, List.get?_eq_getElem?]
  rw [List.getElem?_append_right (by omega)]
  have : B.length + 1 + j - B.length = j + 1 := by omega
  rw [this]
  simp

/-- `capOk` fails strictly inside the `>`-free part. -/
theorem capOk_lt (B v : List Char) (hB : ∀ c ∈ B, ¬ c = '>') (j : Nat)
    (hj : j + 1 < B.length) : capOk (B ++ '>' :: v) j = false := by
  have hj0 : j < B.length := by omega
  unfold capOk
  rw [split_get_lt B v j hj0, split_get_lt B v (j + 1) hj]
  rw [List.get?_eq_getElem?, List.get?_eq_getElem?]
  rw [List.getElem?_eq_getElem hj0, List.getElem?_eq_getElem hj]
  have hc : ¬ B[j + 1] = '>' := hB _ (List.getElem_mem _)
  simp [hc]

/-- `capOk` at the character right before the `>`. -/
theorem capOk_before (B' v : List Char) (b : Char) :
    capOk ((B' ++ [b]) ++ '>' :: v) B'.length = !decide (b = '/') := by
  unfold capOk
  have h1 : ((B' ++ [b]) ++ '>' :: v).get? B'.length = some b := by
    rw [split_get_lt (B' ++ [b]) v B'.length (by simp)]
    rw [List.get?_eq_getElem?, List.getElem?_append_right le_rfl]
    simp
  have h2 : ((B' ++ [b]) ++ '>' :: v).get? (B'.length + 1) = some '>' := by
    have h3 : B'.length + 1 = (B' ++ [b]).length := by simp
    rw [h3]
    exact split_get_eq _ _
  rw [h1, h2]
  simp

/-- `capOk` at the `>` itself: needs a second `>` right after. -/
theorem capOk_at (B v : List Char) :
    capOk (B ++ '>' :: v) B.length = decide (v.get? 0 = some '>') := by
  unfold capOk
  rw [split_get_eq B v]
  have h2 : (B ++ '>' :: v).get? (B.length + 1) = v.get? 0 := by
    have := split_get_gt B v 0
    simpa using this
  rw [h2]
  cases hv : v.get? 0 with
  | none => simp [hv]
  | some c =>
    simp only
    by_cases hc : c = '>'
    · subst hc
      simp
    · simp [hc]

/-- `tryCapAux` fails when `capOk` fails everywhere at or below the start. -/
theorem tryCapAux_none (u : List Char) (i : Nat)
    (h : ∀ j ≤ i, capOk u j = false) : tryCapAux u i = none := by
  induction i with
  | zero =>
    unfold tryCapAux
    rw [h 0 le_rfl]
    rfl
  | succ i ih =>
    unfold tryCapAux
    rw [h (i + 1) le_rfl]
    simp only [Bool.false_eq_true, if_false]
    exact ih (fun j hj => h j (Nat.le_succ_of_le hj))

/-- `tryCapAux` succeeds immediately where `capOk` holds. -/
theorem tryCapAux_hit (u : List Char) (i : Nat) (h : capOk u i = true) :
    tryCapAux u i = some (u.take (i + 1), u.drop (i + 2)) := by
  cases i with
  | zero =>
    unfold tryCapAux
    rw [h]
    rfl
  | succ i =>
    unfold tryCapAux
    rw [h]
    rfl

/-- `tryCapAux` steps down past a failing start. -/
theorem tryCapAux_step (u : List Char) (i : Nat) (h : capOk u (i + 1) = false) :
    tryCapAux u (i + 1) = tryCapAux u i := by
  have h0 : tryCapAux u (i + 1)
      = if capOk u (i + 1) = true then some (u.take (i + 2), u.drop (i + 3))
        else tryCapAux u i := rfl
  rw [h0, h]
  simp

/-- `tryCap` when the `>` is doubled: the capture extends through the first
`>`. -/
theorem tryCap_gt (B v : List Char) (hB : ∀ c ∈ B, ¬ c = '>')
    (hv : v.get? 0 = some '>') :
    tryCap (B ++ '>' :: v) = some (B ++ ['>'], v.drop 1) := by
  unfold tryCap
  rw [gtIdx_split B v hB]
  dsimp only
  rw [tryCapAux_hit _ _ (by rw [capOk_at B v, hv]; simp)]
  have ht : (B ++ '>' :: v).take (B.length + 1) = B ++ ['>'] := by
    rw [List.take_append]
    rfl
  have hd : (B ++ '>' :: v).drop (B.length + 2) = v.drop 1 := by
    rw [List.drop_append]
    rfl
  rw [ht, hd]

/-- `tryCap` in the normal case: capture up to (excluding) the `>`, with a
last capture character that is not `/`. -/
theorem tryCap_mid (B' v : List Char) (b : Char)
    (hB : ∀ c ∈ B' ++ [b], ¬ c = '>')
    (hv : ¬ v.get? 0 = some '>') (hb : ¬ b = '/') :
    tryCap ((B' ++ [b]) ++ '>' :: v) = some (B' ++ [b], v) := by
  unfold tryCap
  rw [gtIdx_split _ v hB]
  dsimp only
  have hlen : (B' ++ [b]).length = B'.length + 1 := by simp
  rw [hlen]
  rw [tryCapAux_step _ _ (by
    have := capOk_at (B' ++ [b]) v
    rw [hlen] at this
    rw [this]
    simpa using hv)]
  rw [tryCapAux_hit _ _ (by rw [capOk_before B' v b]; simp [hb])]
  have ht : ((B' ++ [b]) ++ '>' :: v).take (B'.length + 1) = B' ++ [b] := by
    have : B'.length + 1 = (B' ++ [b]).length := by simp
    rw [this, List.take_left]
  have hd : ((B' ++ [b]) ++ '>' :: v).drop (B'.length + 2) = v := by
    have : B'.length + 2 = (B' ++ [b]).length + 1 := by simp
    rw [this]
    have h2 := @List.drop_append Char (B' ++ [b]) ('>' :: v) 1
    simpa using h2
  rw [ht, hd]

/-- `tryCap` fails when the capture region is empty and the `>` is not
doubled. -/
theorem tryCap_none_empty (v : List Char) (hv : ¬ v.get? 0 = some '>') :
    tryCap ('>' :: v) = none := by
  unfold tryCap
  have h0 := gtIdx_split [] v (by simp)
  simp only [List.nil_append] at h0
  rw [h0]
  dsimp only
  refine tryCapAux_none _ _ ?_
  intro j hj
  have hj0 : j = 0 := Nat.le_zero.mp hj
  subst hj0
  have := capOk_at [] v
  simp only [List.nil_append, List.length_nil] at this
  rw [this]
  simpa using hv

/-- `tryCap` fails when the character before the `>` is `/` and the `>` is
not doubled. -/
theorem tryCap_none_slash (B' v : List Char)
    (hB : ∀ c ∈ B' ++ ['/'], ¬ c = '>')
    (hv : ¬ v.get? 0 = some '>') :
    tryCap ((B' ++ ['/']) ++ '>' :: v) = none := by
  unfold tryCap
  rw [gtIdx_split _ v hB]
  dsimp only
  refine tryCapAux_none _ _ ?_
  intro j hj
  have hlen : (B' ++ ['/']).length = B'.length + 1 := by simp
  rcases Nat.lt_or_ge j B'.length with hlt | hge
  · exact capOk_lt _ v hB j (by omega)
  · rcases Nat.eq_or_lt_of_le hge with heq | hgt
    · subst heq
      rw [capOk_before B' v '/']
      simp
    · have hj' : j = B'.length + 1 := by omega
      subst hj'
      have := capOk_at (B' ++ ['/']) v
      rw [hlen] at this
      rw [this]
      simpa using hv

/-- `tryCap` fails when there is no `>` at all. -/
theorem tryCap_nogt (u : List Char) (h : ∀ c ∈ u, ¬ c = '>') :
    tryCap u = none := by
  unfold tryCap
  have : gtIdx u = none := by
    induction u with
    | nil => rfl
    | cons c cs ih =>
      unfold gtIdx
      rw [if_neg (h c (List.mem_cons_self _ _))]
      rw [ih (fun c hc => h c (List.mem_cons_of_mem _ hc))]
      rfl
  rw [this]


/-- The maximal tag-character run of a split list. -/
theorem wordRun_exact (W R : List Char) (hW : ∀ c ∈ W, isTagChar c = true)
    (hR : ∀ c ∈ R.take 1, isTagChar c = false) :
    wordRun (W ++ R) = W.length := by
  induction W with
  | nil =>
    cases R with
    | nil => rfl
    | cons c cs =>
      have := hR c (by simp)
      simp [wordRun, this]
  | cons w W ih =>
    have hw := hW w (List.mem_cons_self _ _)
    have h0 : wordRun (w :: (W ++ R)) = if isTagChar w = true then wordRun (W ++ R) + 1 else 0 := rfl
    show wordRun (w :: (W ++ R)) = W.length + 1
    rw [h0, if_pos hw, ih (fun c hc => hW c (List.mem_cons_of_mem _ hc))]

/-- `tryTagAux` succeeds at a level whose capture attempt succeeds. -/
theorem tryTagAux_hit (s : List Char) (n : Nat) (cap rest : List Char)
    (hn : 1 ≤ n) (h : tryCap (s.drop (n + 1)) = some (cap, rest)) :
    tryTagAux s n = some (s.take (n + 1), cap, rest) := by
  cases n with
  | zero => omega
  | succ k =>
    have h0 : tryTagAux s (k + 1)
        = match tryCap (s.drop (k + 2)) with
          | some (cap, rest) => some (s.take (k + 2), cap, rest)
          | none => tryTagAux s k := rfl
    rw [h0, h]

/-- `tryTagAux` steps down past a level whose capture attempt fails. -/
theorem tryTagAux_miss (s : List Char) (n : Nat)
    (h : tryCap (s.drop (n + 2)) = none) :
    tryTagAux s (n + 1) = tryTagAux s n := by
  have h0 : tryTagAux s (n + 1)
      = match tryCap (s.drop (n + 2)) with
        | some (cap, rest) => some (s.take (n + 2), cap, rest)
        | none => tryTagAux s n := rfl
  rw [h0, h]

/-- `tryTagAux` fails when the capture attempt fails at every level. -/
theorem tryTagAux_none (s : List Char) (n : Nat)
    (h : ∀ m, 1 ≤ m → m ≤ n → tryCap (s.drop (m + 1)) = none) :
    tryTagAux s n = none := by
  induction n with
  | zero => rfl
  | succ k ih =>
    rw [tryTagAux_miss s k (h (k + 1) (by omega) le_rfl)]
    exact ih (fun m h1 h2 => h m h1 (by omega))

/-- Unfolding the head test of the matcher. -/
theorem tryMatchAttr_cons (cs : List Char) :
    tryMatchAttr ('<' :: cs) = tryTagAux ('<' :: cs) (wordRun cs) := rfl

/-- The matcher fails on a head other than `<`. -/
theorem tryMatchAttr_nonlt (c : Char) (cs : List Char) (h : ¬ c = '<') :
    tryMatchAttr (c :: cs) = none := by
  unfold tryMatchAttr
  split
  · rename_i cs' heq
    rw [List.cons.injEq] at heq
    exact absurd heq.1 h
  · rfl

/-- Dropping through the `<` and the tag-name run. -/
theorem matchAttr_drop (W X : List Char) (m : Nat) (hm : m ≤ W.length) :
    ('<' :: (W ++ X)).drop (m + 1) = W.drop m ++ X := by
  show (W ++ X).drop m = W.drop m ++ X
  rw [List.drop_append_of_le_length hm]

/-- Case (i): a doubled `>` captures through the first `>`. -/
theorem tryMatchAttr_case_gt (W A v : List Char)
    (hW : W ≠ []) (hWt : ∀ c ∈ W, isTagChar c = true)
    (hA : ∀ c ∈ A, ¬ c = '>')
    (hAh : ∀ c ∈ (A ++ '>' :: v).take 1, isTagChar c = false)
    (hv : v.get? 0 = some '>') :
    tryMatchAttr ('<' :: (W ++ (A ++ '>' :: v)))
      = some ('<' :: W, A ++ ['>'], v.drop 1) := by
  rw [tryMatchAttr_cons]
  rw [wordRun_exact W (A ++ '>' :: v) hWt hAh]
  have hd : ('<' :: (W ++ (A ++ '>' :: v))).drop (W.length + 1) = A ++ '>' :: v := by
    rw [matchAttr_drop W _ W.length le_rfl, List.drop_length, List.nil_append]
  rw [tryTagAux_hit _ _ _ _ (by
      cases W with
      | nil => exact absurd rfl hW
      | cons a b => simp) (by rw [hd]; exact tryCap_gt A v hA hv)]
  have ht : ('<' :: (W ++ (A ++ '>' :: v))).take (W.length + 1) = '<' :: W := by
    show '<' :: (W ++ (A ++ '>' :: v)).take W.length = _
    rw [List.take_left]
  rw [ht]

/-- Case (ii): the normal capture, ending right before the `>` with a
non-`/` character. -/
theorem tryMatchAttr_case_mid (W A' v : List Char) (b : Char)
    (hW : W ≠ []) (hWt : ∀ c ∈ W, isTagChar c = true)
    (hA : ∀ c ∈ A' ++ [b], ¬ c = '>')
    (hAh : ∀ c ∈ ((A' ++ [b]) ++ '>' :: v).take 1, isTagChar c = false)
    (hv : ¬ v.get? 0 = some '>') (hb : ¬ b = '/') :
    tryMatchAttr ('<' :: (W ++ ((A' ++ [b]) ++ '>' :: v)))
      = some ('<' :: W, A' ++ [b], v) := by
  rw [tryMatchAttr_cons]
  rw [wordRun_exact W ((A' ++ [b]) ++ '>' :: v) hWt hAh]
  have hd : ('<' :: (W ++ ((A' ++ [b]) ++ '>' :: v))).drop (W.length + 1)
      = (A' ++ [b]) ++ '>' :: v := by
    rw [matchAttr_drop W _ W.length le_rfl, List.drop_length, List.nil_append]
  rw [tryTagAux_hit _ _ _ _ (by
      cases W with
      | nil => exact absurd rfl hW
      | cons a b => simp) (by rw [hd]; exact tryCap_mid A' v b hA hv hb)]
  have ht : ('<' :: (W ++ ((A' ++ [b]) ++ '>' :: v))).take (W.length + 1) = '<' :: W := by
    show '<' :: (W ++ ((A' ++ [b]) ++ '>' :: v)).take W.length = _
    rw [List.take_left]
  rw [ht]

/-- Case (iii): an empty capture region falls back to capturing the last
tag-name character (tag names of length at least two). -/
theorem tryMatchAttr_case_word (W v : List Char) (a : Char)
    (hW : W ≠ []) (hWt : ∀ c ∈ W ++ [a], isTagChar c = true)
    (hv : ¬ v.get? 0 = some '>') :
    tryMatchAttr ('<' :: ((W ++ [a]) ++ '>' :: v)) = some ('<' :: W, [a], v) := by
  rw [tryMatchAttr_cons]
  rw [wordRun_exact (W ++ [a]) ('>' :: v) hWt (by intro c hc; simp at hc; subst hc; rfl)]
  have hlen : (W ++ [a]).length = W.length + 1 := by simp
  have hd1 : ('<' :: ((W ++ [a]) ++ '>' :: v)).drop ((W ++ [a]).length + 1) = '>' :: v := by
    rw [matchAttr_drop (W ++ [a]) ('>' :: v) (W ++ [a]).length le_rfl, List.drop_length,
      List.nil_append]
  rw [hlen] at hd1
  rw [hlen]
  rw [tryTagAux_miss _ _ (by rw [hd1]; exact tryCap_none_empty v hv)]
  have hd2 : ('<' :: ((W ++ [a]) ++ '>' :: v)).drop (W.length + 1)
      = ([] ++ [a]) ++ '>' :: v := by
    have h2 : ((W ++ [a]) ++ '>' :: v) = W ++ ([a] ++ '>' :: v) := by
      simp [List.append_assoc]
    rw [h2, matchAttr_drop W _ W.length le_rfl, List.drop_length, List.nil_append]
    simp
  have ha : isTagChar a = true := hWt a (by simp)
  have ha' : ¬ a = '/' := by
    intro hh
    subst hh
    simp [isTagChar] at ha
  rw [tryTagAux_hit _ _ _ _ (by
      cases W with
      | nil => exact absurd rfl hW
      | cons x y => simp) (by
      rw [hd2]
      exact tryCap_mid [] v a (by
        intro c hc
        simp at hc
        subst hc
        intro hh
        rw [hh] at ha
        simp [isTagChar] at ha) hv ha')]
  have ht : ('<' :: ((W ++ [a]) ++ '>' :: v)).take (W.length + 1) = '<' :: W := by
    show '<' :: ((W ++ [a]) ++ '>' :: v).take W.length = _
    have h2 : ((W ++ [a]) ++ '>' :: v) = W ++ ([a] ++ '>' :: v) := by
      simp [List.append_assoc]
    rw [h2, List.take_left]
  rw [ht]
  simp

/-- No-match case: the character before the `>` is `/` (self-closing tags),
and the `>` is not doubled. -/
theorem tryMatchAttr_none_slash (W A' v : List Char)
    (hWt : ∀ c ∈ W, isTagChar c = true)
    (hA : ∀ c ∈ A' ++ ['/'], ¬ c = '>')
    (hAh : ∀ c ∈ ((A' ++ ['/']) ++ '>' :: v).take 1, isTagChar c = false)
    (hv : ¬ v.get? 0 = some '>') :
    tryMatchAttr ('<' :: (W ++ ((A' ++ ['/']) ++ '>' :: v))) = none := by
  rw [tryMatchAttr_cons]
  rw [wordRun_exact W ((A' ++ ['/']) ++ '>' :: v) hWt hAh]
  refine tryTagAux_none _ _ ?_
  intro m h1 h2
  have hd : ('<' :: (W ++ ((A' ++ ['/']) ++ '>' :: v))).drop (m + 1)
      = (W.drop m ++ A' ++ ['/']) ++ '>' :: v := by
    rw [matchAttr_drop W _ m h2]
    simp [List.append_assoc]
  rw [hd]
  refine tryCap_none_slash (W.drop m ++ A') v ?_ hv
  intro c hc
  simp only [List.append_assoc, List.mem_append] at hc
  rcases hc with hc | hc
  · have := hWt c (List.mem_of_mem_drop hc)
    intro hh
    rw [hh] at this
    simp [isTagChar] at this
  · exact hA c (by simpa using hc)

/-- No-match case: empty capture region after a single-character tag name. -/
theorem tryMatchAttr_none_short (a : Char) (v : List Char)
    (ha : isTagChar a = true) (hv : ¬ v.get? 0 = some '>') :
    tryMatchAttr ('<' :: ([a] ++ '>' :: v)) = none := by
  rw [tryMatchAttr_cons]
  rw [wordRun_exact [a] ('>' :: v) (by simpa using ha) (by intro c hc; simp at hc; subst hc; rfl)]
  refine tryTagAux_none _ _ ?_
  intro m h1 h2
  have hm : m = 1 := by simp at h2; omega
  subst hm
  have hd : ('<' :: ([a] ++ '>' :: v)).drop 2 = '>' :: v := rfl
  rw [hd]
  exact tryCap_none_empty v hv

/-- No-match case: no `>` at all after the `<`. -/
theorem tryMatchAttr_none_nogt (cs : List Char) (h : ∀ c ∈ cs, ¬ c = '>') :
    tryMatchAttr ('<' :: cs) = none := by
  rw [tryMatchAttr_cons]
  refine tryTagAux_none _ _ ?_
  intro m h1 h2
  refine tryCap_nogt _ ?_
  intro c hc
  have : c ∈ cs := by
    have : ('<' :: cs).drop (m + 1) = cs.drop m := rfl
    rw [this] at hc
    exact List.mem_of_mem_drop hc
  exact h c this

/-- No-match case: no tag-name character after the `<`. -/
theorem tryMatchAttr_none_noword (cs : List Char)
    (h : ∀ c ∈ cs.take 1, isTagChar c = false) :
    tryMatchAttr ('<' :: cs) = none := by
  rw [tryMatchAttr_cons]
  have : wordRun cs = 0 := by
    cases cs with
    | nil => rfl
    | cons c cs' =>
      have := h c (by simp)
      simp [wordRun, this]
  rw [this]
  rfl


/-! ## Claim C7 -/

/-- C7: the claim (and the specification's contract) says that after
`setIgnoreElement`, the captured inner content of every matched ignored
element is fully encoded — no raw `<`, `>` or whitespace — and the tags
themselves are untouched.  The code instead rewrites the first occurrence of
the capture string inside the whole match (`match.replace(capture, ...)`),
and on `<script x y>x y</script>` the capture `x y` occurs first inside the
opening tag: the attribute text gets encoded and the inner content keeps its
raw whitespace. -/
theorem setIgnoreElement_first_occurrence_bug :
    setIgnoreElement "<script x y>x y</script>"
      ⟨["script"], "X", false, 2, false, 80, []⟩
      = "<script x-Xws-y>x y</script>" := rfl

/-! ## Claim C10 -/

/-- `ngtRun` splits at the first `>`. -/
theorem ngtRun_split (r Y : List Char) (hr : ∀ c ∈ r, ¬ c = '>') :
    ngtRun (r ++ '>' :: Y) = some (r, Y) := by
  induction r with
  | nil => rfl
  | cons c r ih =>
    have hc := hr c (List.mem_cons_self _ _)
    have h0 : ngtRun (c :: (r ++ '>' :: Y))
        = if c = '>' then some ([], r ++ '>' :: Y)
          else (ngtRun (r ++ '>' :: Y)).map (fun p => (c :: p.1, p.2)) := rfl
    show ngtRun (c :: (r ++ '>' :: Y)) = some (c :: r, Y)
    rw [h0, if_neg hc, ih (fun c hc => hr c (List.mem_cons_of_mem _ hc))]
    rfl

/-- `wsRun` splits a whitespace run from a non-whitespace continuation. -/
theorem wsRun_split (ws v : List Char) (hws : ∀ c ∈ ws, isWsJS c = true)
    (hv : ∀ c ∈ v.take 1, isWsJS c = false) :
    wsRun (ws ++ v) = (ws, v) := by
  induction ws with
  | nil =>
    cases v with
    | nil => rfl
    | cons c cs =>
      have := hv c (by simp)
      simp [wsRun, this]
  | cons w ws ih =>
    have hw := hws w (List.mem_cons_self _ _)
    have h0 : wsRun (w :: (ws ++ v))
        = if isWsJS w = true then (w :: (wsRun (ws ++ v)).1, (wsRun (ws ++ v)).2)
          else ([], w :: (ws ++ v)) := rfl
    show wsRun (w :: (ws ++ v)) = (w :: ws, v)
    rw [h0, if_pos hw, ih (fun c hc => hws c (List.mem_cons_of_mem _ hc))]

/-- The leading-whitespace matcher of `trimify` accepts any opening tag whose
name merely begins with the configured tag text. -/
theorem tryLead_prefix (t r ws v : List Char)
    (hr : ∀ c ∈ r, ¬ c = '>') (hw : ws ≠ [])
    (hws : ∀ c ∈ ws, isWsJS c = true) (hv : ∀ c ∈ v.take 1, isWsJS c = false) :
    tryLead t ('<' :: (t ++ (r ++ '>' :: (ws ++ v))))
      = some ('<' :: (t ++ (r ++ ['>'])), v) := by
  unfold tryLead
  rw [if_pos (by
    rw [List.isPrefixOf_iff_prefix]
    exact ⟨r ++ '>' :: (ws ++ v), by simp⟩)]
  have hd : ('<' :: (t ++ (r ++ '>' :: (ws ++ v)))).drop (t.length + 1)
      = r ++ '>' :: (ws ++ v) := by
    show (t ++ (r ++ '>' :: (ws ++ v))).drop t.length = _
    rw [List.drop_left]
  rw [hd, ngtRun_split r (ws ++ v) hr]
  dsimp only
  rw [wsRun_split ws v hws hv]
  cases ws with
  | nil => exact absurd rfl hw
  | cons w ws' => simp [List.append_assoc]

/-- C10 (implicit claim): `trimify` matches trim tag names by prefix, not
exactly: the leading-whitespace pattern `` (<t[^>]*>)\s+ `` accepts any
opening tag whose name merely begins with `t`, so with `trim = ["p"]` the
whitespace immediately following a `<pre ...>` opening tag is also removed,
not only whitespace following `<p ...>` tags. -/
theorem trimify_prefix_matching :
    (∀ (t r ws v : List Char),
        (∀ c ∈ r, ¬ c = '>') → ws ≠ [] →
        (∀ c ∈ ws, isWsJS c = true) → (∀ c ∈ v.take 1, isWsJS c = false) →
        tryLead t ('<' :: (t ++ (r ++ '>' :: (ws ++ v))))
          = some ('<' :: (t ++ (r ++ ['>'])), v))
    ∧ trimify "<pre> hi </pre>" ["p"] = "<pre>hi </pre>"
    ∧ trimify "<p>\n  hi  \n</p>" ["p"] = "<p>hi</p>" :=
  ⟨ tryLead_prefix, rfl, rfl⟩

/-- C10 witness: the general prefix clause at `t = "p"` on the `<pre>` tag of
`<pre> x`. -/
theorem trimify_prefix_matching_witness :
    tryLead "p".data ('<' :: ("p".data ++ ("re".data ++ '>' :: (" ".data ++ "x".data))))
      = some ('<' :: ("p".data ++ ("re".data ++ ['>'])), "x".data) :=
  trimify_prefix_matching.1 "p".data "re".data " ".data "x".data
    (by decide) (by decide) (by decide) (by decide)

/-! ## Claim C8 -/

/-- C8 counterexample: the claim says a self-closing tag that carries
attribute content is still protected.  But the capture of the protection
regex must end in a non-`/` character immediately before the `>`, so a tag
ending in `/>` never matches: `protectAttributes` leaves
`<img a="x\ny"/>` — a self-closing tag with attribute content holding a raw
newline — completely unchanged. -/
theorem protectAttributes_selfclosing_cex :
    protectAttributes "<img a=\"x\ny\"/>" = "<img a=\"x\ny\"/>"
    ∧ containsSub ['\n'] "<img a=\"x\ny\"/>".data = true :=
  ⟨rfl, rfl⟩

/-- C8 (amended): `protectAttributes` operates only on the span between an
opening tag's name and its closing `>`, excluding every tag whose character
immediately before the `>` is `/` — so all self-closing tags are excluded,
whether or not they carry attribute content (unless a second `>` immediately
follows).  Text outside any tag is left unchanged: for
`<div title="a\nb">text</div>` the newline (and the space) inside the
attribute region are encoded while the text node outside the tag is
untouched, and the protect → unprotect round trip restores the input. -/
theorem protectAttributes_scope_amended :
    (∀ (W A' v : List Char),
        (∀ c ∈ W, isTagChar c = true) →
        (∀ c ∈ A' ++ ['/'], ¬ c = '>') →
        (∀ c ∈ ((A' ++ ['/']) ++ '>' :: v).take 1, isTagChar c = false) →
        ¬ v.get? 0 = some '>' →
        tryMatchAttr ('<' :: (W ++ ((A' ++ ['/']) ++ '>' :: v))) = none)
    ∧ protectAttributes "<div title=\"a\nb\">text</div>"
        = "<div!i-£___£%_ws!title=\"a!i-£___£%_nl!b\">text</div>"
    ∧ unprotectAttributes (protectAttributes "<div title=\"a\nb\">text</div>")
        = "<div title=\"a\nb\">text</div>" :=
  ⟨tryMatchAttr_none_slash, rfl, rfl⟩

/-- C8 witness: the self-closing clause at the `<img a="x\ny"/>` tag. -/
theorem protectAttributes_scope_amended_witness :
    tryMatchAttr ('<' :: ("img".data ++ ((" a=\"x\ny\"".data ++ ['/']) ++ '>' :: []))) = none :=
  protectAttributes_scope_amended.1 "img".data " a=\"x\ny\"".data []
    (by decide) (by decide) (by decide) (by decide)


/-! ## Prefix and occurrence toolbox -/

/-- `isPrefixOf` through equal heads. -/
theorem prefixOf_cons (d : Char) (P X : List Char) :
    (d :: P).isPrefixOf (d :: X) = P.isPrefixOf X := by
  simp [List.isPrefixOf]

/-- `isPrefixOf` fails on distinct heads. -/
theorem prefixOf_cons_ne (d c : Char) (P X : List Char) (h : ¬ d = c) :
    (d :: P).isPrefixOf (c :: X) = false := by
  simp [List.isPrefixOf, h]

/-- A prefix determines the indexed characters. -/
theorem get_of_prefixOf {P X : List Char} (h : P.isPrefixOf X = true)
    {i : Nat} (hi : i < P.length) : X.get? i = P.get? i := by
  rw [List.isPrefixOf_iff_prefix] at h
  obtain ⟨t, rfl⟩ := h
  rw [List.get?_eq_getElem?, List.get?_eq_getElem?, List.getElem?_append_left hi]

/-- A single mismatched position refutes a prefix, whatever follows. -/
theorem prefix_mismatch (P B X : List Char) (i : Nat) (a b : Char)
    (ha : P.get? i = some a) (hb : B.get? i = some b) (hne : ¬ a = b) :
    P.isPrefixOf (B ++ X) = false := by
  cases hP : P.isPrefixOf (B ++ X) with
  | false => rfl
  | true =>
    exfalso
    have hiP : i < P.length := by
      rw [List.get?_eq_getElem?] at ha
      exact (List.getElem?_eq_some_iff.mp ha).1
    have hiB : i < B.length := by
      rw [List.get?_eq_getElem?] at hb
      exact (List.getElem?_eq_some_iff.mp hb).1
    have h1 : (B ++ X).get? i = P.get? i := get_of_prefixOf hP hiP
    have h2 : (B ++ X).get? i = B.get? i := by
      rw [List.get?_eq_getElem?, List.get?_eq_getElem?, List.getElem?_append_left hiB]
    rw [h2, hb, ha] at h1
    exact hne (Option.some.inj h1).symm

/-- Transitivity of `isPrefixOf`. -/
theorem prefixOf_trans {A B C : List Char} (h1 : A.isPrefixOf B = true)
    (h2 : B.isPrefixOf C = true) : A.isPrefixOf C = true := by
  rw [List.isPrefixOf_iff_prefix] at h1 h2 ⊢
  exact h1.trans h2

/-- Every list is a prefix of itself extended. -/
theorem prefixOf_self_append (P X : List Char) : P.isPrefixOf (P ++ X) = true := by
  rw [List.isPrefixOf_iff_prefix]
  exact List.prefix_append P X

/-- The left part of a prefix is a prefix. -/
theorem prefixOf_append_left {A B X : List Char} (h : (A ++ B).isPrefixOf X = true) :
    A.isPrefixOf X = true :=
  prefixOf_trans (prefixOf_self_append A B) h

/-- A prefix extends along an appended suffix. -/
theorem prefixOf_mono {P X : List Char} (B : List Char) (h : P.isPrefixOf X = true) :
    P.isPrefixOf (X ++ B) = true :=
  prefixOf_trans h (prefixOf_self_append X B)

/-- A prefix of `B ++ X` no longer than `B` is a prefix of `B`. -/
theorem prefixOf_long {P B X : List Char} (h : P.isPrefixOf (B ++ X) = true)
    (hl : P.length ≤ B.length) : P.isPrefixOf B = true := by
  rw [List.isPrefixOf_iff_prefix] at h ⊢
  exact List.prefix_of_prefix_length_le h (List.prefix_append B X) hl

/-- `replaceFirst` passes over a region with no occurrence of the pattern. -/
theorem replaceFirst_skip (pat repl : List Char) :
    ∀ (B X : List Char), (∀ j, j < B.length → pat.isPrefixOf ((B ++ X).drop j) = false) →
    replaceFirst pat repl (B ++ X) = B ++ replaceFirst pat repl X := by
  intro B
  induction B with
  | nil => intro X _; rfl
  | cons b B ih =>
    intro X h
    have h0 : pat.isPrefixOf (b :: (B ++ X)) = false := by
      have := h 0 (by simp)
      simpa using this
    have hstep : replaceFirst pat repl (b :: (B ++ X))
        = if pat.isPrefixOf (b :: (B ++ X)) then repl ++ (b :: (B ++ X)).drop pat.length
          else b :: replaceFirst pat repl (B ++ X) := rfl
    show replaceFirst pat repl (b :: (B ++ X)) = b :: (B ++ replaceFirst pat repl X)
    rw [hstep, h0]
    simp only [Bool.false_eq_true, if_false]
    rw [ih X (fun j hj => by
      have := h (j + 1) (by simp; omega)
      simpa using this)]

/-- `replaceFirst` fires on the pattern sitting at the head. -/
theorem replaceFirst_head (pat repl X : List Char) (hp : pat ≠ []) :
    replaceFirst pat repl (pat ++ X) = repl ++ X := by
  cases pat with
  | nil => exact absurd rfl hp
  | cons p ps =>
    have hstep : replaceFirst (p :: ps) repl ((p :: ps) ++ X)
        = if (p :: ps).isPrefixOf (p :: (ps ++ X)) then
            repl ++ (p :: (ps ++ X)).drop (p :: ps).length
          else p :: replaceFirst (p :: ps) repl (ps ++ X) := rfl
    rw [hstep, show (p :: (ps ++ X)) = (p :: ps) ++ X from rfl, prefixOf_self_append]
    simp only [if_true]
    rw [List.drop_left]

/-- Replacing a pattern by itself changes nothing. -/
theorem replaceFirst_self (pat : List Char) : ∀ s, replaceFirst pat pat s = s := by
  intro s
  induction s with
  | nil => rfl
  | cons c cs ih =>
    have hstep : replaceFirst pat pat (c :: cs)
        = if pat.isPrefixOf (c :: cs) then pat ++ (c :: cs).drop pat.length
          else c :: replaceFirst pat pat cs := rfl
    cases hp : pat.isPrefixOf (c :: cs) with
    | true =>
      rw [hstep, hp]
      simp only [if_true]
      obtain ⟨t, ht⟩ := (List.isPrefixOf_iff_prefix).mp hp
      rw [← ht, List.drop_left]
    | false =>
      rw [hstep, hp]
      simp only [Bool.false_eq_true, if_false]
      rw [ih]

/-- Fuel irrelevance for `replaceAllF` (the pattern must be nonempty so that
every step consumes input). -/
theorem replaceAllF_fuel (pat repl : List Char) (hp : pat ≠ []) :
    ∀ (n : Nat) (s : List Char), s.length ≤ n →
    replaceAllF pat repl n s = replaceAll pat repl s := by
  have hp1 : 1 ≤ pat.length := List.length_pos.mpr hp
  intro n
  induction n using Nat.strong_induction_on with
  | _ n ih =>
    intro s hs
    match n, s, hs with
    | n, [], _ =>
      cases n with
      | zero => rfl
      | succ n => rfl
    | n + 1, c :: cs, hs =>
      show replaceAllF pat repl (n + 1) (c :: cs)
          = replaceAllF pat repl (c :: cs).length (c :: cs)
      have hlen : (c :: cs).length = cs.length + 1 := rfl
      rw [hlen]
      simp only [replaceAllF]
      simp only [List.length_cons] at hs
      cases hpre : pat.isPrefixOf (c :: cs) with
      | true =>
        simp only [if_true]
        have hdlen : ((c :: cs).drop pat.length).length ≤ cs.length := by
          rw [List.length_drop]
          simp only [List.length_cons]
          omega
        rw [ih n (Nat.lt_succ_self n) _ (by omega),
          ih cs.length (by omega) _ (by omega)]
      | false =>
        simp only [Bool.false_eq_true, if_false]
        rw [ih n (Nat.lt_succ_self n) cs (by omega),
          ih cs.length (by omega) cs le_rfl]

/-- `replaceAll` passes over a region with no occurrence of the pattern. -/
theorem replaceAll_skip (pat repl : List Char) :
    ∀ (B X : List Char), (∀ j, j < B.length → pat.isPrefixOf ((B ++ X).drop j) = false) →
    replaceAll pat repl (B ++ X) = B ++ replaceAll pat repl X := by
  intro B
  induction B with
  | nil => intro X _; rfl
  | cons b B ih =>
    intro X h
    have h0 : pat.isPrefixOf (b :: (B ++ X)) = false := by
      have := h 0 (by simp)
      simpa using this
    show replaceAll pat repl (b :: (B ++ X)) = b :: (B ++ replaceAll pat repl X)
    have hstep : replaceAll pat repl (b :: (B ++ X))
        = if pat.isPrefixOf (b :: (B ++ X)) then
            repl ++ replaceAllF pat repl (B ++ X).length ((b :: (B ++ X)).drop pat.length)
          else b :: replaceAllF pat repl (B ++ X).length (B ++ X) := rfl
    rw [hstep, h0]
    simp only [Bool.false_eq_true, if_false]
    rw [show replaceAllF pat repl (B ++ X).length (B ++ X) = replaceAll pat repl (B ++ X) from rfl]
    rw [ih X (fun j hj => by
      have := h (j + 1) (by simp; omega)
      simpa using this)]

/-- `replaceAll` fires on the pattern sitting at the head and resumes after
it. -/
theorem replaceAll_hit (pat repl X : List Char) (hp : pat ≠ []) :
    replaceAll pat repl (pat ++ X) = repl ++ replaceAll pat repl X := by
  cases pat with
  | nil => exact absurd rfl hp
  | cons p ps =>
    have hstep : replaceAll (p :: ps) repl ((p :: ps) ++ X)
        = if (p :: ps).isPrefixOf (p :: (ps ++ X)) then
            repl ++ replaceAllF (p :: ps) repl (ps ++ X).length ((p :: (ps ++ X)).drop (p :: ps).length)
          else p :: replaceAllF (p :: ps) repl (ps ++ X).length (ps ++ X) := rfl
    rw [hstep, show (p :: (ps ++ X)) = (p :: ps) ++ X from rfl, prefixOf_self_append]
    simp only [if_true]
    rw [List.drop_left]
    rw [replaceAllF_fuel (p :: ps) repl (by simp) (ps ++ X).length X (by simp)]

/-- Splitting `containsSub` at the head. -/
theorem containsSub_cons (pat : List Char) (c : Char) (cs : List Char) :
    containsSub pat (c :: cs) = (pat.isPrefixOf (c :: cs) || containsSub pat cs) := rfl

/-- A nonempty prefix is a substring. -/
theorem containsSub_of_prefixOf {pat s : List Char} (hp : pat ≠ [])
    (h : pat.isPrefixOf s = true) : containsSub pat s = true := by
  cases s with
  | nil =>
    cases pat with
    | nil => exact absurd rfl hp
    | cons p ps => simp [List.isPrefixOf] at h
  | cons c cs =>
    rw [containsSub_cons, h]
    rfl

/-- Substring occurrence survives prepending. -/
theorem containsSub_mono_left (pat : List Char) :
    ∀ (A X : List Char), containsSub pat X = true → containsSub pat (A ++ X) = true := by
  intro A
  induction A with
  | nil => intro X h; simpa using h
  | cons a A ih =>
    intro X h
    show containsSub pat (a :: (A ++ X)) = true
    rw [containsSub_cons, ih X h]
    simp

/-- The empty pattern occurs in every string. -/
theorem containsSub_nil_pat (s : List Char) : containsSub ([] : List Char) s = true := by
  cases s with
  | nil => rfl
  | cons c cs => rfl

/-- Substring occurrence survives appending. -/
theorem containsSub_mono_right (pat : List Char) :
    ∀ (X B : List Char), containsSub pat X = true → containsSub pat (X ++ B) = true := by
  intro X
  induction X with
  | nil =>
    intro B h
    have hp : pat = [] := by
      cases pat with
      | nil => rfl
      | cons p ps => simp [containsSub, List.isPrefixOf] at h
    subst hp
    exact containsSub_nil_pat B
  | cons c cs ih =>
    intro B h
    rw [containsSub_cons] at h
    show containsSub pat (c :: (cs ++ B)) = true
    rw [containsSub_cons]
    rcases Bool.or_eq_true_iff.mp h with h1 | h2
    · rw [show c :: (cs ++ B) = (c :: cs) ++ B from rfl, prefixOf_mono B h1]
      simp
    · rw [ih B h2]
      simp

/-- `containsSub` being false at the head splits. -/
theorem containsSub_cons_false {pat : List Char} {c : Char} {cs : List Char}
    (h : containsSub pat (c :: cs) = false) :
    pat.isPrefixOf (c :: cs) = false ∧ containsSub pat cs = false := by
  rw [containsSub_cons] at h
  exact ⟨(Bool.or_eq_false_iff.mp h).1, (Bool.or_eq_false_iff.mp h).2⟩

/-- A pattern absent from the whole string is absent from any middle part. -/
theorem containsSub_infix_false {pat : List Char} (pre : List Char) {mid : List Char} (suf : List Char)
    (h : containsSub pat (pre ++ mid ++ suf) = false) :
    containsSub pat mid = false := by
  cases hm : containsSub pat mid with
  | false => rfl
  | true =>
    exfalso
    have h1 : containsSub pat (mid ++ suf) = true := containsSub_mono_right pat mid suf hm
    have h2 : containsSub pat (pre ++ (mid ++ suf)) = true := containsSub_mono_left pat pre _ h1
    rw [List.append_assoc] at h
    rw [h] at h2
    exact Bool.false_ne_true h2

/-- A pattern absent from a string is absent from every suffix position. -/
theorem containsSub_no_prefix {pat : List Char} :
    ∀ {s : List Char}, containsSub pat s = false → ∀ j, pat.isPrefixOf (s.drop j) = false := by
  intro s
  induction s with
  | nil =>
    intro h j
    simp only [List.drop_nil]
    cases pat with
    | nil => simp [containsSub, List.isPrefixOf] at h
    | cons p ps => rfl
  | cons c cs ih =>
    intro h j
    obtain ⟨h1, h2⟩ := containsSub_cons_false h
    cases j with
    | zero => simpa using h1
    | succ j => exact ih h2 j

/-- `replaceAll` is the identity when the pattern does not occur. -/
theorem replaceAll_id (pat repl : List Char) :
    ∀ s, containsSub pat s = false → replaceAll pat repl s = s := by
  intro s
  induction s with
  | nil => intro _; rfl
  | cons c cs ih =>
    intro h
    obtain ⟨h1, h2⟩ := containsSub_cons_false h
    have hstep : replaceAll pat repl (c :: cs)
        = if pat.isPrefixOf (c :: cs) then
            repl ++ replaceAllF pat repl cs.length ((c :: cs).drop pat.length)
          else c :: replaceAllF pat repl cs.length cs := rfl
    rw [hstep, h1]
    simp only [Bool.false_eq_true, if_false]
    rw [show replaceAllF pat repl cs.length cs = replaceAll pat repl cs from rfl, ih h2]


/-! ## Decode inverts encode on a capture -/

/-- Unfolding `charReplace` at a cons. -/
theorem charReplace_cons (p : Char → Bool) (r : List Char) (c : Char) (cs : List Char) :
    charReplace p r (c :: cs) = (if p c then r else [c]) ++ charReplace p r cs := rfl

/-- `charReplace` distributes over append. -/
theorem charReplace_append (p : Char → Bool) (r : List Char) (A B : List Char) :
    charReplace p r (A ++ B) = charReplace p r A ++ charReplace p r B := by
  induction A with
  | nil => rfl
  | cons a A ih =>
    show charReplace p r (a :: (A ++ B)) = _
    rw [charReplace_cons, charReplace_cons, ih, List.append_assoc]

/-- The protect callback acts as an independent block per character. -/
theorem encAttr_cons (c : Char) (cs : List Char) :
    encAttr (c :: cs) = encChar c ++ encAttr cs := by
  have h0 : encAttr (c :: cs)
      = charReplace isWsJS tokWs (charReplace (· = '\r') tokCr
          (charReplace (· = '\n') tokNl (c :: cs))) := rfl
  have hrest : charReplace isWsJS tokWs (charReplace (· = '\r') tokCr
      (charReplace (· = '\n') tokNl cs)) = encAttr cs := rfl
  rw [h0, charReplace_cons (· = '\n') tokNl c cs, charReplace_append, charReplace_append, hrest]
  congr 1
  by_cases h1 : c = '\n'
  · subst h1
    rfl
  · rw [if_neg (by simp [h1])]
    rw [show charReplace (· = '\r') tokCr [c]
        = (if decide (c = '\r') = true then tokCr else [c]) ++ ([] : List Char) from rfl,
      List.append_nil]
    by_cases h2 : c = '\r'
    · subst h2
      rfl
    · rw [if_neg (by simp [h2])]
      rw [show charReplace isWsJS tokWs [c]
          = (if isWsJS c = true then tokWs else [c]) ++ ([] : List Char) from rfl,
        List.append_nil]
      by_cases h3 : isWsJS c = true
      · rw [if_pos h3]
        simp [encChar, h1, h2, h3]
      · rw [if_neg (by simp [h3])]
        simp [encChar, h1, h2, h3]

/-- The protect callback as a block map. -/
theorem encAttr_blocks (C : List Char) : encAttr C = blockMap encChar C := by
  induction C with
  | nil => rfl
  | cons c cs ih =>
    rw [encAttr_cons, ih]
    rfl

/-- Extracting a refutation of a prefix from `mismatchB`. -/
theorem mismatchB_spec {P D : List Char} (h : mismatchB P D = true) (X : List Char) :
    P.isPrefixOf (D ++ X) = false := by
  obtain ⟨i, hmem, hcond⟩ := List.any_eq_true.mp h
  rw [List.mem_range] at hmem
  have hiP : i < P.length := lt_of_lt_of_le hmem (min_le_left _ _)
  have hiD : i < D.length := lt_of_lt_of_le hmem (min_le_right _ _)
  have haP : P.get? i = some (P.get ⟨i, hiP⟩) := List.get?_eq_get hiP
  have haD : D.get? i = some (D.get ⟨i, hiD⟩) := List.get?_eq_get hiD
  refine prefix_mismatch P D X i _ _ haP haD ?_
  intro heq
  rw [bne_iff_ne] at hcond
  apply hcond
  rw [haP, haD, heq]

/-- Cancelling a common prefix block. -/
theorem prefixOf_append_cancel {t Z : List Char} :
    ∀ (D : List Char), (D ++ t).isPrefixOf (D ++ Z) = true → t.isPrefixOf Z = true := by
  intro D
  induction D with
  | nil => intro h; simpa using h
  | cons d D ih =>
    intro h
    rw [show (d :: D) ++ t = d :: (D ++ t) from rfl,
      show (d :: D) ++ Z = d :: (D ++ Z) from rfl, prefixOf_cons] at h
    exact ih h

/-- A suffix of the marker `key` that is a prefix of a block-mapped string is
a prefix of the underlying string: markers cannot start inside a token. -/
theorem prefix_blockMap (g : Char → List Char) (TOKS : List (List Char))
    (hg : ∀ c, g c = [c] ∨ g c ∈ TOKS) (key : List Char)
    (hkm : ∀ B ∈ TOKS, keyMisB key B = true) :
    ∀ (cs : List Char) (m : Nat), m < key.length →
    (key.drop m).isPrefixOf (blockMap g cs) = true → (key.drop m).isPrefixOf cs = true := by
  intro cs
  induction cs with
  | nil =>
    intro m hm hpre
    rw [show blockMap g [] = [] from rfl] at hpre
    rw [List.drop_eq_getElem_cons hm] at hpre
    simp [List.isPrefixOf] at hpre
  | cons c cs ih =>
    intro m hm hpre
    rw [show blockMap g (c :: cs) = g c ++ blockMap g cs from rfl] at hpre
    rcases hg c with hc | hc
    · rw [hc, show ([c] ++ blockMap g cs) = c :: blockMap g cs from rfl,
        List.drop_eq_getElem_cons hm] at hpre
      rw [List.drop_eq_getElem_cons hm]
      by_cases htc : key[m] = c
      · rw [htc, prefixOf_cons] at hpre
        rw [htc, prefixOf_cons]
        by_cases hm1 : m + 1 < key.length
        · exact ih (m + 1) hm1 hpre
        · rw [List.drop_eq_nil_of_le (by omega)]
          simp [List.isPrefixOf]
      · rw [prefixOf_cons_ne _ _ _ _ htc] at hpre
        exact absurd hpre (by simp)
    · exfalso
      have hmis : mismatchB (key.drop m) (g c) = true :=
        List.all_eq_true.mp (hkm (g c) hc) m (List.mem_range.mpr hm)
      rw [mismatchB_spec hmis (blockMap g cs)] at hpre
      exact Bool.false_ne_true hpre


/-- A match consuming the head leaves its tail matching the rest. -/
theorem prefixOf_tail {P X : List Char} {c : Char} (h : P.isPrefixOf (c :: X) = true) :
    (P.drop 1).isPrefixOf X = true := by
  cases P with
  | nil => cases X <;> rfl
  | cons q P' =>
    rw [show (q :: P').isPrefixOf (c :: X) = ((q == c) && P'.isPrefixOf X) from rfl] at h
    exact (Bool.and_eq_true_iff.mp h).2

/-- Generic decode pass: `replaceAll P [r]` over a block-mapped string turns
every hit block (`g c = P`) into `[r]` and leaves every other block unchanged,
provided the marker `key` — which the pattern `P` carries right after its head
character — does not occur in the underlying string. -/
theorem stage_decode (g g' : Char → List Char) (P key : List Char) (r : Char)
    (TOKS : List (List Char))
    (hPne : P ≠ []) (hkeyne : key ≠ [])
    (hPkey : key.isPrefixOf (P.drop 1) = true)
    (hcase : ∀ c, (g c = P ∧ g' c = [r]) ∨
      (g c = g' c ∧ ¬ g c = P ∧ (g c = [c] ∨ g c ∈ TOKS)))
    (hPT : P ∈ TOKS)
    (hkm : ∀ B ∈ TOKS, keyMisB key B = true)
    (hsafe : ∀ B ∈ TOKS, B = P ∨ safeTokB P key B = true) :
    ∀ C, containsSub key C = false →
    replaceAll P [r] (blockMap g C) = blockMap g' C := by
  have hg : ∀ c, g c = [c] ∨ g c ∈ TOKS := by
    intro c
    rcases hcase c with ⟨h1, _⟩ | ⟨_, _, h3⟩
    · right
      rw [h1]
      exact hPT
    · exact h3
  intro C
  induction C with
  | nil => intro _; rfl
  | cons c cs ih =>
    intro hkC
    have hkcs : containsSub key cs = false := (containsSub_cons_false hkC).2
    have hnokey : key.isPrefixOf (blockMap g cs) = false := by
      cases hk : key.isPrefixOf (blockMap g cs) with
      | false => rfl
      | true =>
        exfalso
        have h0 : (key.drop 0).isPrefixOf (blockMap g cs) = true := by simpa using hk
        have h1 := prefix_blockMap g TOKS hg key hkm cs 0 (List.length_pos.mpr hkeyne) h0
        rw [List.drop_zero] at h1
        have h2 := containsSub_of_prefixOf hkeyne h1
        rw [hkcs] at h2
        exact Bool.false_ne_true h2
    have hblk : blockMap g (c :: cs) = g c ++ blockMap g cs := rfl
    have hblk' : blockMap g' (c :: cs) = g' c ++ blockMap g' cs := rfl
    rcases hcase c with ⟨hgc, hg'c⟩ | ⟨hgg', hgP, hb⟩
    · rw [hblk, hblk', hgc, hg'c, replaceAll_hit P [r] _ hPne, ih hkcs]
    · have hskip : ∀ j, j < (g c).length →
          P.isPrefixOf ((g c ++ blockMap g cs).drop j) = false := by
        intro j hj
        rw [List.drop_append_of_le_length (le_of_lt hj)]
        rcases hb with hsing | htok
        · have hj0 : j = 0 := by
            rw [hsing] at hj
            simpa using hj
          subst hj0
          rw [List.drop_zero, hsing]
          rw [show ([c] ++ blockMap g cs) = c :: blockMap g cs from rfl]
          cases hpp : P.isPrefixOf (c :: blockMap g cs) with
          | false => rfl
          | true =>
            exfalso
            have hdrop := prefixOf_tail hpp
            have h3 := prefixOf_trans hPkey hdrop
            rw [hnokey] at h3
            exact Bool.false_ne_true h3
        · rcases hsafe (g c) htok with hBP | hBsafe
          · exact absurd hBP hgP
          · have hcond := List.all_eq_true.mp hBsafe j (List.mem_range.mpr hj)
            rcases Bool.or_eq_true_iff.mp hcond with hmis | hpk
            · exact mismatchB_spec hmis (blockMap g cs)
            · obtain ⟨hp1, hp2⟩ := Bool.and_eq_true_iff.mp hpk
              cases hpp : P.isPrefixOf ((g c).drop j ++ blockMap g cs) with
              | false => rfl
              | true =>
                exfalso
                obtain ⟨t, ht⟩ := (List.isPrefixOf_iff_prefix).mp hp1
                have hlen : ((g c).drop j).length = (g c).length - j := List.length_drop _ _
                have ht2 : t = P.drop ((g c).length - j) := by
                  rw [← ht, ← hlen, List.drop_left]
                have hkt : key.isPrefixOf t = true := by
                  rw [ht2]
                  exact hp2
                rw [← ht] at hpp
                have htZ : t.isPrefixOf (blockMap g cs) = true :=
                  prefixOf_append_cancel ((g c).drop j) hpp
                have h3 := prefixOf_trans hkt htZ
                rw [hnokey] at h3
                exact Bool.false_ne_true h3
      rw [hblk, hblk', ← hgg', replaceAll_skip P [r] (g c) (blockMap g cs) hskip, ih hkcs]


/-- First decode stage: the newline tokens come back out. -/
theorem attr_decode1 (C : List Char) (hk : containsSub sentTail C = false) :
    replaceAll tokNl ['\n'] (blockMap encChar C) = blockMap attrStage1 C := by
  refine stage_decode encChar attrStage1 tokNl sentTail '\n' [tokNl, tokCr, tokWs]
    (by decide) (by decide) (by decide) ?_ (by simp) ?_ ?_ C hk
  · intro c
    by_cases h1 : c = '\n'
    · subst h1
      exact Or.inl ⟨rfl, rfl⟩
    · right
      by_cases h2 : c = '\r'
      · subst h2
        exact ⟨rfl, by decide, Or.inr (by decide)⟩
      · by_cases h3 : isWsJS c = true
        · have e1 : encChar c = tokWs := by simp [encChar, h1, h2, h3]
          have e2 : attrStage1 c = tokWs := by simp [attrStage1, h1, h2, h3]
          rw [e1, e2]
          exact ⟨rfl, by decide, Or.inr (by simp)⟩
        · have e1 : encChar c = [c] := by simp [encChar, h1, h2, h3]
          have e2 : attrStage1 c = [c] := by simp [attrStage1, h1, h2, h3]
          rw [e1, e2]
          refine ⟨rfl, ?_, Or.inl rfl⟩
          intro hcon
          have hl := congrArg List.length hcon
          rw [show tokNl.length = 13 from by decide] at hl
          simp at hl
  · intro B hB
    simp only [List.mem_cons, List.mem_singleton, List.not_mem_nil, or_false] at hB
    rcases hB with h | h | h <;> (subst h; decide)
  · intro B hB
    simp only [List.mem_cons, List.mem_singleton, List.not_mem_nil, or_false] at hB
    rcases hB with h | h | h
    · exact Or.inl h
    · subst h
      exact Or.inr (by decide)
    · subst h
      exact Or.inr (by decide)

/-- Second decode stage: the carriage-return tokens come back out. -/
theorem attr_decode2 (C : List Char) (hk : containsSub sentTail C = false) :
    replaceAll tokCr ['\r'] (blockMap attrStage1 C) = blockMap attrStage2 C := by
  refine stage_decode attrStage1 attrStage2 tokCr sentTail '\r' [tokNl, tokCr, tokWs]
    (by decide) (by decide) (by decide) ?_ (by simp) ?_ ?_ C hk
  · intro c
    by_cases h1 : c = '\n'
    · subst h1
      exact Or.inr ⟨rfl, by decide, Or.inl rfl⟩
    · by_cases h2 : c = '\r'
      · subst h2
        exact Or.inl ⟨rfl, rfl⟩
      · right
        by_cases h3 : isWsJS c = true
        · have e1 : attrStage1 c = tokWs := by simp [attrStage1, h1, h2, h3]
          have e2 : attrStage2 c = tokWs := by simp [attrStage2, h1, h2, h3]
          rw [e1, e2]
          exact ⟨rfl, by decide, Or.inr (by simp)⟩
        · have e1 : attrStage1 c = [c] := by simp [attrStage1, h1, h2, h3]
          have e2 : attrStage2 c = [c] := by simp [attrStage2, h1, h2, h3]
          rw [e1, e2]
          refine ⟨rfl, ?_, Or.inl rfl⟩
          intro hcon
          have hl := congrArg List.length hcon
          rw [show tokCr.length = 13 from by decide] at hl
          simp at hl
  · intro B hB
    simp only [List.mem_cons, List.mem_singleton, List.not_mem_nil, or_false] at hB
    rcases hB with h | h | h <;> (subst h; decide)
  · intro B hB
    simp only [List.mem_cons, List.mem_singleton, List.not_mem_nil, or_false] at hB
    rcases hB with h | h | h
    · subst h
      exact Or.inr (by decide)
    · exact Or.inl h
    · subst h
      exact Or.inr (by decide)

/-- Third decode stage: the whitespace tokens come back out as spaces. -/
theorem attr_decode3 (C : List Char) (hk : containsSub sentTail C = false) :
    replaceAll tokWs [' '] (blockMap attrStage2 C) = blockMap attrStage3 C := by
  refine stage_decode attrStage2 attrStage3 tokWs sentTail ' ' [tokNl, tokCr, tokWs]
    (by decide) (by decide) (by decide) ?_ (by simp) ?_ ?_ C hk
  · intro c
    by_cases h1 : c = '\n'
    · subst h1
      exact Or.inr ⟨rfl, by decide, Or.inl rfl⟩
    · by_cases h2 : c = '\r'
      · subst h2
        exact Or.inr ⟨rfl, by decide, Or.inl rfl⟩
      · by_cases h3 : isWsJS c = true
        · have e1 : attrStage2 c = tokWs := by simp [attrStage2, h1, h2, h3]
          have e2 : attrStage3 c = [' '] := by simp [attrStage3, h1, h2, h3]
          rw [e1, e2]
          exact Or.inl ⟨rfl, rfl⟩
        · have e1 : attrStage2 c = [c] := by simp [attrStage2, h1, h2, h3]
          have e2 : attrStage3 c = [c] := by simp [attrStage3, h1, h2, h3]
          rw [e1, e2]
          refine Or.inr ⟨rfl, ?_, Or.inl rfl⟩
          intro hcon
          have hl := congrArg List.length hcon
          rw [show tokWs.length = 13 from by decide] at hl
          simp at hl
  · intro B hB
    simp only [List.mem_cons, List.mem_singleton, List.not_mem_nil, or_false] at hB
    rcases hB with h | h | h <;> (subst h; decide)
  · intro B hB
    simp only [List.mem_cons, List.mem_singleton, List.not_mem_nil, or_false] at hB
    rcases hB with h | h | h
    · subst h
      exact Or.inr (by decide)
    · subst h
      exact Or.inr (by decide)
    · exact Or.inl h

/-- With whitespace restricted to newline, carriage return and space, the
final stage map is the identity. -/
theorem blockMap_attrStage3_id (C : List Char)
    (hW : ∀ c ∈ C, isWsJS c = true → c = '\n' ∨ c = '\r' ∨ c = ' ') :
    blockMap attrStage3 C = C := by
  induction C with
  | nil => rfl
  | cons c cs ih =>
    rw [show blockMap attrStage3 (c :: cs) = attrStage3 c ++ blockMap attrStage3 cs from rfl]
    rw [ih (fun d hd hw => hW d (List.mem_cons_of_mem _ hd) hw)]
    by_cases h1 : c = '\n'
    · subst h1
      rfl
    · by_cases h2 : c = '\r'
      · subst h2
        rfl
      · by_cases h3 : isWsJS c = true
        · rcases hW c (List.mem_cons_self _ _) h3 with h | h | h
          · exact absurd h h1
          · exact absurd h h2
          · subst h
            rfl
        · rw [show attrStage3 c = [c] from by simp [attrStage3, h1, h2, h3]]
          rfl

/-- The decode callback inverts the encode callback on any capture whose
whitespace is restricted to newline, carriage return and space, and which does
not contain the sentinel tail. -/
theorem decAttr_encAttr (C : List Char)
    (hk : containsSub sentTail C = false)
    (hW : ∀ c ∈ C, isWsJS c = true → c = '\n' ∨ c = '\r' ∨ c = ' ') :
    decAttr (encAttr C) = C := by
  rw [show decAttr (encAttr C)
      = replaceAll tokWs [' '] (replaceAll tokCr ['\r']
          (replaceAll tokNl ['\n'] (encAttr C))) from rfl]
  rw [encAttr_blocks C, attr_decode1 C hk, attr_decode2 C hk, attr_decode3 C hk,
    blockMap_attrStage3_id C hW]


/-- Occurrence gives a suffix with the pattern as prefix. -/
theorem containsSub_exists {pat : List Char} :
    ∀ {s : List Char}, containsSub pat s = true → ∃ j, pat.isPrefixOf (s.drop j) = true := by
  intro s
  induction s with
  | nil => intro h; exact ⟨0, h⟩
  | cons c cs ih =>
    intro h
    rw [containsSub_cons] at h
    rcases Bool.or_eq_true_iff.mp h with h1 | h2
    · exact ⟨0, h1⟩
    · obtain ⟨j, hj⟩ := ih h2
      exact ⟨j + 1, hj⟩

/-- A pattern prefixing some suffix occurs. -/
theorem containsSub_of_drop_prefixOf {pat : List Char} (hne : pat ≠ []) :
    ∀ (s : List Char) (j : Nat), pat.isPrefixOf (s.drop j) = true → containsSub pat s = true := by
  intro s
  induction s with
  | nil =>
    intro j h
    rw [List.drop_nil] at h
    cases pat with
    | nil => exact absurd rfl hne
    | cons p ps => simp [List.isPrefixOf] at h
  | cons c cs ih =>
    intro j h
    cases j with
    | zero => exact containsSub_of_prefixOf hne h
    | succ j =>
      rw [containsSub_cons, ih j h]
      simp

/-- Occurrence is transitive through an intermediate string. -/
theorem containsSub_trans {A B s : List Char} (hA : A ≠ [])
    (h1 : containsSub A B = true) (h2 : containsSub B s = true) :
    containsSub A s = true := by
  obtain ⟨j, hj⟩ := containsSub_exists h1
  obtain ⟨i, hi⟩ := containsSub_exists h2
  obtain ⟨t, ht⟩ := (List.isPrefixOf_iff_prefix).mp hi
  have hjB : j < B.length := by
    by_contra hcon
    rw [List.drop_eq_nil_of_le (by omega)] at hj
    cases A with
    | nil => exact hA rfl
    | cons a as => simp [List.isPrefixOf] at hj
  have hdrop : (s.drop i).drop j = B.drop j ++ t := by
    rw [← ht, List.drop_append_of_le_length (le_of_lt hjB)]
  have hAt : A.isPrefixOf ((s.drop i).drop j) = true := by
    rw [hdrop]
    exact prefixOf_trans hj (prefixOf_mono t (by
      rw [List.isPrefixOf_iff_prefix]))
  rw [List.drop_drop j i s] at hAt
  exact containsSub_of_drop_prefixOf hA s _ hAt

/-- The unprotect callback is the identity on sentinel-tail-free text. -/
theorem decAttr_id (C : List Char) (hk : containsSub sentTail C = false) : decAttr C = C := by
  have habs : ∀ (tok : List Char), containsSub sentTail tok = true → containsSub tok C = false := by
    intro tok htok
    cases h : containsSub tok C with
    | false => rfl
    | true =>
      exfalso
      have h2 := containsSub_trans (by decide : sentTail ≠ ([] : List Char)) htok h
      rw [hk] at h2
      exact Bool.false_ne_true h2
  rw [show decAttr C = replaceAll tokWs [' '] (replaceAll tokCr ['\r']
      (replaceAll tokNl ['\n'] C)) from rfl]
  rw [replaceAll_id _ _ C (habs tokNl (by decide)),
    replaceAll_id _ _ C (habs tokCr (by decide)),
    replaceAll_id _ _ C (habs tokWs (by decide))]

/-- The protect callback is the identity on whitespace-free text. -/
theorem encAttr_id (C : List Char) (h : ∀ c ∈ C, isWsJS c = false) : encAttr C = C := by
  induction C with
  | nil => rfl
  | cons c cs ih =>
    rw [encAttr_cons, ih (fun d hd => h d (List.mem_cons_of_mem _ hd))]
    have hc := h c (List.mem_cons_self _ _)
    have h1 : ¬ c = '\n' := by
      intro e
      rw [e] at hc
      exact absurd hc (by decide)
    have h2 : ¬ c = '\r' := by
      intro e
      rw [e] at hc
      exact absurd hc (by decide)
    rw [show encChar c = [c] from by simp [encChar, h1, h2, hc]]
    rfl

/-- Tag-name characters are never JS whitespace. -/
theorem tagChar_not_ws (c : Char) (h : isTagChar c = true) : isWsJS c = false := by
  have hule : ∀ (a b : UInt32), a ≤ b → a.toNat ≤ b.toNat := by
    intro a b hab
    rw [UInt32.le_def] at hab
    exact hab
  have hval : (65 ≤ c.val.toNat ∧ c.val.toNat ≤ 90) ∨ (97 ≤ c.val.toNat ∧ c.val.toNat ≤ 122)
      ∨ (48 ≤ c.val.toNat ∧ c.val.toNat ≤ 57) ∨ c.val.toNat = 95 ∨ c.val.toNat = 58
      ∨ c.val.toNat = 45 := by
    simp only [isTagChar, Bool.or_eq_true, Bool.and_eq_true, decide_eq_true_eq] at h
    rcases h with ((((h1 | h1) | h1) | h1) | h1) | h1
    · exact Or.inl ⟨hule _ _ h1.1, hule _ _ h1.2⟩
    · exact Or.inr (Or.inl ⟨hule _ _ h1.1, hule _ _ h1.2⟩)
    · exact Or.inr (Or.inr (Or.inl ⟨hule _ _ h1.1, hule _ _ h1.2⟩))
    · exact Or.inr (Or.inr (Or.inr (Or.inl (by rw [h1]; rfl))))
    · exact Or.inr (Or.inr (Or.inr (Or.inr (Or.inl (by rw [h1]; rfl)))))
    · exact Or.inr (Or.inr (Or.inr (Or.inr (Or.inr (by rw [h1]; rfl)))))
  cases hws : isWsJS c with
  | false => rfl
  | true =>
    exfalso
    have hwval : c.val.toNat = 32 ∨ c.val.toNat = 9 ∨ c.val.toNat = 10 ∨ c.val.toNat = 13
        ∨ c.val.toNat = 11 ∨ c.val.toNat = 12 ∨ c.val.toNat = 160 ∨ c.val.toNat = 5760
        ∨ (8192 ≤ c.val.toNat ∧ c.val.toNat ≤ 8202) ∨ c.val.toNat = 8232
        ∨ c.val.toNat = 8233 ∨ c.val.toNat = 8239 ∨ c.val.toNat = 8287
        ∨ c.val.toNat = 12288 ∨ c.val.toNat = 65279 := by
      simp only [isWsJS, Bool.or_eq_true, Bool.and_eq_true, decide_eq_true_eq] at hws
      rcases hws with ((((((((((((((h2 | h2) | h2) | h2) | h2) | h2) | h2) | h2) | h2) | h2) | h2) | h2) | h2) | h2) | h2)
      · exact Or.inl (by rw [h2]; rfl)
      · exact Or.inr (Or.inl (by rw [h2]; rfl))
      · exact Or.inr (Or.inr (Or.inl (by rw [h2]; rfl)))
      · exact Or.inr (Or.inr (Or.inr (Or.inl (by rw [h2]; rfl))))
      · exact Or.inr (Or.inr (Or.inr (Or.inr (Or.inl (by rw [h2]; rfl)))))
      · exact Or.inr (Or.inr (Or.inr (Or.inr (Or.inr (Or.inl (by rw [h2]; rfl))))))
      · exact Or.inr (Or.inr (Or.inr (Or.inr (Or.inr (Or.inr (Or.inl (by rw [h2]; rfl)))))))
      · exact Or.inr (Or.inr (Or.inr (Or.inr (Or.inr (Or.inr (Or.inr (Or.inl (by rw [h2]; rfl))))))))
      · exact Or.inr (Or.inr (Or.inr (Or.inr (Or.inr (Or.inr (Or.inr (Or.inr (Or.inl
          ⟨hule _ _ h2.1, hule _ _ h2.2⟩))))))))
      · exact Or.inr (Or.inr (Or.inr (Or.inr (Or.inr (Or.inr (Or.inr (Or.inr (Or.inr (Or.inl
          (by rw [h2]; rfl))))))))))
      · exact Or.inr (Or.inr (Or.inr (Or.inr (Or.inr (Or.inr (Or.inr (Or.inr (Or.inr (Or.inr
          (Or.inl (by rw [h2]; rfl)))))))))))
      · exact Or.inr (Or.inr (Or.inr (Or.inr (Or.inr (Or.inr (Or.inr (Or.inr (Or.inr (Or.inr
          (Or.inr (Or.inl (by rw [h2]; rfl))))))))))))
      · exact Or.inr (Or.inr (Or.inr (Or.inr (Or.inr (Or.inr (Or.inr (Or.inr (Or.inr (Or.inr
          (Or.inr (Or.inr (Or.inl (by rw [h2]; rfl)))))))))))))
      · exact Or.inr (Or.inr (Or.inr (Or.inr (Or.inr (Or.inr (Or.inr (Or.inr (Or.inr (Or.inr
          (Or.inr (Or.inr (Or.inr (Or.inl (by rw [h2]; rfl))))))))))))))
      · exact Or.inr (Or.inr (Or.inr (Or.inr (Or.inr (Or.inr (Or.inr (Or.inr (Or.inr (Or.inr
          (Or.inr (Or.inr (Or.inr (Or.inr (by rw [h2]; rfl))))))))))))))
    rcases hval with ⟨a1, a2⟩ | ⟨a1, a2⟩ | ⟨a1, a2⟩ | a1 | a1 | a1 <;>
      rcases hwval with b1 | b1 | b1 | b1 | b1 | b1 | b1 | b1 | ⟨b1, b2⟩ | b1 | b1 | b1 | b1 | b1 | b1 <;>
      omega

/-- Characters of `'\n'`, `'\r'`, `' '`, `'\t'` are concrete whitespace;
this is the OCC argument: if every character of the head `B` fails predicate
`p` while the capture satisfies it somewhere, the capture cannot occur in
`B ++ cap ++ [d]` strictly before position `B.length`. -/
theorem no_early_occurrence (p : Char → Bool) (B cap : List Char) (d : Char)
    (hB : ∀ c ∈ B, p c = false)
    (hcap : cap.any p = true) :
    ∀ j, j < B.length → cap.isPrefixOf ((B ++ (cap ++ [d])).drop j) = false := by
  intro j hj
  cases hpp : cap.isPrefixOf ((B ++ (cap ++ [d])).drop j) with
  | false => rfl
  | true =>
    exfalso
    have hget : ∀ i, i < cap.length → (B ++ (cap ++ [d])).get? (j + i) = cap.get? i := by
      intro i hi
      obtain ⟨t, ht⟩ := (List.isPrefixOf_iff_prefix).mp hpp
      have h1 : (B ++ (cap ++ [d])).get? (j + i) = ((B ++ (cap ++ [d])).drop j).get? i := by
        rw [List.get?_drop]
      rw [h1, ← ht, List.get?_eq_getElem?, List.get?_eq_getElem?, List.getElem?_append_left hi]
    have hex : ∃ x ∈ cap, p x = true := by
      obtain ⟨x, hx1, hx2⟩ := List.any_eq_true.mp hcap
      exact ⟨x, hx1, hx2⟩
    have hq0lt : cap.findIdx p < cap.length := List.findIdx_lt_length_of_exists hex
    have hq0p : p cap[cap.findIdx p] = true := List.findIdx_getElem
    have hstep1 : B.length ≤ j + cap.findIdx p := by
      by_contra hcon
      push_neg at hcon
      have h2 : (B ++ (cap ++ [d])).get? (j + cap.findIdx p) = B.get? (j + cap.findIdx p) := by
        rw [List.get?_eq_getElem?, List.get?_eq_getElem?, List.getElem?_append_left hcon]
      have h3 := hget (cap.findIdx p) hq0lt
      rw [h2] at h3
      have hb : B.get? (j + cap.findIdx p) = some (B.get ⟨j + cap.findIdx p, hcon⟩) :=
        List.get?_eq_get hcon
      have hcapq : cap.get? (cap.findIdx p) = some (cap.get ⟨cap.findIdx p, hq0lt⟩) :=
        List.get?_eq_get hq0lt
      rw [hb, hcapq] at h3
      have heq := Option.some.inj h3
      have hpb := hB _ (List.get?_mem (List.get?_eq_get hcon))
      rw [heq] at hpb
      rw [show cap.get ⟨cap.findIdx p, hq0lt⟩ = cap[cap.findIdx p] from rfl, hq0p] at hpb
      exact Bool.true_eq_false.mp hpb
    have hi'lt : j + cap.findIdx p - B.length < cap.findIdx p := by omega
    have hi'cap : j + cap.findIdx p - B.length < cap.length := by omega
    have h4 : (B ++ (cap ++ [d])).get? (j + cap.findIdx p)
        = cap.get? (j + cap.findIdx p - B.length) := by
      rw [List.get?_eq_getElem?, List.get?_eq_getElem?, List.getElem?_append_right hstep1,
        List.getElem?_append_left hi'cap]
    have h5 := hget (cap.findIdx p) hq0lt
    rw [h4] at h5
    have hcapq : cap.get? (cap.findIdx p) = some (cap.get ⟨cap.findIdx p, hq0lt⟩) :=
      List.get?_eq_get hq0lt
    have hcapi : cap.get? (j + cap.findIdx p - B.length)
        = some (cap.get ⟨j + cap.findIdx p - B.length, hi'cap⟩) := List.get?_eq_get hi'cap
    rw [hcapq, hcapi] at h5
    have heq := Option.some.inj h5
    have hmin : p cap[j + cap.findIdx p - B.length] = false := List.not_of_lt_findIdx hi'lt
    rw [show cap.get ⟨j + cap.findIdx p - B.length, hi'cap⟩
        = cap[j + cap.findIdx p - B.length] from rfl] at heq
    rw [show cap.get ⟨cap.findIdx p, hq0lt⟩ = cap[cap.findIdx p] from rfl] at heq
    rw [heq, hq0p] at hmin
    exact Bool.true_eq_false.mp hmin


/-! ## Inversion of the attribute matcher -/

/-- A list whose first element is known. -/
theorem eq_cons_of_get0 {v : List Char} {a : Char} (h : v.get? 0 = some a) :
    v = a :: v.drop 1 := by
  cases v with
  | nil => simp at h
  | cons x xs =>
    simp at h
    rw [h]
    rfl

/-- What a successful `capOk` says about the two indexed characters. -/
theorem capOk_spec {u : List Char} {j : Nat} (h : capOk u j = true) :
    ∃ cj, u.get? j = some cj ∧ ¬ cj = '/' ∧ u.get? (j + 1) = some '>' := by
  unfold capOk at h
  cases h1 : u.get? j with
  | none =>
    cases h2 : u.get? (j + 1) with
    | none =>
      rw [h1, h2] at h
      simp at h
    | some dj =>
      rw [h1, h2] at h
      simp at h
  | some cj =>
    cases h2 : u.get? (j + 1) with
    | none =>
      rw [h1, h2] at h
      simp at h
    | some dj =>
      rw [h1, h2] at h
      simp at h
      exact ⟨cj, rfl, h.1, by rw [h.2]⟩

/-- Decomposition at the first `>`. -/
theorem gtIdx_inv : ∀ (u : List Char) (m : Nat), gtIdx u = some m →
    ∃ B v, u = B ++ '>' :: v ∧ B.length = m ∧ ∀ c ∈ B, ¬ c = '>' := by
  intro u
  induction u with
  | nil =>
    intro m h
    simp [gtIdx] at h
  | cons c cs ih =>
    intro m h
    by_cases hc : c = '>'
    · subst hc
      have h0 : gtIdx ('>' :: cs) = some 0 := by simp [gtIdx]
      rw [h0] at h
      have hm : m = 0 := by simpa using h.symm
      subst hm
      exact ⟨[], cs, rfl, rfl, by simp⟩
    · have hstep : gtIdx (c :: cs) = (gtIdx cs).map (· + 1) := by simp [gtIdx, hc]
      rw [hstep] at h
      cases hg : gtIdx cs with
      | none =>
        rw [hg] at h
        simp at h
      | some m' =>
        rw [hg] at h
        have hm : m = m' + 1 := by simpa using h.symm
        subst hm
        obtain ⟨B, v, h1, h2, h3⟩ := ih m' hg
        refine ⟨c :: B, v, by rw [h1]; rfl, by simp [h2], ?_⟩
        intro d hd
        rcases List.mem_cons.mp hd with rfl | hd2
        · exact hc
        · exact h3 d hd2

/-- Full inversion of the backtracking over the `[^\/]` position. -/
theorem tryCapAux_inv : ∀ (u : List Char) (i : Nat) (cap rest : List Char),
    tryCapAux u i = some (cap, rest) →
    ∃ j, j ≤ i ∧ capOk u j = true ∧ cap = u.take (j + 1) ∧ rest = u.drop (j + 2)
      ∧ ∀ j', j < j' → j' ≤ i → capOk u j' = false := by
  intro u i
  induction i with
  | zero =>
    intro cap rest h
    unfold tryCapAux at h
    cases h0 : capOk u 0 with
    | true =>
      rw [h0] at h
      simp at h
      exact ⟨0, le_rfl, h0, h.1.symm, h.2.symm, fun j' h1 h2 => by omega⟩
    | false =>
      rw [h0] at h
      simp at h
  | succ i ih =>
    intro cap rest h
    unfold tryCapAux at h
    cases h0 : capOk u (i + 1) with
    | true =>
      rw [h0] at h
      simp at h
      exact ⟨i + 1, le_rfl, h0, h.1.symm, h.2.symm, fun j' h1 h2 => by omega⟩
    | false =>
      rw [h0] at h
      simp at h
      obtain ⟨j, hj1, hj2, hj3, hj4, hj5⟩ := ih cap rest h
      refine ⟨j, by omega, hj2, hj3, hj4, ?_⟩
      intro j' hlt hle
      rcases Nat.eq_or_lt_of_le hle with heq | hlt2
      · rw [heq]
        exact h0
      · exact hj5 j' hlt (by omega)

/-- Full inversion of `tryCap`: the two shapes a successful capture can
take. -/
theorem tryCap_inv {u cap rest : List Char} (h : tryCap u = some (cap, rest)) :
    cap ≠ [] ∧ u = cap ++ '>' :: rest
      ∧ (∀ c ∈ cap.dropLast, ¬ c = '>')
      ∧ (∀ b, cap.getLast? = some b → ¬ b = '/')
      ∧ (cap.getLast? = some '>' ∨ ¬ rest.get? 0 = some '>') := by
  unfold tryCap at h
  cases hg : gtIdx u with
  | none =>
    rw [hg] at h
    simp at h
  | some m =>
    rw [hg] at h
    obtain ⟨B, v, hu, hB, hBm⟩ := gtIdx_inv u m hg
    obtain ⟨j, hj1, hj2, hj3, hj4, hj5⟩ := tryCapAux_inv u m cap rest h
    obtain ⟨cj, hc1, hc2, hc3⟩ := capOk_spec hj2
    have hjm : j + 1 = m ∨ j = m := by
      by_contra hcon
      push_neg at hcon
      have hlt : j + 1 < m := by omega
      have := split_get_lt B v (j + 1) (by omega)
      rw [hu, this] at hc3
      have hmem : '>' ∈ B := List.get?_mem hc3
      exact hBm '>' hmem rfl
    rcases hjm with hjm | hjm
    · -- the capture stops right before the closing >
      have hcap : cap = B := by
        rw [hj3, hu, show j + 1 = B.length from by omega, List.take_left]
      have hrest : rest = v := by
        rw [hj4, hu, show j + 2 = B.length + 1 from by omega]
        rw [List.drop_append]
        rfl
      have hne : cap ≠ [] := by
        rw [hcap]
        intro he
        rw [he] at hB
        simp at hB
        omega
      have hulast : B.get? (B.length - 1) = some cj := by
        rw [hu] at hc1
        rw [← hc1, split_get_lt B v _ (by omega)]
        congr 1
        omega
      have hlast : cap.getLast? = some cj := by
        rw [hcap, List.getLast?_eq_getElem?, ← List.get?_eq_getElem?]
        exact hulast
      refine ⟨hne, by rw [hcap, hrest, hu], ?_, ?_, ?_⟩
      · intro c hc
        have : c ∈ B := by
          rw [hcap] at hc
          exact List.dropLast_subset _ hc
        exact hBm c this
      · intro b hb
        rw [hlast] at hb
        have : b = cj := by simpa using hb.symm
        rw [this]
        exact hc2
      · right
        have hcapm : capOk u m = false := by
          refine hj5 m (by omega) le_rfl
        rw [hu] at hcapm
        rw [← hB] at hcapm
        rw [capOk_at B v] at hcapm
        rw [hrest]
        simpa using hcapm
    · -- the capture runs through the first > (doubled >)
      subst hjm
      have hv0 : v.get? 0 = some '>' := by
        rw [hu] at hc3
        have := split_get_gt B v 0
        rw [← hB] at hc3
        rw [show B.length + 1 + 0 = B.length + 1 from rfl] at this
        rw [this] at hc3
        exact hc3
      have hcap : cap = B ++ ['>'] := by
        rw [hj3, hu, ← hB]
        rw [List.take_append]
        rfl
      have hrest : rest = v.drop 1 := by
        rw [hj4, hu, ← hB]
        rw [List.drop_append]
        rfl
      refine ⟨by rw [hcap]; simp, ?_, ?_, ?_, ?_⟩
      · rw [hcap, hrest, hu]
        rw [eq_cons_of_get0 hv0]
        simp
      · intro c hc
        rw [hcap, List.dropLast_concat] at hc
        exact hBm c hc
      · intro b hb
        rw [hcap, List.getLast?_concat] at hb
        have : b = '>' := by simpa using hb.symm
        rw [this]
        decide
      · left
        rw [hcap, List.getLast?_concat]


/-- Full inversion of the backtracking over the tag-name length. -/
theorem tryTagAux_inv : ∀ (s : List Char) (k0 : Nat) (hd cap rest : List Char),
    tryTagAux s k0 = some (hd, cap, rest) →
    ∃ k, 1 ≤ k ∧ k ≤ k0 ∧ tryCap (s.drop (k + 1)) = some (cap, rest)
      ∧ hd = s.take (k + 1)
      ∧ ∀ k', k < k' → k' ≤ k0 → tryCap (s.drop (k' + 1)) = none := by
  intro s k0
  induction k0 with
  | zero =>
    intro hd cap rest h
    simp [tryTagAux] at h
  | succ k ih =>
    intro hd cap rest h
    cases htc : tryCap (s.drop (k + 2)) with
    | some p =>
      obtain ⟨cap2, rest2⟩ := p
      have h0 : tryTagAux s (k + 1) = some (s.take (k + 2), cap2, rest2) := by
        have hdef : tryTagAux s (k + 1)
            = match tryCap (s.drop (k + 2)) with
              | some (cap, rest) => some (s.take (k + 2), cap, rest)
              | none => tryTagAux s k := rfl
        rw [hdef, htc]
      rw [h0] at h
      have h1 : s.take (k + 2) = hd ∧ cap2 = cap ∧ rest2 = rest := by
        have := Option.some.inj h
        exact ⟨congrArg Prod.fst this, congrArg (fun p => p.2.1) this,
          congrArg (fun p => p.2.2) this⟩
      obtain ⟨he1, he2, he3⟩ := h1
      subst he2
      subst he3
      refine ⟨k + 1, by omega, le_rfl, htc, he1.symm, ?_⟩
      intro k' h1 h2
      omega
    | none =>
      have h0 : tryTagAux s (k + 1) = tryTagAux s k := tryTagAux_miss s k htc
      rw [h0] at h
      obtain ⟨k', hk1, hk2, hk3, hk4, hk5⟩ := ih hd cap rest h
      refine ⟨k', hk1, by omega, hk3, hk4, ?_⟩
      intro k'' hlt hle
      rcases Nat.eq_or_lt_of_le hle with heq | hlt2
      · rw [heq]
        exact htc
      · exact hk5 k'' hlt (by omega)

/-- `wordRun` never exceeds the length. -/
theorem wordRun_le_length : ∀ (l : List Char), wordRun l ≤ l.length := by
  intro l
  induction l with
  | nil => exact le_rfl
  | cons c cs ih =>
    by_cases hc : isTagChar c = true
    · rw [show wordRun (c :: cs) = wordRun cs + 1 from by simp [wordRun, hc]]
      simpa using ih
    · rw [show wordRun (c :: cs) = 0 from by simp [wordRun, hc]]
      simp

/-- Characters within the word run are tag characters. -/
theorem wordRun_take_all : ∀ (l : List Char) (k : Nat), k ≤ wordRun l →
    ∀ c ∈ l.take k, isTagChar c = true := by
  intro l
  induction l with
  | nil =>
    intro k _ c hc
    simp at hc
  | cons a l ih =>
    intro k hk c hc
    by_cases ha : isTagChar a = true
    · rw [show wordRun (a :: l) = wordRun l + 1 from by simp [wordRun, ha]] at hk
      cases k with
      | zero => simp at hc
      | succ k =>
        rw [List.take_succ_cons] at hc
        rcases List.mem_cons.mp hc with rfl | hc2
        · exact ha
        · exact ih k (by omega) c hc2
    · rw [show wordRun (a :: l) = 0 from by simp [wordRun, ha]] at hk
      have hk0 : k = 0 := by omega
      subst hk0
      simp at hc
/-- A leading all-tag-character block bounds `wordRun` from below. -/
theorem wordRun_ge : ∀ (W R : List Char), (∀ c ∈ W, isTagChar c = true) →
    W.length ≤ wordRun (W ++ R) := by
  intro W
  induction W with
  | nil =>
    intro R _
    simp
  | cons w W ih =>
    intro R hW
    have hw : isTagChar w = true := hW w (List.mem_cons_self _ _)
    rw [show (w :: W) ++ R = w :: (W ++ R) from rfl,
      show wordRun (w :: (W ++ R)) = wordRun (W ++ R) + 1 from by simp [wordRun, hw]]
    have := ih R (fun c hc => hW c (List.mem_cons_of_mem _ hc))
    simp only [List.length_cons]
    omega

/-- Full soundness of the attribute matcher: every successful match has one of
the shapes the regex grammar allows, and its capture cannot begin with a tag
character unless it is a single character. -/
theorem tryMatchAttr_sound {s hd cap rest : List Char}
    (h : tryMatchAttr s = some (hd, cap, rest)) :
    ∃ W, hd = '<' :: W ∧ W ≠ [] ∧ (∀ c ∈ W, isTagChar c = true)
      ∧ s = '<' :: (W ++ (cap ++ '>' :: rest))
      ∧ cap ≠ []
      ∧ (∀ c ∈ cap.dropLast, ¬ c = '>')
      ∧ (∀ b, cap.getLast? = some b → ¬ b = '/')
      ∧ (cap.getLast? = some '>' ∨ ¬ rest.get? 0 = some '>')
      ∧ (cap.length = 1 ∨ ∀ c0, cap.get? 0 = some c0 → isTagChar c0 = false) := by
  have hs : ∃ cs, s = '<' :: cs := by
    cases s with
    | nil => exact absurd h (by simp [tryMatchAttr])
    | cons c cs =>
      by_cases hc : c = '<'
      · subst hc
        exact ⟨cs, rfl⟩
      · rw [tryMatchAttr_nonlt c cs hc] at h
        exact absurd h (by simp)
  obtain ⟨cs, rfl⟩ := hs
  rw [tryMatchAttr_cons] at h
  obtain ⟨k, hk1, hk2, hk3, hk4, hk5⟩ := tryTagAux_inv ('<' :: cs) (wordRun cs) hd cap rest h
  have hdrop : ('<' :: cs).drop (k + 1) = cs.drop k := rfl
  rw [hdrop] at hk3
  obtain ⟨hcne, hu, hcdl, hclast, hcgt⟩ := tryCap_inv hk3
  have hklen : k ≤ cs.length := le_trans hk2 (wordRun_le_length cs)
  have hW : hd = '<' :: cs.take k := by
    rw [hk4]
    rfl
  have hWtag : ∀ c ∈ cs.take k, isTagChar c = true := wordRun_take_all cs k hk2
  have hWne : cs.take k ≠ [] := by
    intro he
    have h0 := congrArg List.length he
    rw [List.length_take] at h0
    simp only [List.length_nil] at h0
    rcases Nat.min_eq_zero_iff.mp h0 with h1 | h1 <;> omega
  have hs2 : '<' :: cs = '<' :: (cs.take k ++ (cap ++ '>' :: rest)) := by
    congr 1
    rw [← hu]
    rw [List.take_append_drop]
  refine ⟨cs.take k, hW, hWne, hWtag, hs2, hcne, hcdl, hclast, hcgt, ?_⟩
  by_cases hlen : cap.length = 1
  · exact Or.inl hlen
  · right
    intro c0 hc0
    cases hct : isTagChar c0 with
    | false => rfl
    | true =>
      exfalso
      obtain ⟨capt, hcapc⟩ : ∃ capt, cap = c0 :: capt := ⟨cap.drop 1, eq_cons_of_get0 hc0⟩
      subst hcapc
      have hcaptne : capt ≠ [] := by
        intro he
        subst he
        simp at hlen
      have hge : k + 1 ≤ wordRun cs := by
        have hdec : cs = (cs.take k ++ [c0]) ++ (capt ++ '>' :: rest) := by
          conv_lhs => rw [← List.take_append_drop k cs]
          rw [hu]
          simp [List.append_assoc]
        rw [hdec]
        have hlb := wordRun_ge (cs.take k ++ [c0]) (capt ++ '>' :: rest) (by
          intro c hc
          rcases List.mem_append.mp hc with hc1 | hc1
          · exact hWtag c hc1
          · rw [List.mem_singleton.mp hc1]
            exact hct)
        rw [List.length_append, List.length_singleton, List.length_take] at hlb
        omega
      have hnone := hk5 (k + 1) (by omega) hge
      have hdrop2 : ('<' :: cs).drop (k + 1 + 1) = capt ++ '>' :: rest := by
        show cs.drop (k + 1) = _
        rw [← List.drop_drop 1 k cs, hu]
        rfl
      rw [hdrop2] at hnone
      have hlq : (c0 :: capt).getLast? = capt.getLast? := by
        cases capt with
        | nil => exact absurd rfl hcaptne
        | cons x xs => exact List.getLast?_cons_cons
      have hcdecomp : capt.dropLast ++ [capt.getLast hcaptne] = capt :=
        List.dropLast_append_getLast hcaptne
      have hlq2 : capt.getLast? = some (capt.getLast hcaptne) :=
        List.getLast?_eq_getLast capt hcaptne
      have hA'gt : ∀ c ∈ capt.dropLast, ¬ c = '>' := by
        intro c hc
        refine hcdl c ?_
        cases capt with
        | nil => exact absurd rfl hcaptne
        | cons x xs =>
          rw [show (c0 :: x :: xs).dropLast = c0 :: (x :: xs).dropLast from rfl]
          exact List.mem_cons_of_mem _ hc
      by_cases hb : capt.getLast hcaptne = '>'
      · rw [← hcdecomp, hb] at hnone
        rw [show (capt.dropLast ++ ['>']) ++ '>' :: rest
            = capt.dropLast ++ '>' :: ('>' :: rest) from by simp] at hnone
        rw [tryCap_gt capt.dropLast ('>' :: rest) hA'gt (by rfl)] at hnone
        exact absurd hnone (by simp)
      · have hrest0 : ¬ rest.get? 0 = some '>' := by
          rcases hcgt with hg | hg
          · exfalso
            rw [hlq, hlq2] at hg
            have := Option.some.inj hg
            exact hb this
          · exact hg
        have hbslash : ¬ capt.getLast hcaptne = '/' := by
          refine hclast _ ?_
          rw [hlq, hlq2]
        rw [← hcdecomp] at hnone
        rw [tryCap_mid capt.dropLast rest (capt.getLast hcaptne) (by
          intro c hc
          rcases List.mem_append.mp hc with hc1 | hc1
          · exact hA'gt c hc1
          · rw [List.mem_singleton.mp hc1]
            exact hb) hrest0 hbslash] at hnone
        exact absurd hnone (by simp)


/-- A failing tag-run descent fails at every level. -/
theorem tryTagAux_none_inv : ∀ (s : List Char) (k0 : Nat),
    tryTagAux s k0 = none →
    ∀ k, 1 ≤ k → k ≤ k0 → tryCap (s.drop (k + 1)) = none := by
  intro s k0
  induction k0 with
  | zero =>
    intro _ k hk1 hk2
    omega
  | succ k0 ih =>
    intro h k hk1 hk2
    have hdef : tryTagAux s (k0 + 1)
        = match tryCap (s.drop (k0 + 2)) with
          | some (cap, rest) => some (s.take (k0 + 2), cap, rest)
          | none => tryTagAux s k0 := rfl
    cases htc : tryCap (s.drop (k0 + 2)) with
    | some p =>
      rw [hdef, htc] at h
      exact absurd h (by simp)
    | none =>
      rw [hdef, htc] at h
      rcases Nat.eq_or_lt_of_le hk2 with heq | hlt
      · rw [heq]
        exact htc
      · exact ih h k hk1 (by omega)

/-- `gtIdx` is `none` exactly on `>`-free strings. -/
theorem gtIdx_none_inv : ∀ (u : List Char), gtIdx u = none → ∀ c ∈ u, ¬ c = '>' := by
  intro u
  induction u with
  | nil =>
    intro _ c hc
    simp at hc
  | cons a cs ih =>
    intro h c hc
    by_cases ha : a = '>'
    · subst ha
      have h0 : gtIdx ('>' :: cs) = some 0 := by simp [gtIdx]
      rw [h0] at h
      exact absurd h (by simp)
    · have hstep : gtIdx (a :: cs) = (gtIdx cs).map (· + 1) := by simp [gtIdx, ha]
      rw [hstep] at h
      cases hg : gtIdx cs with
      | some m =>
        rw [hg] at h
        exact absurd h (by simp)
      | none =>
        rcases List.mem_cons.mp hc with rfl | hc2
        · exact ha
        · exact ih hg c hc2

/-- The first `>` bounds every `>` position from below. -/
theorem gtIdx_min {u : List Char} {m p : Nat} (hg : gtIdx u = some m)
    (hp : u.get? p = some '>') : m ≤ p := by
  obtain ⟨B, v, hu, hB, hBm⟩ := gtIdx_inv u m hg
  by_contra hcon
  push_neg at hcon
  rw [hu, split_get_lt B v p (by omega)] at hp
  exact hBm '>' (List.get?_mem hp) rfl

/-- A failing `tryCapAux` fails at every level at or below its start. -/
theorem tryCapAux_none_inv : ∀ (u : List Char) (i : Nat), tryCapAux u i = none →
    ∀ j, j ≤ i → capOk u j = false := by
  intro u i
  induction i with
  | zero =>
    intro h j hj
    have hj0 : j = 0 := by omega
    subst hj0
    unfold tryCapAux at h
    cases hc : capOk u 0 with
    | false => rfl
    | true =>
      rw [hc] at h
      exact absurd h (by simp)
  | succ i ih =>
    intro h j hj
    unfold tryCapAux at h
    cases hc : capOk u (i + 1) with
    | true =>
      rw [hc] at h
      exact absurd h (by simp)
    | false =>
      rw [hc] at h
      simp at h
      rcases Nat.eq_or_lt_of_le hj with heq | hlt
      · rw [heq]
        exact hc
      · exact ih h j (by omega)

/-- What a failing `tryCap` says about the characters around the first `>`. -/
theorem tryCap_none_inv {u : List Char} {m : Nat} (hg : gtIdx u = some m)
    (h : tryCap u = none) :
    ¬ u.get? (m + 1) = some '>' ∧ (m = 0 ∨ u.get? (m - 1) = some '/') := by
  unfold tryCap at h
  rw [hg] at h
  obtain ⟨B, v, hu, hB, hBm⟩ := gtIdx_inv u m hg
  have hall := tryCapAux_none_inv u m h
  constructor
  · have hm := hall m le_rfl
    rw [hu, ← hB, capOk_at B v] at hm
    have hv0 : ¬ v.get? 0 = some '>' := by simpa using hm
    intro hcon
    apply hv0
    rw [hu] at hcon
    have hsg := split_get_gt B v 0
    rw [show B.length + 1 + 0 = B.length + 1 from rfl, hB] at hsg
    rw [← hsg]
    exact hcon
  · cases hm0 : m with
    | zero => exact Or.inl rfl
    | succ m' =>
      right
      have hBne : B ≠ [] := by
        intro he
        rw [he] at hB
        simp at hB
        omega
      have hdec : B.dropLast ++ [B.getLast hBne] = B := List.dropLast_append_getLast hBne
      have hlen' : B.dropLast.length = m' := by
        have := congrArg List.length hdec
        rw [List.length_append, List.length_singleton] at this
        omega
      have hj := hall m' (by omega)
      rw [hu, ← hdec, ← hlen', capOk_before B.dropLast v (B.getLast hBne)] at hj
      have hb : B.getLast hBne = '/' := by
        cases hbe : decide (B.getLast hBne = '/') with
        | true => exact of_decide_eq_true hbe
        | false =>
          rw [hbe] at hj
          simp at hj
      have hgl : B.get? m' = some (B.getLast hBne) := by
        rw [List.get?_eq_getElem?, show m' = B.length - 1 from by omega,
          ← List.getLast?_eq_getElem?, List.getLast?_eq_getLast B hBne]
      have hget : u.get? m' = some (B.getLast hBne) := by
        rw [hu, split_get_lt B v m' (by omega)]
        exact hgl
      rw [show m' + 1 - 1 = m' from rfl]
      rw [hget, hb]

/-- Rebuilding a failing `tryCap` from the characters around the first `>`. -/
theorem tryCap_none_intro {u : List Char} {m : Nat} (hg : gtIdx u = some m)
    (h1 : ¬ u.get? (m + 1) = some '>') (h2 : m = 0 ∨ u.get? (m - 1) = some '/') :
    tryCap u = none := by
  unfold tryCap
  rw [hg]
  obtain ⟨B, v, hu, hB, hBm⟩ := gtIdx_inv u m hg
  refine tryCapAux_none u m ?_
  intro j hj
  rcases lt_trichotomy (j + 1) m with hlt | heq | hgt
  · rw [hu]
    exact capOk_lt B v hBm j (by omega)
  · have hBne : B ≠ [] := by
      intro he
      rw [he] at hB
      simp at hB
      omega
    have hdec : B.dropLast ++ [B.getLast hBne] = B := List.dropLast_append_getLast hBne
    have hlen' : B.dropLast.length = j := by
      have := congrArg List.length hdec
      rw [List.length_append, List.length_singleton] at this
      omega
    have hb : B.getLast hBne = '/' := by
      rcases h2 with h20 | h2v
      · omega
      · have hget : u.get? (m - 1) = some (B.getLast hBne) := by
          rw [hu, split_get_lt B v (m - 1) (by omega)]
          rw [List.get?_eq_getElem?, show m - 1 = B.length - 1 from by omega,
            ← List.getLast?_eq_getElem?, List.getLast?_eq_getLast B hBne]
        rw [hget] at h2v
        exact Option.some.inj h2v
    rw [hu, ← hdec, ← hlen', capOk_before B.dropLast v (B.getLast hBne), hb]
    simp
  · have hjm : j = m := by omega
    subst hjm
    rw [hu, ← hB, capOk_at B v]
    have hv0 : ¬ v.get? 0 = some '>' := by
      intro hcon
      apply h1
      rw [hu]
      have hsg := split_get_gt B v 0
      rw [show B.length + 1 + 0 = B.length + 1 from rfl, hB] at hsg
      rw [hsg]
      exact hcon
    simpa using hv0


/-- `blockMap` distributes over append. -/
theorem blockMap_append (g : Char → List Char) :
    ∀ (A B : List Char), blockMap g (A ++ B) = blockMap g A ++ blockMap g B := by
  intro A B
  induction A with
  | nil => rfl
  | cons a A ih =>
    show blockMap g (a :: (A ++ B)) = _
    rw [show blockMap g (a :: (A ++ B)) = g a ++ blockMap g (A ++ B) from rfl, ih,
      show blockMap g (a :: A) = g a ++ blockMap g A from rfl, List.append_assoc]

/-- Membership in a block map comes from some block. -/
theorem blockMap_mem {g : Char → List Char} :
    ∀ {l : List Char} {x : Char}, x ∈ blockMap g l → ∃ c ∈ l, x ∈ g c := by
  intro l
  induction l with
  | nil =>
    intro x hx
    simp [blockMap] at hx
  | cons c cs ih =>
    intro x hx
    rw [show blockMap g (c :: cs) = g c ++ blockMap g cs from rfl] at hx
    rcases List.mem_append.mp hx with h | h
    · exact ⟨c, List.mem_cons_self _ _, h⟩
    · obtain ⟨d, hd1, hd2⟩ := ih h
      exact ⟨d, List.mem_cons_of_mem _ hd1, hd2⟩

/-- Every block is nonempty. -/
theorem encChar_ne_nil (c : Char) : encChar c ≠ [] := by
  unfold encChar
  by_cases h1 : c = '\n'
  · rw [if_pos h1]
    decide
  · rw [if_neg h1]
    by_cases h2 : c = '\r'
    · rw [if_pos h2]
      decide
    · rw [if_neg h2]
      by_cases h3 : isWsJS c = true
      · rw [if_pos h3]
        decide
      · rw [if_neg h3]
        simp

/-- The block of a character is the character itself or one of the tokens. -/
theorem encChar_cases (c : Char) :
    encChar c = [c] ∨ encChar c = tokNl ∨ encChar c = tokCr ∨ encChar c = tokWs := by
  unfold encChar
  by_cases h1 : c = '\n'
  · rw [if_pos h1]
    exact Or.inr (Or.inl rfl)
  · rw [if_neg h1]
    by_cases h2 : c = '\r'
    · rw [if_pos h2]
      exact Or.inr (Or.inr (Or.inl rfl))
    · rw [if_neg h2]
      by_cases h3 : isWsJS c = true
      · rw [if_pos h3]
        exact Or.inr (Or.inr (Or.inr rfl))
      · rw [if_neg h3]
        exact Or.inl rfl

/-- `encAttr` distributes over append. -/
theorem encAttr_append (A B : List Char) : encAttr (A ++ B) = encAttr A ++ encAttr B := by
  rw [encAttr_blocks, encAttr_blocks, encAttr_blocks, blockMap_append]

/-- `encAttr` of a nonempty capture is nonempty. -/
theorem encAttr_ne_nil {cap : List Char} (h : cap ≠ []) : encAttr cap ≠ [] := by
  cases cap with
  | nil => exact absurd rfl h
  | cons c cs =>
    rw [encAttr_cons]
    intro he
    have h1 := congrArg List.length he
    rw [List.length_append] at h1
    have h3 : 0 < (encChar c).length := List.length_pos.mpr (encChar_ne_nil c)
    simp only [List.length_nil] at h1
    omega

/-- Characters of the encoded capture: original characters or token
characters. -/
theorem mem_encAttr {cap : List Char} {x : Char} (hx : x ∈ encAttr cap) :
    x ∈ cap ∨ x ∈ tokNl ∨ x ∈ tokCr ∨ x ∈ tokWs := by
  rw [encAttr_blocks] at hx
  obtain ⟨c, hc1, hc2⟩ := blockMap_mem hx
  rcases encChar_cases c with h | h | h | h
  · rw [h] at hc2
    rw [List.mem_singleton.mp hc2]
    exact Or.inl hc1
  · rw [h] at hc2
    exact Or.inr (Or.inl hc2)
  · rw [h] at hc2
    exact Or.inr (Or.inr (Or.inl hc2))
  · rw [h] at hc2
    exact Or.inr (Or.inr (Or.inr hc2))

/-- The encoded capture starts with the encoding of the first character. -/
theorem encAttr_head (c0 : Char) (capt : List Char) :
    (encAttr (c0 :: capt)).get? 0 = (encChar c0).get? 0 := by
  rw [encAttr_cons, List.get?_eq_getElem?, List.get?_eq_getElem?,
    List.getElem?_append_left (List.length_pos.mpr (encChar_ne_nil c0))]

/-- A non-tag first capture character stays non-tag after encoding. -/
theorem encAttr_head_nontag {cap : List Char} {c0 : Char} (h0 : cap.get? 0 = some c0)
    (hnt : isTagChar c0 = false) :
    ∀ d, (encAttr cap).get? 0 = some d → isTagChar d = false := by
  intro d hd
  have hc : cap = c0 :: cap.drop 1 := eq_cons_of_get0 h0
  rw [hc, encAttr_head] at hd
  rcases encChar_cases c0 with h | h | h | h
  · rw [h] at hd
    have hdc : d = c0 := by simpa using hd.symm
    rw [hdc]
    exact hnt
  · rw [h] at hd
    have h4 : tokNl.get? 0 = some '!' := by decide
    rw [h4] at hd
    rw [← Option.some.inj hd]
    decide
  · rw [h] at hd
    have h4 : tokCr.get? 0 = some '!' := by decide
    rw [h4] at hd
    rw [← Option.some.inj hd]
    decide
  · rw [h] at hd
    have h4 : tokWs.get? 0 = some '!' := by decide
    rw [h4] at hd
    rw [← Option.some.inj hd]
    decide

/-- The protect pass rewrites each match into head, encoded capture and the
closing bracket. -/
theorem protect_step {s hd cap rest : List Char}
    (hm : tryMatchAttr s = some (hd, cap, rest)) :
    attrScan encAttr s = hd ++ (encAttr cap ++ '>' :: attrScan encAttr rest) := by
  obtain ⟨W, hW, hWne, hWt, hdec, hcne, _, _, _, _⟩ := tryMatchAttr_sound hm
  rw [attrScan_match encAttr hm]
  cases hws : cap.any isWsJS with
  | false =>
    have hwf : ∀ c ∈ cap, isWsJS c = false := by
      intro c hc
      have := List.any_eq_true.not.mp (by rw [hws]; simp)
      push_neg at this
      cases hcc : isWsJS c with
      | false => rfl
      | true => exact absurd hcc (this c hc)
    rw [encAttr_id cap hwf, replaceFirst_self]
    simp [List.append_assoc]
  | true =>
    have hBp : ∀ c ∈ hd, isWsJS c = false := by
      intro c hc
      rw [hW] at hc
      rcases List.mem_cons.mp hc with rfl | hc2
      · decide
      · exact tagChar_not_ws c (hWt c hc2)
    have hnoe := no_early_occurrence isWsJS hd cap '>' hBp hws
    rw [show hd ++ cap ++ ['>'] = hd ++ (cap ++ ['>']) from by simp [List.append_assoc]]
    rw [replaceFirst_skip cap (encAttr cap) hd (cap ++ ['>']) hnoe]
    rw [replaceFirst_head cap (encAttr cap) ['>'] hcne]
    simp [List.append_assoc]

/-- The protect pass can only put a `>` first if one was first already. -/
theorem protect_head (X : List Char) (h : (attrScan encAttr X).get? 0 = some '>') :
    X.get? 0 = some '>' := by
  cases X with
  | nil => exact absurd h (by simp [attrScan, attrScanF])
  | cons c cs =>
    cases hm : tryMatchAttr (c :: cs) with
    | none =>
      rw [attrScan_nomatch encAttr c cs hm] at h
      exact h
    | some p =>
      obtain ⟨hd, cap, rest⟩ := p
      obtain ⟨W, hW, _, _, hdec, _, _, _, _, _⟩ := tryMatchAttr_sound hm
      rw [protect_step hm, hW] at h
      simp at h


/-- The scan copies verbatim while no suffix matches. -/
theorem scan_id_of_nomatch (f : List Char → List Char) :
    ∀ (X : List Char), (∀ i, tryMatchAttr (X.drop i) = none) → attrScan f X = X := by
  intro X
  induction X with
  | nil => intro _; rfl
  | cons c cs ih =>
    intro h
    have h0 := h 0
    rw [List.drop_zero] at h0
    rw [attrScan_nomatch f c cs h0, ih (fun i => h (i + 1))]

/-- The scan copies the first `q` characters when no match starts there. -/
theorem scan_copy (f : List Char → List Char) :
    ∀ (q : Nat) (X : List Char), (∀ i, i < q → tryMatchAttr (X.drop i) = none) →
    attrScan f X = X.take q ++ attrScan f (X.drop q) := by
  intro q
  induction q with
  | zero => intro X _; rfl
  | succ q ih =>
    intro X h
    cases X with
    | nil => rfl
    | cons c cs =>
      have h0 := h 0 (by omega)
      rw [List.drop_zero] at h0
      rw [attrScan_nomatch f c cs h0]
      rw [ih cs (fun i hi => h (i + 1) (by omega))]
      rfl

/-- The character right after the word run is not a tag character. -/
theorem wordRun_stop : ∀ (l : List Char) (d : Char), l.get? (wordRun l) = some d →
    isTagChar d = false := by
  intro l
  induction l with
  | nil =>
    intro d hd
    simp at hd
  | cons c cs ih =>
    intro d hd
    by_cases hc : isTagChar c = true
    · rw [show wordRun (c :: cs) = wordRun cs + 1 from by simp [wordRun, hc]] at hd
      exact ih d hd
    · rw [show wordRun (c :: cs) = 0 from by simp [wordRun, hc]] at hd
      have : d = c := by simpa using hd.symm
      rw [this]
      simpa using hc

/-- Re-matching: a string assembled from a well-shaped head, capture and
remainder matches exactly as assembled. -/
theorem tryMatchAttr_rematch (W cap2 prest : List Char)
    (hWne : W ≠ []) (hWt : ∀ c ∈ W, isTagChar c = true)
    (hcne : cap2 ≠ [])
    (hcdl : ∀ c ∈ cap2.dropLast, ¬ c = '>')
    (hclast : ∀ b, cap2.getLast? = some b → ¬ b = '/')
    (hcgt : cap2.getLast? = some '>' ∨ ¬ prest.get? 0 = some '>')
    (hfst : cap2.length = 1 ∨ ∀ c0, cap2.get? 0 = some c0 → isTagChar c0 = false) :
    tryMatchAttr ('<' :: (W ++ (cap2 ++ '>' :: prest))) = some ('<' :: W, cap2, prest) := by
  cases cap2 with
  | nil => exact absurd rfl hcne
  | cons c0 capt =>
    cases capt with
    | nil =>
      by_cases hct : isTagChar c0 = true
      · have hc0gt : ¬ c0 = '>' := by
          intro he
          rw [he] at hct
          exact absurd hct (by decide)
        have hv : ¬ prest.get? 0 = some '>' := by
          rcases hcgt with hg | hg
          · exfalso
            have : c0 = '>' := by simpa using hg
            exact hc0gt this
          · exact hg
        have := tryMatchAttr_case_word W prest c0 hWne (by
          intro c hc
          rcases List.mem_append.mp hc with h | h
          · exact hWt c h
          · rw [List.mem_singleton.mp h]
            exact hct) hv
        rw [show (W ++ [c0]) ++ '>' :: prest = W ++ ([c0] ++ '>' :: prest) from by simp] at this
        exact this
      · by_cases hgt : c0 = '>'
        · subst hgt
          have := tryMatchAttr_case_gt W [] ('>' :: prest) hWne hWt (by simp)
            (by intro c hc; simp at hc; rw [hc]; decide) (by rfl)
          simpa using this
        · have hv : ¬ prest.get? 0 = some '>' := by
            rcases hcgt with hg | hg
            · exfalso
              exact hgt (by simpa using hg)
            · exact hg
          have hslash : ¬ c0 = '/' := hclast c0 rfl
          have := tryMatchAttr_case_mid W [] prest c0 hWne hWt (by
            intro c hc
            simp at hc
            rw [hc]
            exact hgt) (by
            intro c hc
            simp at hc
            rw [hc]
            simpa using hct) hv hslash
          simpa using this
    | cons c1 capt' =>
      have hcaptne : (c1 :: capt') ≠ [] := by simp
      have hc0 : isTagChar c0 = false := by
        rcases hfst with h | h
        · simp at h
        · exact h c0 rfl
      have hlq : (c0 :: c1 :: capt').getLast? = (c1 :: capt').getLast? :=
        List.getLast?_cons_cons
      have hdec : (c1 :: capt').dropLast ++ [(c1 :: capt').getLast hcaptne] = c1 :: capt' :=
        List.dropLast_append_getLast hcaptne
      have hlq2 : (c1 :: capt').getLast? = some ((c1 :: capt').getLast hcaptne) :=
        List.getLast?_eq_getLast _ hcaptne
      have hdl : (c0 :: c1 :: capt').dropLast = c0 :: (c1 :: capt').dropLast := rfl
      have hAfree : ∀ c ∈ c0 :: (c1 :: capt').dropLast, ¬ c = '>' := by
        intro c hc
        refine hcdl c ?_
        rw [hdl]
        exact hc
      have hAh : ∀ c ∈ ((c0 :: (c1 :: capt').dropLast) ++ '>' :: ('>' :: prest)).take 1,
          isTagChar c = false := by
        intro c hc
        simp at hc
        rw [hc]
        exact hc0
      by_cases hb : (c1 :: capt').getLast hcaptne = '>'
      · have hshape : (c0 :: c1 :: capt') ++ '>' :: prest
            = (c0 :: (c1 :: capt').dropLast) ++ '>' :: ('>' :: prest) := by
          conv_lhs => rw [show c0 :: c1 :: capt' = c0 :: (c1 :: capt') from rfl, ← hdec]
          rw [hb]
          simp
        have := tryMatchAttr_case_gt W (c0 :: (c1 :: capt').dropLast) ('>' :: prest)
          hWne hWt hAfree hAh (by rfl)
        rw [show W ++ ((c0 :: (c1 :: capt').dropLast) ++ '>' :: ('>' :: prest))
            = W ++ ((c0 :: c1 :: capt') ++ '>' :: prest) from by rw [hshape]] at this
        rw [this]
        have hcap2 : (c0 :: (c1 :: capt').dropLast) ++ ['>'] = c0 :: c1 :: capt' := by
          conv_rhs => rw [show c0 :: c1 :: capt' = c0 :: (c1 :: capt') from rfl, ← hdec]
          rw [hb]
          rfl
        rw [hcap2]
        rfl
      · have hv : ¬ prest.get? 0 = some '>' := by
          rcases hcgt with hg | hg
          · exfalso
            rw [hlq, hlq2] at hg
            exact hb (Option.some.inj hg)
          · exact hg
        have hslash : ¬ (c1 :: capt').getLast hcaptne = '/' := by
          refine hclast _ ?_
          rw [hlq, hlq2]
        have hAh2 : ∀ c ∈ (((c0 :: (c1 :: capt').dropLast)
            ++ [(c1 :: capt').getLast hcaptne]) ++ '>' :: prest).take 1,
            isTagChar c = false := by
          intro c hc
          simp at hc
          rw [hc]
          exact hc0
        have hAfree2 : ∀ c ∈ (c0 :: (c1 :: capt').dropLast)
            ++ [(c1 :: capt').getLast hcaptne], ¬ c = '>' := by
          intro c hc
          rcases List.mem_append.mp hc with h | h
          · exact hAfree c h
          · rw [List.mem_singleton.mp h]
            exact hb
        have := tryMatchAttr_case_mid W (c0 :: (c1 :: capt').dropLast) prest
          ((c1 :: capt').getLast hcaptne) hWne hWt hAfree2 hAh2 hv hslash
        have hshape2 : (c0 :: (c1 :: capt').dropLast) ++ [(c1 :: capt').getLast hcaptne]
            = c0 :: c1 :: capt' := by
          conv_rhs => rw [show c0 :: c1 :: capt' = c0 :: (c1 :: capt') from rfl, ← hdec]
          rfl
        rw [hshape2] at this
        exact this


/-- Tokens contain no `>`. -/
theorem tok_no_gt : (∀ c ∈ tokNl, ¬ c = '>') ∧ (∀ c ∈ tokCr, ¬ c = '>')
    ∧ (∀ c ∈ tokWs, ¬ c = '>') := by
  refine ⟨?_, ?_, ?_⟩ <;> decide

/-- The encoded capture inherits `>`-freeness. -/
theorem encAttr_no_gt {A : List Char} (hA : ∀ c ∈ A, ¬ c = '>') :
    ∀ c ∈ encAttr A, ¬ c = '>' := by
  intro c hc
  rcases mem_encAttr hc with h | h | h | h
  · exact hA c h
  · exact tok_no_gt.1 c h
  · exact tok_no_gt.2.1 c h
  · exact tok_no_gt.2.2 c h

/-- Transport of the matcher shape facts through the encode callback. -/
theorem enc_transport {cap : List Char}
    (hcne : cap ≠ [])
    (hcdl : ∀ c ∈ cap.dropLast, ¬ c = '>')
    (hclast : ∀ b, cap.getLast? = some b → ¬ b = '/')
    (hfst : cap.length = 1 ∨ ∀ c0, cap.get? 0 = some c0 → isTagChar c0 = false) :
    encAttr cap ≠ []
    ∧ (∀ c ∈ (encAttr cap).dropLast, ¬ c = '>')
    ∧ (∀ b, (encAttr cap).getLast? = some b → ¬ b = '/')
    ∧ ((encAttr cap).getLast? = some '>' ↔ cap.getLast? = some '>')
    ∧ ((encAttr cap).length = 1 ∨
        ∀ c0, (encAttr cap).get? 0 = some c0 → isTagChar c0 = false) := by
  have hT1 : encAttr cap ≠ [] := encAttr_ne_nil hcne
  have hT5 : (encAttr cap).length = 1 ∨
      ∀ c0, (encAttr cap).get? 0 = some c0 → isTagChar c0 = false := by
    rcases hfst with h1 | h1
    · cases cap with
      | nil => exact absurd rfl hcne
      | cons c0 capt =>
        have hc : capt = [] := by simpa using h1
        subst hc
        rcases encChar_cases c0 with h | h | h | h
        · left
          rw [show encAttr [c0] = encChar c0 ++ encAttr [] from encAttr_cons c0 [], h]
          rfl
        all_goals
          right
          intro d hd
          rw [encAttr_head, h] at hd
        · have h4 : tokNl.get? 0 = some '!' := by decide
          rw [h4] at hd
          rw [← Option.some.inj hd]
          decide
        · have h4 : tokCr.get? 0 = some '!' := by decide
          rw [h4] at hd
          rw [← Option.some.inj hd]
          decide
        · have h4 : tokWs.get? 0 = some '!' := by decide
          rw [h4] at hd
          rw [← Option.some.inj hd]
          decide
    · right
      cases cap with
      | nil => exact absurd rfl hcne
      | cons c0 capt =>
        exact encAttr_head_nontag rfl (h1 c0 rfl)
  obtain ⟨A, b, hAb⟩ : ∃ A b, cap = A ++ [b] :=
    ⟨cap.dropLast, cap.getLast hcne, (List.dropLast_append_getLast hcne).symm⟩
  subst hAb
  rw [List.dropLast_concat] at hcdl
  have hlastc : (A ++ [b]).getLast? = some b := List.getLast?_concat A
  have hencA : ∀ c ∈ encAttr A, ¬ c = '>' := encAttr_no_gt hcdl
  have hsplit : encAttr (A ++ [b]) = encAttr A ++ encChar b := by
    rw [encAttr_append]
    congr 1
    rw [show encAttr [b] = encChar b ++ encAttr [] from encAttr_cons b [],
      show encAttr [] = [] from rfl, List.append_nil]
  rcases encChar_cases b with h | h | h | h
  · refine ⟨hT1, ?_, ?_, ?_, hT5⟩
    · rw [hsplit, h, List.dropLast_concat]
      exact hencA
    · rw [hsplit, h, List.getLast?_concat]
      intro b' hb'
      have hbe : b' = b := by simpa using hb'.symm
      rw [hbe]
      exact hclast b hlastc
    · rw [hsplit, h, List.getLast?_concat, hlastc]
  · have hbgt : ¬ b = '>' := by
      intro he
      rw [he] at h
      rw [show encChar '>' = ['>'] from rfl] at h
      have hlen := congrArg List.length h
      rw [show (tokNl).length = 13 from by decide] at hlen
      simp at hlen
    refine ⟨hT1, ?_, ?_, ?_, hT5⟩
    · rw [hsplit, h, List.dropLast_append_of_ne_nil (encAttr A) (by decide)]
      intro c hc
      rcases List.mem_append.mp hc with h2 | h2
      · exact hencA c h2
      · exact (by decide : ∀ x ∈ (tokNl).dropLast, ¬ x = '>') c h2
    · rw [hsplit, h, @List.getLast?_append_of_ne_nil Char (encAttr A) tokNl (by decide)]
      intro b' hb'
      have hbe : b' = '!' := by
        have h4 : (tokNl).getLast? = some '!' := by decide
        rw [h4] at hb'
        exact (Option.some.inj hb').symm
      rw [hbe]
      decide
    · rw [hsplit, h, @List.getLast?_append_of_ne_nil Char (encAttr A) tokNl (by decide), hlastc]
      constructor
      · intro hcon
        have h4 : (tokNl).getLast? = some '!' := by decide
        rw [h4] at hcon
        exact absurd ((Option.some.inj hcon).symm) (by decide)
      · intro hcon
        exact absurd (Option.some.inj hcon) hbgt
  · have hbgt : ¬ b = '>' := by
      intro he
      rw [he] at h
      rw [show encChar '>' = ['>'] from rfl] at h
      have hlen := congrArg List.length h
      rw [show (tokCr).length = 13 from by decide] at hlen
      simp at hlen
    refine ⟨hT1, ?_, ?_, ?_, hT5⟩
    · rw [hsplit, h, List.dropLast_append_of_ne_nil (encAttr A) (by decide)]
      intro c hc
      rcases List.mem_append.mp hc with h2 | h2
      · exact hencA c h2
      · exact (by decide : ∀ x ∈ (tokCr).dropLast, ¬ x = '>') c h2
    · rw [hsplit, h, @List.getLast?_append_of_ne_nil Char (encAttr A) tokCr (by decide)]
      intro b' hb'
      have hbe : b' = '!' := by
        have h4 : (tokCr).getLast? = some '!' := by decide
        rw [h4] at hb'
        exact (Option.some.inj hb').symm
      rw [hbe]
      decide
    · rw [hsplit, h, @List.getLast?_append_of_ne_nil Char (encAttr A) tokCr (by decide), hlastc]
      constructor
      · intro hcon
        have h4 : (tokCr).getLast? = some '!' := by decide
        rw [h4] at hcon
        exact absurd ((Option.some.inj hcon).symm) (by decide)
      · intro hcon
        exact absurd (Option.some.inj hcon) hbgt
  · have hbgt : ¬ b = '>' := by
      intro he
      rw [he] at h
      rw [show encChar '>' = ['>'] from rfl] at h
      have hlen := congrArg List.length h
      rw [show (tokWs).length = 13 from by decide] at hlen
      simp at hlen
    refine ⟨hT1, ?_, ?_, ?_, hT5⟩
    · rw [hsplit, h, List.dropLast_append_of_ne_nil (encAttr A) (by decide)]
      intro c hc
      rcases List.mem_append.mp hc with h2 | h2
      · exact hencA c h2
      · exact (by decide : ∀ x ∈ (tokWs).dropLast, ¬ x = '>') c h2
    · rw [hsplit, h, @List.getLast?_append_of_ne_nil Char (encAttr A) tokWs (by decide)]
      intro b' hb'
      have hbe : b' = '!' := by
        have h4 : (tokWs).getLast? = some '!' := by decide
        rw [h4] at hb'
        exact (Option.some.inj hb').symm
      rw [hbe]
      decide
    · rw [hsplit, h, @List.getLast?_append_of_ne_nil Char (encAttr A) tokWs (by decide), hlastc]
      constructor
      · intro hcon
        have h4 : (tokWs).getLast? = some '!' := by decide
        rw [h4] at hcon
        exact absurd ((Option.some.inj hcon).symm) (by decide)
      · intro hcon
        exact absurd (Option.some.inj hcon) hbgt


/-- Head characters of the encoded capture. -/
theorem encAttr_heads (cap2 : List Char) (h : cap2 ≠ []) :
    (encAttr cap2).get? 0 = cap2.get? 0 ∨ (encAttr cap2).get? 0 = some '!' := by
  cases cap2 with
  | nil => exact absurd rfl h
  | cons c0 capt =>
    rw [encAttr_head]
    rcases encChar_cases c0 with h | h | h | h
    · left
      rw [h]
      rfl
    · right
      rw [h]
      decide
    · right
      rw [h]
      decide
    · right
      rw [h]
      decide

/-- Core transfer: when `tryCap` fails on a string whose tail is a matched
region `cap2 ++ '>' :: rest2`, it also fails after the region is rewritten to
`E2 ++ '>' :: Z`, because the failure conditions live strictly before the
region. -/
theorem tryCap_none_transfer (D cap2 rest2 E2 Z : List Char)
    (hfail : tryCap (D ++ (cap2 ++ '>' :: rest2)) = none)
    (hc2ne : cap2 ≠ [])
    (hc2dl : ∀ c ∈ cap2.dropLast, ¬ c = '>')
    (hc2last : ∀ b, cap2.getLast? = some b → ¬ b = '/')
    (hE2ne : E2 ≠ [])
    (hheads : E2.get? 0 = cap2.get? 0 ∨ E2.get? 0 = some '!') :
    tryCap (D ++ (E2 ++ '>' :: Z)) = none := by
  cases hg : gtIdx (D ++ (cap2 ++ '>' :: rest2)) with
  | none =>
    exfalso
    exact gtIdx_none_inv _ hg '>' (by simp) rfl
  | some m0 =>
    obtain ⟨h1, h2⟩ := tryCap_none_inv hg hfail
    have hsep : (D ++ (cap2 ++ '>' :: rest2)).get? (D.length + cap2.length) = some '>' := by
      rw [List.get?_eq_getElem?, List.getElem?_append_right (by omega),
        show D.length + cap2.length - D.length = cap2.length from by omega,
        List.getElem?_append_right le_rfl]
      simp
    have hm0le : m0 ≤ D.length + cap2.length := gtIdx_min hg hsep
    obtain ⟨B0, v0, hu0, hB0, hB0m⟩ := gtIdx_inv _ m0 hg
    have hm0gt : (D ++ (cap2 ++ '>' :: rest2)).get? m0 = some '>' := by
      rw [hu0, ← hB0, split_get_eq]
    have hc2pos : 0 < cap2.length := List.length_pos.mpr hc2ne
    have hm0D : m0 < D.length := by
      by_contra hcon
      push_neg at hcon
      rcases Nat.lt_or_ge m0 (D.length + cap2.length) with hlt | hge2
      · have hc2g : cap2.get? (m0 - D.length) = some '>' := by
          rw [List.get?_eq_getElem?, List.getElem?_append_right hcon,
            List.getElem?_append_left (by omega)] at hm0gt
          rw [List.get?_eq_getElem?]
          exact hm0gt
        have hidx : m0 - D.length = cap2.length - 1 := by
          by_contra hne2
          have hlt2 : m0 - D.length < cap2.length - 1 := by omega
          have hmem : '>' ∈ cap2.dropLast := by
            rw [List.dropLast_eq_take]
            have h4 : (cap2.take (cap2.length - 1)).get? (m0 - D.length)
                = cap2.get? (m0 - D.length) := by
              rw [List.get?_eq_getElem?, List.get?_eq_getElem?,
                List.getElem?_take_of_lt hlt2]
            rw [← h4] at hc2g
            exact List.get?_mem hc2g
          exact hc2dl '>' hmem rfl
        have hlast2 : cap2.getLast? = some '>' := by
          rw [List.getLast?_eq_getElem?, ← List.get?_eq_getElem?, ← hidx]
          exact hc2g
        have hm01 : m0 + 1 = D.length + cap2.length := by omega
        rw [hm01] at h1
        exact h1 hsep
      · have hm0eq : m0 = D.length + cap2.length := by omega
        rcases h2 with h20 | h2v
        · omega
        · have hg2 : (D ++ (cap2 ++ '>' :: rest2)).get? (m0 - 1) = cap2.getLast? := by
            rw [hm0eq, List.get?_eq_getElem?,
              List.getElem?_append_right
                (show D.length ≤ D.length + cap2.length - 1 from by omega),
              show D.length + cap2.length - 1 - D.length = cap2.length - 1 from by omega,
              List.getElem?_append_left (by omega), List.getLast?_eq_getElem?]
          rw [hg2] at h2v
          exact hc2last '/' h2v rfl
    have hDtake : D.take m0 = B0 := by
      have h3 : (D ++ (cap2 ++ '>' :: rest2)).take m0 = D.take m0 :=
        List.take_append_of_le_length (by omega)
      rw [hu0, List.take_append_of_le_length (show m0 ≤ B0.length from by omega)] at h3
      rw [show B0.take m0 = B0 from by rw [← hB0]; exact List.take_length B0] at h3
      exact h3.symm
    have hDgt : D[m0] = '>' := by
      rw [List.get?_eq_getElem?, List.getElem?_append_left hm0D] at hm0gt
      exact (List.getElem?_eq_some_iff.mp hm0gt).2
    have hDdec : D = B0 ++ '>' :: D.drop (m0 + 1) := by
      conv_lhs => rw [← List.take_append_drop m0 D]
      rw [hDtake]
      congr 1
      rw [List.drop_eq_getElem_cons hm0D, hDgt]
    have hgenc : gtIdx (D ++ (E2 ++ '>' :: Z)) = some m0 := by
      conv_lhs => rw [hDdec]
      rw [show (B0 ++ '>' :: D.drop (m0 + 1)) ++ (E2 ++ '>' :: Z)
          = B0 ++ '>' :: (D.drop (m0 + 1) ++ (E2 ++ '>' :: Z)) from by simp]
      rw [gtIdx_split B0 _ hB0m, hB0]
    refine tryCap_none_intro hgenc ?_ ?_
    · rcases Nat.lt_or_ge (m0 + 1) D.length with hlt | hge2
      · intro hcon
        apply h1
        rw [List.get?_eq_getElem?, List.getElem?_append_left hlt] at hcon
        rw [List.get?_eq_getElem?, List.getElem?_append_left hlt]
        exact hcon
      · have hm1D : m0 + 1 = D.length := by omega
        intro hcon
        rw [hm1D, List.get?_eq_getElem?, List.getElem?_append_right le_rfl,
          show D.length - D.length = 0 from by omega,
          List.getElem?_append_left (List.length_pos.mpr hE2ne),
          ← List.get?_eq_getElem?] at hcon
        have horig0 : ¬ cap2.get? 0 = some '>' := by
          intro hcon2
          apply h1
          rw [hm1D, List.get?_eq_getElem?, List.getElem?_append_right le_rfl,
            show D.length - D.length = 0 from by omega,
            List.getElem?_append_left (List.length_pos.mpr hc2ne),
            ← List.get?_eq_getElem?]
          exact hcon2
        rcases hheads with hh | hh
        · rw [hh] at hcon
          exact horig0 hcon
        · rw [hh] at hcon
          exact absurd (Option.some.inj hcon) (by decide)
    · rcases h2 with h20 | h2v
      · exact Or.inl h20
      · right
        rw [List.get?_eq_getElem?,
          List.getElem?_append_left (show m0 - 1 < D.length from by omega)] at h2v
        rw [List.get?_eq_getElem?,
          List.getElem?_append_left (show m0 - 1 < D.length from by omega)]
        exact h2v

/-- Transfer of a failing match through the protect pass: if the matcher fails
at a `<`, it still fails there after the rest of the string has been
protected. -/
theorem transfer_nomatch (cs : List Char) (hfail : tryMatchAttr ('<' :: cs) = none) :
    tryMatchAttr ('<' :: attrScan encAttr cs) = none := by
  by_cases hex : ∃ i, (tryMatchAttr (cs.drop i)).isSome = true
  · have hq := Nat.find_spec hex
    have hmin : ∀ i, i < Nat.find hex → tryMatchAttr (cs.drop i) = none := by
      intro i hi
      have h4 := Nat.find_min hex hi
      cases hm : tryMatchAttr (cs.drop i) with
      | none => rfl
      | some p =>
        exfalso
        apply h4
        rw [hm]
        rfl
    obtain ⟨p, hm2⟩ := Option.isSome_iff_exists.mp hq
    obtain ⟨hd2, cap2, rest2⟩ := p
    obtain ⟨W2, hW2, hW2ne, hW2t, hdec2, hc2ne, hc2dl, hc2last, hc2gt, _⟩ :=
      tryMatchAttr_sound hm2
    have hqlen : Nat.find hex < cs.length := by
      by_contra hcon
      push_neg at hcon
      rw [List.drop_eq_nil_of_le hcon] at hm2
      simp [tryMatchAttr] at hm2
    have htakelen : (cs.take (Nat.find hex)).length = Nat.find hex := by
      rw [List.length_take]
      omega
    rw [tryMatchAttr_cons] at hfail
    have hofail : ∀ k, 1 ≤ k → k ≤ wordRun cs → tryCap (cs.drop k) = none := by
      intro k h1 h2
      have h5 := tryTagAux_none_inv ('<' :: cs) (wordRun cs) hfail k h1 h2
      rwa [show ('<' :: cs).drop (k + 1) = cs.drop k from rfl] at h5
    have hrq : wordRun cs ≤ Nat.find hex := by
      by_contra hcon
      push_neg at hcon
      have hhead : cs.get? (Nat.find hex) = some '<' := by
        have h6 : (cs.drop (Nat.find hex)).get? 0 = cs.get? (Nat.find hex + 0) :=
          List.get?_drop cs (Nat.find hex) 0
        rw [hdec2] at h6
        rw [show Nat.find hex + 0 = Nat.find hex from rfl] at h6
        exact h6.symm
      have hmemtake : '<' ∈ cs.take (wordRun cs) := by
        have h7 : (cs.take (wordRun cs)).get? (Nat.find hex) = cs.get? (Nat.find hex) := by
          rw [List.get?_eq_getElem?, List.get?_eq_getElem?, List.getElem?_take_of_lt hcon]
        rw [← h7] at hhead
        exact List.get?_mem hhead
      have := wordRun_take_all cs (wordRun cs) le_rfl '<' hmemtake
      exact absurd this (by decide)
    have hsceq : attrScan encAttr cs
        = cs.take (Nat.find hex) ++ attrScan encAttr (cs.drop (Nat.find hex)) :=
      scan_copy encAttr (Nat.find hex) cs hmin
    have hTstep : attrScan encAttr (cs.drop (Nat.find hex))
        = ('<' :: W2) ++ (encAttr cap2 ++ '>' :: attrScan encAttr rest2) := by
      rw [protect_step hm2, hW2]
    have hws : wordRun (cs.take (Nat.find hex)
        ++ attrScan encAttr (cs.drop (Nat.find hex))) = wordRun cs := by
      have hsplitq : cs.take (Nat.find hex)
          = cs.take (wordRun cs) ++ (cs.take (Nat.find hex)).drop (wordRun cs) := by
        conv_lhs => rw [← List.take_append_drop (wordRun cs) (cs.take (Nat.find hex))]
        rw [List.take_take, Nat.min_eq_left hrq]
      rw [hsplitq, List.append_assoc]
      rw [wordRun_exact (cs.take (wordRun cs)) _ (wordRun_take_all cs (wordRun cs) le_rfl) ?_]
      · rw [List.length_take, Nat.min_eq_left (le_trans hrq (by omega))]
      · intro c hc
        cases hmid : (cs.take (Nat.find hex)).drop (wordRun cs) with
        | cons d rest' =>
          rw [hmid] at hc
          simp at hc
          rw [hc]
          have hmidlen : wordRun cs < Nat.find hex := by
            have h8 := congrArg List.length hmid
            rw [List.length_drop, htakelen] at h8
            simp at h8
            omega
          have hd : cs.get? (wordRun cs) = some d := by
            have h9 : (cs.take (Nat.find hex)).get? (wordRun cs) = some d := by
              have h9a := congrArg (fun l => List.get? l 0) hmid
              simp only [List.get?_drop] at h9a
              simpa using h9a
            rw [List.get?_eq_getElem?, List.getElem?_take_of_lt hmidlen,
              ← List.get?_eq_getElem?] at h9
            exact h9
          exact wordRun_stop cs d hd
        | nil =>
          rw [hmid] at hc
          simp at hc
          rw [hTstep] at hc
          simp at hc
          rw [hc]
          decide
    rw [tryMatchAttr_cons, hsceq, hws]
    refine tryTagAux_none _ _ ?_
    intro k hk1 hk2
    rw [show ('<' :: (cs.take (Nat.find hex) ++ attrScan encAttr (cs.drop (Nat.find hex)))).drop (k + 1)
        = (cs.take (Nat.find hex) ++ attrScan encAttr (cs.drop (Nat.find hex))).drop k from rfl]
    have hkq : k ≤ Nat.find hex := le_trans hk2 hrq
    rw [List.drop_append_of_le_length (by rw [htakelen]; omega)]
    rw [hTstep]
    have horig : tryCap (((cs.take (Nat.find hex)).drop k ++ ('<' :: W2))
        ++ (cap2 ++ '>' :: rest2)) = none := by
      have h10 := hofail k hk1 hk2
      have e1 : cs.drop k = (cs.take (Nat.find hex)).drop k ++ cs.drop (Nat.find hex) := by
        conv_lhs => rw [← List.take_append_drop (Nat.find hex) cs]
        rw [List.drop_append_of_le_length (by rw [htakelen]; omega)]
      rw [e1, hdec2] at h10
      rw [show ('<' :: (W2 ++ (cap2 ++ '>' :: rest2))) = ('<' :: W2) ++ (cap2 ++ '>' :: rest2)
        from rfl] at h10
      rw [← List.append_assoc] at h10
      exact h10
    have htrans := tryCap_none_transfer ((cs.take (Nat.find hex)).drop k ++ ('<' :: W2))
      cap2 rest2 (encAttr cap2) (attrScan encAttr rest2) horig hc2ne hc2dl hc2last
      (encAttr_ne_nil hc2ne) (encAttr_heads cap2 hc2ne)
    rw [List.append_assoc] at htrans
    exact htrans
  · have hall : ∀ i, tryMatchAttr (cs.drop i) = none := by
      intro i
      cases hm : tryMatchAttr (cs.drop i) with
      | none => rfl
      | some p =>
        exfalso
        apply hex
        exact ⟨i, by rw [hm]; rfl⟩
    rw [scan_id_of_nomatch encAttr cs hall]
    exact hfail


/-- Each block's characters land in the block map. -/
theorem blockMap_mem_of {g : Char → List Char} {l : List Char} {c x : Char}
    (hc : c ∈ l) (hx : x ∈ g c) : x ∈ blockMap g l := by
  induction l with
  | nil => simp at hc
  | cons d ds ih =>
    rw [show blockMap g (d :: ds) = g d ++ blockMap g ds from rfl]
    rcases List.mem_cons.mp hc with rfl | h
    · exact List.mem_append.mpr (Or.inl hx)
    · exact List.mem_append.mpr (Or.inr (ih h))

/-- Encoding a whitespace character introduces a `!`. -/
theorem encChar_ws_bang {x : Char} (h : isWsJS x = true) : '!' ∈ encChar x := by
  unfold encChar
  by_cases h1 : x = '\n'
  · rw [if_pos h1]
    decide
  · rw [if_neg h1]
    by_cases h2 : x = '\r'
    · rw [if_pos h2]
      decide
    · rw [if_neg h2, if_pos h]
      decide

/-- The round trip `unprotect ∘ protect` is the identity on inputs whose
whitespace is restricted to newline, carriage return and space, and which do
not contain the sentinel tail `i-£___£%_`. -/
theorem attr_roundtrip : ∀ (n : Nat) (s : List Char), s.length ≤ n →
    containsSub sentTail s = false →
    (∀ c ∈ s, isWsJS c = true → c = '\n' ∨ c = '\r' ∨ c = ' ') →
    attrScan decAttr (attrScan encAttr s) = s := by
  intro n
  induction n using Nat.strong_induction_on with
  | _ n ih =>
    intro s hlen hT hWall
    cases hm : tryMatchAttr s with
    | none =>
      cases s with
      | nil => rfl
      | cons c cs =>
        rw [attrScan_nomatch encAttr c cs hm]
        have htrans : tryMatchAttr (c :: attrScan encAttr cs) = none := by
          by_cases hc : c = '<'
          · subst hc
            exact transfer_nomatch cs hm
          · exact tryMatchAttr_nonlt c _ hc
        rw [attrScan_nomatch decAttr c _ htrans]
        congr 1
        simp only [List.length_cons] at hlen
        exact ih cs.length (by omega) cs le_rfl (containsSub_cons_false hT).2
          (fun d hd hw => hWall d (List.mem_cons_of_mem _ hd) hw)
    | some p =>
      obtain ⟨hd, cap, rest⟩ := p
      obtain ⟨W, hW2, hWne, hWt, hdec, hcne, hcdl, hclast, hcgt, hfst⟩ := tryMatchAttr_sound hm
      have hpro : attrScan encAttr s = hd ++ (encAttr cap ++ '>' :: attrScan encAttr rest) :=
        protect_step hm
      obtain ⟨hT1, hT2, hT3, hT4, hT5⟩ := enc_transport hcne hcdl hclast hfst
      have hcgt2 : (encAttr cap).getLast? = some '>' ∨
          ¬ (attrScan encAttr rest).get? 0 = some '>' := by
        rcases hcgt with hg | hg
        · exact Or.inl (hT4.mpr hg)
        · right
          intro hcon
          exact hg (protect_head rest hcon)
      have hre := tryMatchAttr_rematch W (encAttr cap) (attrScan encAttr rest)
        hWne hWt hT1 hT2 hT3 hcgt2 hT5
      have hmatch2 : tryMatchAttr (hd ++ (encAttr cap ++ '>' :: attrScan encAttr rest))
          = some (hd, encAttr cap, attrScan encAttr rest) := by
        rw [hW2]
        exact hre
      rw [hpro, attrScan_match decAttr hmatch2]
      have hcapT : containsSub sentTail cap = false := by
        refine containsSub_infix_false ('<' :: W) ('>' :: rest) ?_
        rw [show (('<' :: W) ++ cap) ++ '>' :: rest
            = '<' :: (W ++ (cap ++ '>' :: rest)) from by simp]
        rw [← hdec]
        exact hT
      have hcapW : ∀ c ∈ cap, isWsJS c = true → c = '\n' ∨ c = '\r' ∨ c = ' ' := by
        intro d hdm hw
        refine hWall d ?_ hw
        rw [hdec]
        simp [hdm]
      have hplace : replaceFirst (encAttr cap) (decAttr (encAttr cap))
          (hd ++ encAttr cap ++ ['>']) = hd ++ cap ++ ['>'] := by
        cases hws : cap.any isWsJS with
        | false =>
          have hwf : ∀ c ∈ cap, isWsJS c = false := by
            intro c hc
            cases hcc : isWsJS c with
            | false => rfl
            | true =>
              exfalso
              have h6 : cap.any isWsJS = true := List.any_eq_true.mpr ⟨c, hc, hcc⟩
              rw [hws] at h6
              exact Bool.false_ne_true h6
          rw [encAttr_id cap hwf, decAttr_id cap hcapT, replaceFirst_self]
        | true =>
          have hbang : (encAttr cap).any (· = '!') = true := by
            obtain ⟨x, hx1, hx2⟩ := List.any_eq_true.mp hws
            refine List.any_eq_true.mpr ⟨'!', ?_, by decide⟩
            rw [encAttr_blocks]
            exact blockMap_mem_of hx1 (encChar_ws_bang hx2)
          have hB : ∀ c ∈ hd, (fun d => decide (d = '!')) c = false := by
            intro c hc
            rw [hW2] at hc
            rcases List.mem_cons.mp hc with rfl | hc2
            · decide
            · have ht := hWt c hc2
              cases hde : decide (c = '!') with
              | false => simpa using hde
              | true =>
                exfalso
                rw [of_decide_eq_true hde] at ht
                exact absurd ht (by decide)
          have hnoe := no_early_occurrence (fun d => decide (d = '!')) hd (encAttr cap) '>'
            hB hbang
          rw [show hd ++ encAttr cap ++ ['>'] = hd ++ (encAttr cap ++ ['>']) from by simp]
          rw [replaceFirst_skip _ _ hd _ hnoe, replaceFirst_head _ _ _ hT1]
          rw [decAttr_encAttr cap hcapT hcapW]
          simp
      rw [hplace]
      have hrlt := tryMatchAttr_rest_lt hm
      have hrestT : containsSub sentTail rest = false := by
        refine containsSub_infix_false (('<' :: W) ++ cap ++ ['>']) [] ?_
        rw [List.append_nil]
        rw [show ((('<' :: W) ++ cap ++ ['>']) ++ rest)
            = '<' :: (W ++ (cap ++ '>' :: rest)) from by simp]
        rw [← hdec]
        exact hT
      have hrestW : ∀ c ∈ rest, isWsJS c = true → c = '\n' ∨ c = '\r' ∨ c = ' ' := by
        intro d hdm hw
        refine hWall d ?_ hw
        rw [hdec]
        simp [hdm]
      rw [ih rest.length (by omega) rest le_rfl hrestT hrestW]
      rw [hdec, hW2]
      simp


/-! ## Claim C1 -/

/-- C1 counterexample: the spec claims the protect → unprotect round trip is
the identity for every whitespace class whenever the input does not already
contain the sentinel text.  But the unprotect callback decodes every
generic-whitespace token to a plain space, so a tab inside an attribute
region comes back as a space: `<a\tx>` round-trips to `<a x>` even though it
contains no occurrence of the sentinel `!i-£___£%_`. -/
theorem protectAttributes_roundtrip_cex :
    unprotectAttributes (protectAttributes "<a\tx>") = "<a x>"
    ∧ ¬ "<a x>" = "<a\tx>"
    ∧ containsSub ATTRIBUTE_IGNORE_STRING "<a\tx>".data = false :=
  ⟨rfl, by decide, by decide⟩

/-- C1 (amended): the protect → unprotect round trip restores the input
exactly, provided every whitespace character of the input is a newline, a
carriage return or a plain space (the three classes with distinct tokens),
and the input does not contain the sentinel tail `i-£___£%_` (the sentinel
minus its leading `!`; a token boundary followed by that tail would decode
as a spurious token). -/
theorem protectAttributes_roundtrip_amended :
    ∀ h : String, containsSub sentTail h.data = false →
      (∀ c ∈ h.data, isWsJS c = true → c = '\n' ∨ c = '\r' ∨ c = ' ') →
      unprotectAttributes (protectAttributes h) = h := by
  intro hs hT hW
  cases hs with
  | mk d =>
    show (⟨attrScan decAttr (attrScan encAttr d)⟩ : String) = ⟨d⟩
    rw [attr_roundtrip d.length d le_rfl hT hW]

/-- C1 witness: the amended round trip on the specification's own example
`<div title="a\nb">text</div>`. -/
theorem protectAttributes_roundtrip_amended_witness :
    unprotectAttributes (protectAttributes "<div title=\"a\nb\">text</div>")
      = "<div title=\"a\nb\">text</div>" :=
  protectAttributes_roundtrip_amended "<div title=\"a\nb\">text</div>"
    (by decide) (by decide)


/-- The element-ignore encode callback acts as an independent block per
character (default sentinel). -/
theorem encIgn_cons (c : Char) (cs : List Char) :
    encIgn XKEY (c :: cs) = igChar c ++ encIgn XKEY cs := by
  have h0 : encIgn XKEY (c :: cs)
      = charReplace isWsJS igTokWs (charReplace (· = '\r') igTokCr
          (charReplace (· = '\n') igTokNl (charReplace (· = '>') igTokGt
            (charReplace (· = '<') igTokLt (c :: cs))))) := rfl
  have hrest : charReplace isWsJS igTokWs (charReplace (· = '\r') igTokCr
      (charReplace (· = '\n') igTokNl (charReplace (· = '>') igTokGt
        (charReplace (· = '<') igTokLt cs)))) = encIgn XKEY cs := rfl
  rw [h0, charReplace_cons (· = '<') igTokLt c cs, charReplace_append, charReplace_append,
    charReplace_append, charReplace_append, hrest]
  congr 1
  by_cases h1 : c = '<'
  · subst h1
    rfl
  · rw [if_neg (by simp [h1])]
    rw [show charReplace (· = '>') igTokGt [c]
        = (if decide (c = '>') = true then igTokGt else [c]) ++ ([] : List Char) from rfl,
      List.append_nil]
    by_cases h2 : c = '>'
    · subst h2
      rfl
    · rw [if_neg (by simp [h2])]
      rw [show charReplace (· = '\n') igTokNl [c]
          = (if decide (c = '\n') = true then igTokNl else [c]) ++ ([] : List Char) from rfl,
        List.append_nil]
      by_cases h3 : c = '\n'
      · subst h3
        rfl
      · rw [if_neg (by simp [h3])]
        rw [show charReplace (· = '\r') igTokCr [c]
            = (if decide (c = '\r') = true then igTokCr else [c]) ++ ([] : List Char) from rfl,
          List.append_nil]
        by_cases h4 : c = '\r'
        · subst h4
          rfl
        · rw [if_neg (by simp [h4])]
          rw [show charReplace isWsJS igTokWs [c]
              = (if isWsJS c = true then igTokWs else [c]) ++ ([] : List Char) from rfl,
            List.append_nil]
          by_cases h5 : isWsJS c = true
          · rw [if_pos h5]
            simp [igChar, h1, h2, h3, h4, h5]
          · rw [if_neg (by simp [h5]),
              show igChar c = [c] from by simp [igChar, h1, h2, h3, h4, h5]]

/-- The element-ignore encode callback as a block map. -/
theorem encIgn_blocks (C : List Char) : encIgn XKEY C = blockMap igChar C := by
  induction C with
  | nil => rfl
  | cons c cs ih =>
    rw [encIgn_cons, ih]
    rfl

/-- Element-ignore decode stage 1. -/
theorem ig_decode1 (C : List Char) (hk : containsSub XKEY C = false) :
    replaceAll igTokLt ['<'] (blockMap igChar C) = blockMap igStage1 C := by
  refine stage_decode igChar igStage1 igTokLt XKEY '<'
    [igTokLt, igTokGt, igTokNl, igTokCr, igTokWs]
    (by decide) (by decide) (by decide) ?_ (by simp) ?_ ?_ C hk
  · intro c
    by_cases h1 : c = '<'
    · subst h1
      exact Or.inl ⟨rfl, rfl⟩
    ·
      by_cases h2 : c = '>'
      · subst h2
        exact Or.inr ⟨rfl, by decide, Or.inr (by decide)⟩
      ·
        by_cases h3 : c = '\n'
        · subst h3
          exact Or.inr ⟨rfl, by decide, Or.inr (by decide)⟩
        ·
          by_cases h4 : c = '\r'
          · subst h4
            exact Or.inr ⟨rfl, by decide, Or.inr (by decide)⟩
          by_cases h5 : isWsJS c = true
          · have e1 : igChar c = igTokWs := by simp [igChar, h1, h2, h3, h4, h5]
            have e2 : igStage1 c = igTokWs := by simp [igStage1, h1, h2, h3, h4, h5]
            rw [e1, e2]
            exact Or.inr ⟨rfl, by decide, Or.inr (by simp)⟩
          · have e1 : igChar c = [c] := by simp [igChar, h1, h2, h3, h4, h5]
            have e2 : igStage1 c = [c] := by simp [igStage1, h1, h2, h3, h4, h5]
            rw [e1, e2]
            refine Or.inr ⟨rfl, ?_, Or.inl rfl⟩
            intro hcon
            have hl := congrArg List.length hcon
            rw [show (igTokLt).length = 15 from by decide] at hl
            simp at hl
  · intro B hB
    simp only [List.mem_cons, List.mem_singleton, List.not_mem_nil, or_false] at hB
    rcases hB with h | h | h | h | h <;> (subst h; decide)
  · intro B hB
    simp only [List.mem_cons, List.mem_singleton, List.not_mem_nil, or_false] at hB
    rcases hB with h | h | h | h | h
    · exact Or.inl h
    · subst h
      exact Or.inr (by decide)
    · subst h
      exact Or.inr (by decide)
    · subst h
      exact Or.inr (by decide)
    · subst h
      exact Or.inr (by decide)

/-- Element-ignore decode stage 2. -/
theorem ig_decode2 (C : List Char) (hk : containsSub XKEY C = false) :
    replaceAll igTokGt ['>'] (blockMap igStage1 C) = blockMap igStage2 C := by
  refine stage_decode igStage1 igStage2 igTokGt XKEY '>'
    [igTokLt, igTokGt, igTokNl, igTokCr, igTokWs]
    (by decide) (by decide) (by decide) ?_ (by simp) ?_ ?_ C hk
  · intro c
    by_cases h1 : c = '<'
    · subst h1
      exact Or.inr ⟨rfl, by decide, Or.inl rfl⟩
    ·
      by_cases h2 : c = '>'
      · subst h2
        exact Or.inl ⟨rfl, rfl⟩
      ·
        by_cases h3 : c = '\n'
        · subst h3
          exact Or.inr ⟨rfl, by decide, Or.inr (by decide)⟩
        ·
          by_cases h4 : c = '\r'
          · subst h4
            exact Or.inr ⟨rfl, by decide, Or.inr (by decide)⟩
          by_cases h5 : isWsJS c = true
          · have e1 : igStage1 c = igTokWs := by simp [igStage1, h1, h2, h3, h4, h5]
            have e2 : igStage2 c = igTokWs := by simp [igStage2, h1, h2, h3, h4, h5]
            rw [e1, e2]
            exact Or.inr ⟨rfl, by decide, Or.inr (by simp)⟩
          · have e1 : igStage1 c = [c] := by simp [igStage1, h1, h2, h3, h4, h5]
            have e2 : igStage2 c = [c] := by simp [igStage2, h1, h2, h3, h4, h5]
            rw [e1, e2]
            refine Or.inr ⟨rfl, ?_, Or.inl rfl⟩
            intro hcon
            have hl := congrArg List.length hcon
            rw [show (igTokGt).length = 15 from by decide] at hl
            simp at hl
  · intro B hB
    simp only [List.mem_cons, List.mem_singleton, List.not_mem_nil, or_false] at hB
    rcases hB with h | h | h | h | h <;> (subst h; decide)
  · intro B hB
    simp only [List.mem_cons, List.mem_singleton, List.not_mem_nil, or_false] at hB
    rcases hB with h | h | h | h | h
    · subst h
      exact Or.inr (by decide)
    · exact Or.inl h
    · subst h
      exact Or.inr (by decide)
    · subst h
      exact Or.inr (by decide)
    · subst h
      exact Or.inr (by decide)

/-- Element-ignore decode stage 3. -/
theorem ig_decode3 (C : List Char) (hk : containsSub XKEY C = false) :
    replaceAll igTokNl ['\n'] (blockMap igStage2 C) = blockMap igStage3 C := by
  refine stage_decode igStage2 igStage3 igTokNl XKEY '\n'
    [igTokLt, igTokGt, igTokNl, igTokCr, igTokWs]
    (by decide) (by decide) (by decide) ?_ (by simp) ?_ ?_ C hk
  · intro c
    by_cases h1 : c = '<'
    · subst h1
      exact Or.inr ⟨rfl, by decide, Or.inl rfl⟩
    ·
      by_cases h2 : c = '>'
      · subst h2
        exact Or.inr ⟨rfl, by decide, Or.inl rfl⟩
      ·
        by_cases h3 : c = '\n'
        · subst h3
          exact Or.inl ⟨rfl, rfl⟩
        ·
          by_cases h4 : c = '\r'
          · subst h4
            exact Or.inr ⟨rfl, by decide, Or.inr (by decide)⟩
          by_cases h5 : isWsJS c = true
          · have e1 : igStage2 c = igTokWs := by simp [igStage2, h1, h2, h3, h4, h5]
            have e2 : igStage3 c = igTokWs := by simp [igStage3, h1, h2, h3, h4, h5]
            rw [e1, e2]
            exact Or.inr ⟨rfl, by decide, Or.inr (by simp)⟩
          · have e1 : igStage2 c = [c] := by simp [igStage2, h1, h2, h3, h4, h5]
            have e2 : igStage3 c = [c] := by simp [igStage3, h1, h2, h3, h4, h5]
            rw [e1, e2]
            refine Or.inr ⟨rfl, ?_, Or.inl rfl⟩
            intro hcon
            have hl := congrArg List.length hcon
            rw [show (igTokNl).length = 15 from by decide] at hl
            simp at hl
  · intro B hB
    simp only [List.mem_cons, List.mem_singleton, List.not_mem_nil, or_false] at hB
    rcases hB with h | h | h | h | h <;> (subst h; decide)
  · intro B hB
    simp only [List.mem_cons, List.mem_singleton, List.not_mem_nil, or_false] at hB
    rcases hB with h | h | h | h | h
    · subst h
      exact Or.inr (by decide)
    · subst h
      exact Or.inr (by decide)
    · exact Or.inl h
    · subst h
      exact Or.inr (by decide)
    · subst h
      exact Or.inr (by decide)

/-- Element-ignore decode stage 4. -/
theorem ig_decode4 (C : List Char) (hk : containsSub XKEY C = false) :
    replaceAll igTokCr ['\r'] (blockMap igStage3 C) = blockMap igStage4 C := by
  refine stage_decode igStage3 igStage4 igTokCr XKEY '\r'
    [igTokLt, igTokGt, igTokNl, igTokCr, igTokWs]
    (by decide) (by decide) (by decide) ?_ (by simp) ?_ ?_ C hk
  · intro c
    by_cases h1 : c = '<'
    · subst h1
      exact Or.inr ⟨rfl, by decide, Or.inl rfl⟩
    ·
      by_cases h2 : c = '>'
      · subst h2
        exact Or.inr ⟨rfl, by decide, Or.inl rfl⟩
      ·
        by_cases h3 : c = '\n'
        · subst h3
          exact Or.inr ⟨rfl, by decide, Or.inl rfl⟩
        ·
          by_cases h4 : c = '\r'
          · subst h4
            exact Or.inl ⟨rfl, rfl⟩
          by_cases h5 : isWsJS c = true
          · have e1 : igStage3 c = igTokWs := by simp [igStage3, h1, h2, h3, h4, h5]
            have e2 : igStage4 c = igTokWs := by simp [igStage4, h1, h2, h3, h4, h5]
            rw [e1, e2]
            exact Or.inr ⟨rfl, by decide, Or.inr (by simp)⟩
          · have e1 : igStage3 c = [c] := by simp [igStage3, h1, h2, h3, h4, h5]
            have e2 : igStage4 c = [c] := by simp [igStage4, h1, h2, h3, h4, h5]
            rw [e1, e2]
            refine Or.inr ⟨rfl, ?_, Or.inl rfl⟩
            intro hcon
            have hl := congrArg List.length hcon
            rw [show (igTokCr).length = 15 from by decide] at hl
            simp at hl
  · intro B hB
    simp only [List.mem_cons, List.mem_singleton, List.not_mem_nil, or_false] at hB
    rcases hB with h | h | h | h | h <;> (subst h; decide)
  · intro B hB
    simp only [List.mem_cons, List.mem_singleton, List.not_mem_nil, or_false] at hB
    rcases hB with h | h | h | h | h
    · subst h
      exact Or.inr (by decide)
    · subst h
      exact Or.inr (by decide)
    · subst h
      exact Or.inr (by decide)
    · exact Or.inl h
    · subst h
      exact Or.inr (by decide)

/-- Element-ignore decode stage 5. -/
theorem ig_decode5 (C : List Char) (hk : containsSub XKEY C = false) :
    replaceAll igTokWs [' '] (blockMap igStage4 C) = blockMap igStage5 C := by
  refine stage_decode igStage4 igStage5 igTokWs XKEY ' '
    [igTokLt, igTokGt, igTokNl, igTokCr, igTokWs]
    (by decide) (by decide) (by decide) ?_ (by simp) ?_ ?_ C hk
  · intro c
    by_cases h1 : c = '<'
    · subst h1
      exact Or.inr ⟨rfl, by decide, Or.inl rfl⟩
    ·
      by_cases h2 : c = '>'
      · subst h2
        exact Or.inr ⟨rfl, by decide, Or.inl rfl⟩
      ·
        by_cases h3 : c = '\n'
        · subst h3
          exact Or.inr ⟨rfl, by decide, Or.inl rfl⟩
        ·
          by_cases h4 : c = '\r'
          · subst h4
            exact Or.inr ⟨rfl, by decide, Or.inl rfl⟩
          by_cases h5 : isWsJS c = true
          · have e1 : igStage4 c = igTokWs := by simp [igStage4, h1, h2, h3, h4, h5]
            have e2 : igStage5 c = [' '] := by simp [igStage5, h1, h2, h3, h4, h5]
            rw [e1, e2]
            exact Or.inl ⟨rfl, rfl⟩
          · have e1 : igStage4 c = [c] := by simp [igStage4, h1, h2, h3, h4, h5]
            have e2 : igStage5 c = [c] := by simp [igStage5, h1, h2, h3, h4, h5]
            rw [e1, e2]
            refine Or.inr ⟨rfl, ?_, Or.inl rfl⟩
            intro hcon
            have hl := congrArg List.length hcon
            rw [show (igTokWs).length = 15 from by decide] at hl
            simp at hl
  · intro B hB
    simp only [List.mem_cons, List.mem_singleton, List.not_mem_nil, or_false] at hB
    rcases hB with h | h | h | h | h <;> (subst h; decide)
  · intro B hB
    simp only [List.mem_cons, List.mem_singleton, List.not_mem_nil, or_false] at hB
    rcases hB with h | h | h | h | h
    · subst h
      exact Or.inr (by decide)
    · subst h
      exact Or.inr (by decide)
    · subst h
      exact Or.inr (by decide)
    · subst h
      exact Or.inr (by decide)
    · exact Or.inl h


/-- With whitespace restricted to newline, carriage return and space, the
final element-ignore stage map is the identity. -/
theorem blockMap_igStage5_id (C : List Char)
    (hW : ∀ c ∈ C, isWsJS c = true → c = '\n' ∨ c = '\r' ∨ c = ' ') :
    blockMap igStage5 C = C := by
  induction C with
  | nil => rfl
  | cons c cs ih =>
    rw [show blockMap igStage5 (c :: cs) = igStage5 c ++ blockMap igStage5 cs from rfl]
    rw [ih (fun d hd hw => hW d (List.mem_cons_of_mem _ hd) hw)]
    by_cases h1 : c = '<'
    · subst h1
      rfl
    · by_cases h2 : c = '>'
      · subst h2
        rfl
      · by_cases h3 : c = '\n'
        · subst h3
          rfl
        · by_cases h4 : c = '\r'
          · subst h4
            rfl
          · by_cases h5 : isWsJS c = true
            · rcases hW c (List.mem_cons_self _ _) h5 with h | h | h
              · exact absurd h h3
              · exact absurd h h4
              · subst h
                rfl
            · rw [show igStage5 c = [c] from by simp [igStage5, h1, h2, h3, h4, h5]]
              rfl

/-- The element-ignore decode callback inverts the encode callback on
sentinel-free, whitespace-restricted content. -/
theorem decIgn_encIgn (C : List Char) (hk : containsSub XKEY C = false)
    (hW : ∀ c ∈ C, isWsJS c = true → c = '\n' ∨ c = '\r' ∨ c = ' ') :
    decIgn XKEY (encIgn XKEY C) = C := by
  rw [show decIgn XKEY (encIgn XKEY C)
      = replaceAll igTokWs [' '] (replaceAll igTokCr ['\r'] (replaceAll igTokNl ['\n']
          (replaceAll igTokGt ['>'] (replaceAll igTokLt ['<'] (encIgn XKEY C))))) from rfl]
  rw [encIgn_blocks C, ig_decode1 C hk, ig_decode2 C hk, ig_decode3 C hk, ig_decode4 C hk,
    ig_decode5 C hk, blockMap_igStage5_id C hW]

/-! ## The element scan on a single well-placed ignored element -/

/-- Characters produced by the per-character element-ignore encode map are
never the opening bracket and always lie in the class matched by the lazy
group. -/
theorem igChar_encoded (c : Char) : ∀ x ∈ igChar c, ¬ x = '<' ∧ isDotNl x = true := by
  intro x hx
  unfold igChar at hx
  by_cases h1 : c = '<'
  · rw [if_pos h1] at hx
    exact (by decide : ∀ y ∈ igTokLt, ¬ y = '<' ∧ isDotNl y = true) x hx
  · rw [if_neg h1] at hx
    by_cases h2 : c = '>'
    · rw [if_pos h2] at hx
      exact (by decide : ∀ y ∈ igTokGt, ¬ y = '<' ∧ isDotNl y = true) x hx
    · rw [if_neg h2] at hx
      by_cases h3 : c = '\n'
      · rw [if_pos h3] at hx
        exact (by decide : ∀ y ∈ igTokNl, ¬ y = '<' ∧ isDotNl y = true) x hx
      · rw [if_neg h3] at hx
        by_cases h4 : c = '\r'
        · rw [if_pos h4] at hx
          exact (by decide : ∀ y ∈ igTokCr, ¬ y = '<' ∧ isDotNl y = true) x hx
        · rw [if_neg h4] at hx
          by_cases h5 : isWsJS c = true
          · rw [if_pos h5] at hx
            exact (by decide : ∀ y ∈ igTokWs, ¬ y = '<' ∧ isDotNl y = true) x hx
          · rw [if_neg h5] at hx
            have hxc : x = c := by simpa using hx
            subst hxc
            refine ⟨h1, ?_⟩
            by_contra hno
            have hno2 : ¬ x = '\x0d' → ¬ x.val = 8232 → x.val = 8233 := by
              simpa [isDotNl] using hno
            by_cases hA : x = '\r'
            · exact h4 hA
            · by_cases hB : x.val = 8232
              · refine h5 ?_
                have hdis : decide (x.val = 0x2028) = true := by
                  rw [hB]
                  rfl
                simp [isWsJS, hdis]
              · have hC : x.val = 8233 := hno2 hA hB
                refine h5 ?_
                have hdis : decide (x.val = 0x2029) = true := by
                  rw [hC]
                  rfl
                simp [isWsJS, hdis]

/-- Every per-character block of the element-ignore encode map is nonempty. -/
theorem igChar_ne_nil (c : Char) : igChar c ≠ [] := by
  unfold igChar
  split_ifs <;> first | decide | simp

/-- The element-ignore encoding of a nonempty content is nonempty. -/
theorem encIgn_ne_nil (C : List Char) (h : C ≠ []) : encIgn XKEY C ≠ [] := by
  cases C with
  | nil => exact absurd rfl h
  | cons c cs =>
    rw [encIgn_cons]
    intro he
    rcases List.append_eq_nil.mp he with ⟨he1, _⟩
    exact igChar_ne_nil c he1

/-- The lazy group stops exactly at the first occurrence of the closing
literal. -/
theorem lazyCap_split (cl : List Char) (hcl : cl ≠ []) :
    ∀ C v, (∀ c ∈ C, isDotNl c = true) →
    (∀ j, j < C.length → cl.isPrefixOf ((C ++ (cl ++ v)).drop j) = false) →
    lazyCap cl (C ++ (cl ++ v)) = some (C, v) := by
  intro C
  induction C with
  | nil =>
    intro v _ _
    obtain ⟨a, as, rfl⟩ : ∃ a as, cl = a :: as := by
      cases cl with
      | nil => exact absurd rfl hcl
      | cons a as => exact ⟨a, as, rfl⟩
    show lazyCap (a :: as) (a :: (as ++ v)) = some ([], v)
    have hstep : lazyCap (a :: as) (a :: (as ++ v))
        = if (a :: as).isPrefixOf (a :: (as ++ v)) then
            some ([], (a :: (as ++ v)).drop (a :: as).length)
          else if isDotNl a then (lazyCap (a :: as) (as ++ v)).map (fun p => (a :: p.1, p.2))
          else none := rfl
    rw [hstep, show a :: (as ++ v) = (a :: as) ++ v from rfl,
      if_pos (prefixOf_self_append (a :: as) v), List.drop_left]
  | cons c C ih =>
    intro v hC hocc
    have hne : cl.isPrefixOf (c :: (C ++ (cl ++ v))) = false := by
      have := hocc 0 (by simp)
      simpa using this
    have hstep : lazyCap cl (c :: (C ++ (cl ++ v)))
        = if cl.isPrefixOf (c :: (C ++ (cl ++ v))) then
            some ([], (c :: (C ++ (cl ++ v))).drop cl.length)
          else if isDotNl c then (lazyCap cl (C ++ (cl ++ v))).map (fun p => (c :: p.1, p.2))
          else none := rfl
    show lazyCap cl (c :: (C ++ (cl ++ v))) = some (c :: C, v)
    rw [hstep, if_neg (show ¬ cl.isPrefixOf (c :: (C ++ (cl ++ v))) = true by rw [hne]; simp),
      if_pos (hC c (List.mem_cons_self _ _)),
      ih v (fun d hd => hC d (List.mem_cons_of_mem _ hd)) (fun j hj => by
        have := hocc (j + 1) (by simp only [List.length_cons]; omega)
        simpa using this)]
    rfl

/-- The element matcher succeeds on an assembled single-element string. -/
theorem tryMatchElem_split (t R C v : List Char) (hR : ∀ c ∈ R, ¬ c = '>')
    (hC : ∀ c ∈ C, isDotNl c = true)
    (hocc : ∀ j, j < C.length →
      (closeTag t).isPrefixOf ((C ++ (closeTag t ++ v)).drop j) = false) :
    tryMatchElem t ('<' :: (t ++ (R ++ '>' :: (C ++ (closeTag t ++ v)))))
      = some ('<' :: (t ++ R ++ ['>']), C, v) := by
  have hclne : closeTag t ≠ [] := by simp [closeTag]
  have hpre : ('<' :: t).isPrefixOf ('<' :: (t ++ (R ++ '>' :: (C ++ (closeTag t ++ v))))) = true := by
    rw [show ('<' :: (t ++ (R ++ '>' :: (C ++ (closeTag t ++ v)))))
        = ('<' :: t) ++ (R ++ '>' :: (C ++ (closeTag t ++ v))) from rfl]
    exact prefixOf_self_append _ _
  have hdrop : ('<' :: (t ++ (R ++ '>' :: (C ++ (closeTag t ++ v))))).drop (t.length + 1)
      = R ++ '>' :: (C ++ (closeTag t ++ v)) := by
    rw [show ('<' :: (t ++ (R ++ '>' :: (C ++ (closeTag t ++ v))))).drop (t.length + 1)
        = (t ++ (R ++ '>' :: (C ++ (closeTag t ++ v)))).drop t.length from rfl, List.drop_left]
  have h1 : ngtRun (('<' :: (t ++ (R ++ '>' :: (C ++ (closeTag t ++ v))))).drop (t.length + 1))
      = some (R, C ++ (closeTag t ++ v)) := by
    rw [hdrop]
    exact ngtRun_split R _ hR
  have h2 : lazyCap (closeTag t) (C ++ (closeTag t ++ v)) = some (C, v) :=
    lazyCap_split (closeTag t) hclne C v hC hocc
  unfold tryMatchElem
  rw [if_pos hpre]
  simp only [h1, h2]

/-- Scanner equation for a match at the head whose remainder is empty. -/
theorem elemScan_match_nil (t : List Char) (f : List Char → List Char) {s hd cap : List Char}
    (hm : tryMatchElem t s = some (hd, cap, [])) :
    elemScan t f s = replaceFirst cap (f cap) (hd ++ cap ++ closeTag t) := by
  cases s with
  | nil =>
    rw [show tryMatchElem t [] = none from rfl] at hm
    exact absurd hm (by simp)
  | cons c cs =>
    show elemScanF t f (c :: cs).length (c :: cs) = _
    simp only [List.length_cons, elemScanF, hm]
    rw [show elemScanF t f cs.length [] = [] from by cases cs.length <;> rfl, List.append_nil]

/-- A pattern starting with the opening bracket never begins inside a
bracket-free block. -/
theorem no_close_in (Cp v cl : List Char) (hhd : cl.get? 0 = some '<')
    (hlt : ∀ c ∈ Cp, ¬ c = '<') :
    ∀ j, j < Cp.length → cl.isPrefixOf ((Cp ++ v).drop j) = false := by
  intro j hj
  cases hp : cl.isPrefixOf ((Cp ++ v).drop j) with
  | false => rfl
  | true =>
    exfalso
    obtain ⟨tl, htl⟩ := List.isPrefixOf_iff_prefix.mp hp
    have hcl : 0 < cl.length := by
      cases cl with
      | nil => simp at hhd
      | cons a as => simp
    have h1 : ((Cp ++ v).drop j).get? 0 = some '<' := by
      rw [← htl, List.get?_eq_getElem?, List.getElem?_append_left hcl,
        ← List.get?_eq_getElem?]
      exact hhd
    rw [List.get?_drop] at h1
    rw [List.get?_eq_getElem?, List.getElem?_append_left (by omega : j + 0 < Cp.length)] at h1
    have h2 : Cp.get? (j + 0) = some '<' := by
      rw [List.get?_eq_getElem?]
      exact h1
    exact hlt '<' (List.get?_mem h2) rfl

/-- C2 (counterexample): with the default sentinel, a tab inside the ignored
element's content is encoded by the generic whitespace token and decoded back
as a plain space, so the round trip is not the identity even though the input
is sentinel-free. -/
theorem setIgnoreElement_roundtrip_cex :
    unsetIgnoreElement
        (setIgnoreElement "<script>\ta</script>"
          ⟨["script"], "_!i-£___£%_", false, 2, false, 80, []⟩)
        ⟨["script"], "_!i-£___£%_", false, 2, false, 80, []⟩
      = "<script> a</script>"
    ∧ ¬ ("<script> a</script>" : String) = "<script>\ta</script>"
    ∧ containsSub XKEY "<script>\ta</script>".data = false :=
  ⟨by decide, by decide, by decide⟩

/-- C2: on a single ignored element `<t R>C</t>` whose attribute run is
bracket-free, whose content is nonempty, lazily matchable, free of the
sentinel and of the closing tag, whose whitespace is restricted to newline,
carriage return and space, and whose raw and encoded contents both first
occur after the opening tag, the decode scan inverts the encode scan
exactly. -/
theorem setIgnoreElement_roundtrip_amended
    (t R C : List Char) (st tw : Bool) (ts tww : Int) (tr : List String)
    (hRt : ∀ c ∈ R, ¬ c = '>')
    (hCne : C ≠ [])
    (hCdot : ∀ c ∈ C, isDotNl c = true)
    (hCws : ∀ c ∈ C, isWsJS c = true → c = '\n' ∨ c = '\r' ∨ c = ' ')
    (hCkey : containsSub XKEY C = false)
    (hclose : ∀ j, j < C.length → (closeTag t).isPrefixOf ((C ++ closeTag t).drop j) = false)
    (hplaceE : ∀ j, j < ('<' :: (t ++ R ++ ['>'])).length →
      C.isPrefixOf ((('<' :: (t ++ R ++ ['>'])) ++ (C ++ closeTag t)).drop j) = false)
    (hplaceD : ∀ j, j < ('<' :: (t ++ R ++ ['>'])).length →
      (encIgn XKEY C).isPrefixOf
        ((('<' :: (t ++ R ++ ['>'])) ++ (encIgn XKEY C ++ closeTag t)).drop j) = false) :
    unsetIgnoreElement
        (setIgnoreElement ⟨('<' :: (t ++ R ++ ['>'])) ++ (C ++ closeTag t)⟩
          ⟨[⟨t⟩], ⟨XKEY⟩, st, ts, tw, tww, tr⟩)
        ⟨[⟨t⟩], ⟨XKEY⟩, st, ts, tw, tww, tr⟩
      = ⟨('<' :: (t ++ R ++ ['>'])) ++ (C ++ closeTag t)⟩ := by
  have hs : ('<' :: (t ++ R ++ ['>'])) ++ (C ++ closeTag t)
      = '<' :: (t ++ (R ++ '>' :: (C ++ (closeTag t ++ [])))) := by
    simp
  have hm1 : tryMatchElem t (('<' :: (t ++ R ++ ['>'])) ++ (C ++ closeTag t))
      = some ('<' :: (t ++ R ++ ['>']), C, []) := by
    rw [hs]
    exact tryMatchElem_split t R C [] hRt hCdot (fun j hj => by simpa using hclose j hj)
  have henc : elemScan t (encIgn XKEY) (('<' :: (t ++ R ++ ['>'])) ++ (C ++ closeTag t))
      = ('<' :: (t ++ R ++ ['>'])) ++ (encIgn XKEY C ++ closeTag t) := by
    rw [elemScan_match_nil t (encIgn XKEY) hm1, List.append_assoc,
      replaceFirst_skip C (encIgn XKEY C) ('<' :: (t ++ R ++ ['>'])) (C ++ closeTag t) hplaceE,
      replaceFirst_head C (encIgn XKEY C) (closeTag t) hCne]
  have hC'lt : ∀ c ∈ encIgn XKEY C, ¬ c = '<' := by
    intro c hc
    rw [encIgn_blocks] at hc
    obtain ⟨d, _, hd2⟩ := blockMap_mem hc
    exact (igChar_encoded d c hd2).1
  have hC'dot : ∀ c ∈ encIgn XKEY C, isDotNl c = true := by
    intro c hc
    rw [encIgn_blocks] at hc
    obtain ⟨d, _, hd2⟩ := blockMap_mem hc
    exact (igChar_encoded d c hd2).2
  have hC'ne : encIgn XKEY C ≠ [] := encIgn_ne_nil C hCne
  have hs' : ('<' :: (t ++ R ++ ['>'])) ++ (encIgn XKEY C ++ closeTag t)
      = '<' :: (t ++ (R ++ '>' :: (encIgn XKEY C ++ (closeTag t ++ [])))) := by
    simp
  have hm2 : tryMatchElem t (('<' :: (t ++ R ++ ['>'])) ++ (encIgn XKEY C ++ closeTag t))
      = some ('<' :: (t ++ R ++ ['>']), encIgn XKEY C, []) := by
    rw [hs']
    exact tryMatchElem_split t R (encIgn XKEY C) [] hRt hC'dot
      (fun j hj => no_close_in (encIgn XKEY C) (closeTag t ++ []) (closeTag t) rfl hC'lt j hj)
  have hdec : elemScan t (decIgn XKEY)
        (('<' :: (t ++ R ++ ['>'])) ++ (encIgn XKEY C ++ closeTag t))
      = ('<' :: (t ++ R ++ ['>'])) ++ (C ++ closeTag t) := by
    rw [elemScan_match_nil t (decIgn XKEY) hm2, List.append_assoc,
      replaceFirst_skip (encIgn XKEY C) (decIgn XKEY (encIgn XKEY C)) ('<' :: (t ++ R ++ ['>']))
        (encIgn XKEY C ++ closeTag t) hplaceD,
      replaceFirst_head (encIgn XKEY C) (decIgn XKEY (encIgn XKEY C)) (closeTag t) hC'ne,
      decIgn_encIgn C hCkey hCws]
  show (⟨elemScan t (decIgn XKEY)
      (elemScan t (encIgn XKEY) (('<' :: (t ++ R ++ ['>'])) ++ (C ++ closeTag t)))⟩ : String) = _
  rw [henc, hdec]

/-- Concrete instance of the amended element-ignore round trip: the spec's
own script example restores byte-for-byte. -/
theorem setIgnoreElement_roundtrip_amended_witness :
    unsetIgnoreElement
        (setIgnoreElement "<script>var a = \x22<b>\x22;</script>"
          ⟨["script"], "_!i-£___£%_", false, 2, false, 80, []⟩)
        ⟨["script"], "_!i-£___£%_", false, 2, false, 80, []⟩
      = "<script>var a = \x22<b>\x22;</script>" := by
  have h := setIgnoreElement_roundtrip_amended "script".data [] "var a = \x22<b>\x22;".data
    false false 2 80 [] (by decide) (by decide) (by decide) (by decide) (by decide)
    (by decide) (by decide) (by decide)
  exact h

end Htmlfy
